import Mathlib

/-!
# Navigation graph and path search of `AIManager.cpp`

A shallow embedding of `AAIManager` (graph generation on a vertex grid, the
steepness filter of `AddConnection`, the heuristics and the A* search) and
the properties established about it.

Conventions of the embedding
* A node actor is designated by a pointer, a natural number; the `World`
  maps a pointer to the node object it designates.
* `float` values are elements of an ordered ring or field `K`.  The square
  root and the value of `TNumericLimits<float>::Max()` are the two fields of
  `FMath`.
* The search and the heuristic are embedded twice.  In `CalculateHeuristic`,
  `GenerateAStarPath` and the functions they are made of the arithmetic is
  exact; what does not depend on rounding is stated about them.  In the
  functions whose name ends in `Fl` the result of every `float` operation
  (sum, difference, product, square root) is passed through a rounding
  function `Round`; `binary32` is the rounding to IEEE single precision.  What
  depends on rounding is stated about these.
* Loops whose trip count is not fixed by their input (`while`) are run with a
  fuel; the result `none` stands for "did not finish" (fuel exhausted, or a
  null pointer was dereferenced).
-/

namespace AGP

/-! ## Engine types -/

/-- The engine vector of three `float`s. -/
@[ext]
structure FVector (K : Type) where
  X : K
  Y : K
  Z : K

/-- The engine vector of two `float`s.  The program only ever stores grid
coordinates and their differences in it, which are integers. -/
structure FVector2D where
  X : Int
  Y : Int
deriving DecidableEq

/-- The engine's math library as far as the program uses it: `FMath::Sqrt`
and `TNumericLimits<float>::Max()`. -/
structure FMath (K : Type) where
  Sqrt : K → K
  FloatMax : K

/-- The values of `EHeuristicType` the program tests for; `UNSET` stands for
any other value of the enumeration. -/
inductive EHeuristicType where
  | EUCLIDEAN
  | OCTILE
  | CHEBYSHEV
  | UNSET
deriving DecidableEq

/-- The values of `EPathfindingType`. -/
inductive EPathfindingType where
  | A_STAR
  | JPS
deriving DecidableEq

/-- The members of `ANavigationNode` the manager reads and writes.
`Location` is what `GetActorLocation()` returns. -/
structure ANavigationNode (K : Type) where
  Location : FVector K
  bIsTraversible : Bool
  GridLocation : FVector2D
  ConnectedNodes : List Nat
  ConnectedNonTraversableNodes : List Nat
  AllConnectedNodes : List Nat
  AllConnectedDir : List FVector2D
  GScore : K
  HScore : K
  CameFrom : Option Nat

/-- The node objects, by pointer. -/
abbrev World (K : Type) := Nat → ANavigationNode K

/-- The members of `AAIManager` used by graph generation and path search. -/
structure AAIManager (K : Type) where
  AllNodes : List Nat
  AllTraversableNodes : List Nat
  AllowedAngle : K
  bSteepnessPreventConnection : Bool
  Heuristic : EHeuristicType
  Pathfinding : EPathfindingType

/-- Writes the object `n` at pointer `p`. -/
def World.set {K : Type} (W : World K) (p : Nat) (n : ANavigationNode K) : World K :=
  fun q => if q = p then n else W q

section Search

variable {K : Type} [LinearOrderedCommRing K]

/-- Modelled from the spec: `FVector::DistSquared` belongs to the engine, which
is not part of the sources; the squared straight-line distance. -/
def FVector.DistSquared (a b : FVector K) : K :=
  (b.X - a.X) * (b.X - a.X) + (b.Y - a.Y) * (b.Y - a.Y) + (b.Z - a.Z) * (b.Z - a.Z)

/-- Modelled from the spec: `FVector::Distance` belongs to the engine; the
straight-line distance, the square root of `DistSquared`. -/
def FVector.Distance (M : FMath K) (a b : FVector K) : K :=
  M.Sqrt (FVector.DistSquared a b)

/-- Modelled from the spec: `ANavigationNode::FScore()` is declared in a header
that is not part of the sources; the total score is the sum of cost-so-far and
heuristic estimate. -/
def ANavigationNode.FScore (n : ANavigationNode K) : K :=
  n.GScore + n.HScore

/-- `AAIManager::CalculateHeuristic`. -/
def CalculateHeuristic (M : FMath K) (mgr : AAIManager K)
    (CurrentNodeLocation GoalNodeLocation : FVector K) : K :=
  if mgr.Heuristic = EHeuristicType.EUCLIDEAN then
    FVector.Distance M CurrentNodeLocation GoalNodeLocation
  else if mgr.Heuristic = EHeuristicType.OCTILE ∨ mgr.Heuristic = EHeuristicType.CHEBYSHEV then
    let D1 : K := 1
    let D2 : K := if mgr.Heuristic = EHeuristicType.OCTILE then M.Sqrt 2 else 1
    let Dx : K := |GoalNodeLocation.X - CurrentNodeLocation.X|
    let Dy : K := |GoalNodeLocation.Y - CurrentNodeLocation.Y|
    D1 * (Dx + Dy) + (D2 - 2 * D1) * min Dx Dy
  else
    M.FloatMax

/-- The first loop of the search functions: every node of `AllNodes` gets
`GScore = Max`. -/
def resetGScores (M : FMath K) (W : World K) (AllNodes : List Nat) : World K :=
  AllNodes.foldl (fun W p => W.set p { W p with GScore := M.FloatMax }) W

/-- The scan `for (i = 1; i < OpenSet.Num(); i++)` for the index of the lowest
F-score: `k` iterations remain, `i` is the loop variable and `idx` the value
of `IndexLowestFScore`. -/
def scanLowestFScore (W : World K) (OpenSet : List Nat) : Nat → Nat → Nat → Nat
  | 0, _, idx => idx
  | k + 1, i, idx =>
    scanLowestFScore W OpenSet k (i + 1)
      (if (W (OpenSet.getD i 0)).FScore < (W (OpenSet.getD idx 0)).FScore then i else idx)

/-- The value of `IndexLowestFScore` after the scan. -/
def IndexLowestFScore (W : World K) (OpenSet : List Nat) : Nat :=
  scanLowestFScore W OpenSet (OpenSet.length - 1) 1 0

/-- The body of the loop over `CurrentNode->ConnectedNodes` in
`GenerateAStarPath`: the edge is weighed with `FVector::Distance`. -/
def relaxAStar (M : FMath K) (mgr : AAIManager K) (EndNode CurrentNode : Nat)
    (s : World K × List Nat) (ConnectedNode : Nat) : World K × List Nat :=
  let TentativeGScore := (s.1 CurrentNode).GScore +
    FVector.Distance M (s.1 CurrentNode).Location (s.1 ConnectedNode).Location
  if TentativeGScore < (s.1 ConnectedNode).GScore then
    (s.1.set ConnectedNode
        { s.1 ConnectedNode with
          CameFrom := some CurrentNode
          GScore := TentativeGScore
          HScore := CalculateHeuristic M mgr (s.1 ConnectedNode).Location (s.1 EndNode).Location },
      if ConnectedNode ∈ s.2 then s.2 else s.2 ++ [ConnectedNode])
  else s

/-- The back trace `while (CurrentNode != StartNode)`: follows `CameFrom` and
appends each node reached to `Path`.  A null `CameFrom` is dereferenced by the
next iteration; the result is then `none`. -/
def backTrace (W : World K) (StartNode : Nat) : Nat → Nat → List Nat → Option (List Nat)
  | 0, _, _ => none
  | fuel + 1, CurrentNode, Path =>
    if CurrentNode ≠ StartNode then
      match (W CurrentNode).CameFrom with
      | none => none
      | some c => backTrace W StartNode fuel c (Path ++ [c])
    else some Path

/-- The loop `while (OpenSet.Num() > 0)` of `GenerateAStarPath`, with the
return statements inside and after it.  The result is the returned array and
the node objects as the search leaves them. -/
def aStarLoop (M : FMath K) (mgr : AAIManager K) (StartNode EndNode : Nat) (traceFuel : Nat) :
    Nat → World K → List Nat → Option (List Nat × World K)
  | 0, _, _ => none
  | fuel + 1, W, OpenSet =>
    if OpenSet.length > 0 then
      let CurrentNode := OpenSet.getD (IndexLowestFScore W OpenSet) 0
      let OpenSet1 := OpenSet.filter (fun p => p ≠ CurrentNode)
      if CurrentNode = EndNode then
        (backTrace W StartNode traceFuel EndNode [EndNode]).map (fun Path => (Path, W))
      else
        let s := (W CurrentNode).ConnectedNodes.foldl
          (relaxAStar M mgr EndNode CurrentNode) (W, OpenSet1)
        aStarLoop M mgr StartNode EndNode traceFuel fuel s.1 s.2
    else some ([], W)

/-- The state after one iteration of the `while` loop that does not return:
the node `c` has been taken out of the open set and its connections relaxed. -/
def expand (M : FMath K) (mgr : AAIManager K) (EndNode : Nat) (W : World K) (OpenSet : List Nat) :
    World K × List Nat :=
  (W (OpenSet.getD (IndexLowestFScore W OpenSet) 0)).ConnectedNodes.foldl
    (relaxAStar M mgr EndNode (OpenSet.getD (IndexLowestFScore W OpenSet) 0))
    (W, OpenSet.filter (fun p => p ≠ OpenSet.getD (IndexLowestFScore W OpenSet) 0))

/-- The state in which `GenerateAStarPath` enters its `while` loop. -/
def initSearch (M : FMath K) (mgr : AAIManager K) (W : World K) (StartNode EndNode : Nat) :
    World K :=
  let W1 := resetGScores M W mgr.AllNodes
  let W2 := W1.set StartNode { W1 StartNode with GScore := 0 }
  W2.set StartNode { W2 StartNode with
    HScore := CalculateHeuristic M mgr (W2 StartNode).Location (W2 EndNode).Location }

/-- `AAIManager::GenerateAStarPath`.  `fuel` bounds the iterations of each of
the two `while` loops. -/
def GenerateAStarPath (M : FMath K) (mgr : AAIManager K) (W : World K)
    (StartNode EndNode : Nat) (fuel : Nat) : Option (List Nat × World K) :=
  aStarLoop M mgr StartNode EndNode fuel fuel (initSearch M mgr W StartNode EndNode) [StartNode]

/-- The array `GenerateAStarPath` returns. -/
def AStarPath (M : FMath K) (mgr : AAIManager K) (W : World K)
    (StartNode EndNode : Nat) (fuel : Nat) : Option (List Nat) :=
  (GenerateAStarPath M mgr W StartNode EndNode fuel).map Prod.fst

/-- The sum of the distances between the consecutive nodes of a sequence. -/
def pathLength (M : FMath K) (W : World K) : List Nat → K
  | [] => 0
  | [_] => 0
  | a :: b :: rest =>
    FVector.Distance M (W a).Location (W b).Location + pathLength M W (b :: rest)

/-- A sequence of nodes each of which is recorded in `ConnectedNodes` of the
one before it. -/
def IsConnectedChain (W : World K) (c : List Nat) : Prop :=
  List.Chain' (fun a b => b ∈ (W a).ConnectedNodes) c

/-- A chain of `ConnectedNodes` edges leading from `a` to `b`. -/
def ChainFromTo (W : World K) (a b : Nat) (c : List Nat) : Prop :=
  IsConnectedChain W c ∧ c.head? = some a ∧ c.getLast? = some b

/-- The node `b` can be reached from `a` by following `ConnectedNodes`. -/
def Reachable (W : World K) (a b : Nat) : Prop :=
  Relation.ReflTransGen (fun u v => v ∈ (W u).ConnectedNodes) a b

/-- The nodes listed in `nodes` form a graph: every node recorded in
`ConnectedNodes` of one of them is one of them. -/
def ClosedGraph (W : World K) (nodes : List Nat) : Prop :=
  ∀ u ∈ nodes, ∀ v ∈ (W u).ConnectedNodes, v ∈ nodes

/-- Distances between the nodes listed are not negative. -/
def SqrtNonnegOn (M : FMath K) (W : World K) (nodes : List Nat) : Prop :=
  ∀ a ∈ nodes, ∀ b ∈ nodes, 0 ≤ M.Sqrt (FVector.DistSquared (W a).Location (W b).Location)

/-- The square root is exact on the squared distances between the nodes
listed: `FVector::Distance` is the Euclidean distance there. -/
def SqrtExactOn (M : FMath K) (W : World K) (nodes : List Nat) : Prop :=
  ∀ a ∈ nodes, ∀ b ∈ nodes,
    0 ≤ M.Sqrt (FVector.DistSquared (W a).Location (W b).Location) ∧
    M.Sqrt (FVector.DistSquared (W a).Location (W b).Location) *
      M.Sqrt (FVector.DistSquared (W a).Location (W b).Location) =
      FVector.DistSquared (W a).Location (W b).Location

/-- The node `x` is the start node or has been given a score below the
maximum by the search. -/
def Visited (M : FMath K) (s : Nat) (W : World K) (x : Nat) : Prop :=
  x = s ∨ (W x).GScore < M.FloatMax

/-- What every iteration of the search loop keeps, for a search from `s` to `e`
entered with the node objects `W0`, on a graph whose nodes are listed in
`nodes`: `W` are the node objects and `O` is the open set. -/
structure CoreInv (M : FMath K) (mgr : AAIManager K) (W0 : World K) (nodes : List Nat)
    (s e : Nat) (W : World K) (O : List Nat) : Prop where
  frame : ∀ q, (W q).Location = (W0 q).Location ∧ (W q).ConnectedNodes = (W0 q).ConnectedNodes
  gstart : (W s).GScore = 0
  gnonneg : ∀ x ∈ nodes, 0 ≤ (W x).GScore
  gmax : ∀ x ∈ nodes, (W x).GScore ≤ M.FloatMax
  open_nodes : ∀ x ∈ O, x ∈ nodes
  open_vis : ∀ x ∈ O, Visited M s W x
  open_reach : ∀ x ∈ O, Reachable W0 s x
  hscore : ∀ x ∈ O, (W x).HScore = CalculateHeuristic M mgr (W0 x).Location (W0 e).Location
  link : ∀ x ∈ nodes, x ≠ s → (W x).GScore < M.FloatMax →
    ∃ c ∈ nodes, (W x).CameFrom = some c ∧ x ∈ (W0 c).ConnectedNodes ∧ Visited M s W c ∧
      (W c).GScore + FVector.Distance M (W0 c).Location (W0 x).Location ≤ (W x).GScore

/-- The edges leaving the nodes that are not in the open set are relaxed; of
the edges leaving `c`, the node being expanded, those to the nodes of `pre`. -/
def RelaxedEdges (M : FMath K) (W0 : World K) (nodes : List Nat) (c : Option Nat)
    (pre : List Nat) (W : World K) (O : List Nat) : Prop :=
  ∀ u ∈ nodes, u ∉ O → ∀ v ∈ (W0 u).ConnectedNodes, (c = some u → v ∈ pre) →
    (W v).GScore ≤ (W u).GScore + FVector.Distance M (W0 u).Location (W0 v).Location

/-- The estimate `h` never exceeds the length of a chain to the end node. -/
def Admissible (M : FMath K) (W0 : World K) (nodes : List Nat) (e : Nat) (h : Nat → K) : Prop :=
  ∀ (c : List Nat) (x : Nat), IsConnectedChain W0 c → c.head? = some x → c.getLast? = some e →
    x ∈ nodes → h x ≤ pathLength M W0 c

/-- All lists of at most `n` nodes of `nodes`. -/
def listsUpTo (nodes : List Nat) : Nat → List (List Nat)
  | 0 => [[]]
  | n + 1 => [] :: (listsUpTo nodes n).flatMap fun l => nodes.map fun x => x :: l

/-- The number of sequences of nodes that are shorter than the score of their
last node: what the search can still improve.  It drops whenever a score is
lowered to the length of a sequence without repetition. -/
def pending (M : FMath K) (W0 : World K) (nodes : List Nat) (W : World K) : Nat :=
  (listsUpTo nodes nodes.length).countP fun l =>
    match l.getLast? with
    | some x => decide (pathLength M W0 l < (W x).GScore)
    | none => false

/-- The sequence `w` accounts for the score of the node `x`: it consists of
distinct nodes of the graph, ends at `x`, is as long as the score of `x`, and
none of its initial segments is shorter than the score of the node it ends
at. -/
def WalkOK (M : FMath K) (W0 : World K) (nodes : List Nat) (W : World K) (w : List Nat)
    (x : Nat) : Prop :=
  w.Nodup ∧ (∀ y ∈ w, y ∈ nodes) ∧ w.getLast? = some x ∧
    pathLength M W0 w = (W x).GScore ∧
    ∀ q, q <+: w → ∀ y, q.getLast? = some y → (W y).GScore ≤ pathLength M W0 q

/-- The score of every visited node is accounted for by a sequence. -/
def WalksInv (M : FMath K) (W0 : World K) (nodes : List Nat) (s : Nat) (W : World K) : Prop :=
  ∀ x ∈ nodes, Visited M s W x → ∃ w, WalkOK M W0 nodes W w x

/-- The body of the loop over `CurrentNode->ConnectedNodes` in
`GenerateJPSPath`: the edge is weighed with `CalculateHeuristic`. -/
def relaxJPS (M : FMath K) (mgr : AAIManager K) (EndNode CurrentNode : Nat)
    (s : World K × List Nat) (ConnectedNode : Nat) : World K × List Nat :=
  let TentativeGScore := (s.1 CurrentNode).GScore +
    CalculateHeuristic M mgr (s.1 CurrentNode).Location (s.1 ConnectedNode).Location
  if TentativeGScore < (s.1 ConnectedNode).GScore then
    (s.1.set ConnectedNode
        { s.1 ConnectedNode with
          CameFrom := some CurrentNode
          GScore := TentativeGScore
          HScore := CalculateHeuristic M mgr (s.1 ConnectedNode).Location (s.1 EndNode).Location },
      if ConnectedNode ∈ s.2 then s.2 else s.2 ++ [ConnectedNode])
  else s

/-- The loop `while (OpenSet.Num() > 0)` of `GenerateJPSPath`, with the return
statements inside and after it. -/
def jpsLoop (M : FMath K) (mgr : AAIManager K) (StartNode EndNode : Nat) (traceFuel : Nat) :
    Nat → World K → List Nat → Option (List Nat × World K)
  | 0, _, _ => none
  | fuel + 1, W, OpenSet =>
    if OpenSet.length > 0 then
      let CurrentNode := OpenSet.getD (IndexLowestFScore W OpenSet) 0
      let OpenSet1 := OpenSet.filter (fun p => p ≠ CurrentNode)
      if CurrentNode = EndNode then
        (backTrace W StartNode traceFuel EndNode [EndNode]).map (fun Path => (Path, W))
      else
        let s := (W CurrentNode).ConnectedNodes.foldl
          (relaxJPS M mgr EndNode CurrentNode) (W, OpenSet1)
        jpsLoop M mgr StartNode EndNode traceFuel fuel s.1 s.2
    else some ([], W)

/-- `AAIManager::GenerateJPSPath`.  `fuel` bounds the iterations of each of the
two `while` loops.  The state in which the loop is entered is set up by the
same statements as in `GenerateAStarPath`. -/
def GenerateJPSPath (M : FMath K) (mgr : AAIManager K) (W : World K)
    (StartNode EndNode : Nat) (fuel : Nat) : Option (List Nat × World K) :=
  jpsLoop M mgr StartNode EndNode fuel fuel (initSearch M mgr W StartNode EndNode) [StartNode]

/-- The body of the loop of `FindNearestNode`; the state is `NearestNode`
(`none` for `nullptr`) and `NearestDistance`. -/
def nearestStep (M : FMath K) (W : World K) (Location : FVector K)
    (s : Option Nat × K) (CurrentNode : Nat) : Option Nat × K :=
  let CurrentNodeDistance := FVector.Distance M Location (W CurrentNode).Location
  if CurrentNodeDistance < s.2 then (some CurrentNode, CurrentNodeDistance) else s

/-- `AAIManager::FindNearestNode`.  The log statement before the `return`
calls `GetName()` on `NearestNode`: when that is `nullptr` the call does not
complete, result `none`; otherwise the result is the pointer returned. -/
def FindNearestNode (M : FMath K) (mgr : AAIManager K) (W : World K) (Location : FVector K) :
    Option (Option Nat) :=
  match (mgr.AllTraversableNodes.foldl (nearestStep M W Location) (none, M.FloatMax)).1 with
  | none => none
  | some NearestNode => some (some NearestNode)

/-- The body of the loop of `FindFurthestNode`; the state is `FurthestNode`
(`none` for `nullptr`) and `FurthestDistance`. -/
def furthestStep (M : FMath K) (W : World K) (Location : FVector K)
    (s : Option Nat × K) (CurrentNode : Nat) : Option Nat × K :=
  let CurrentNodeDistance := FVector.Distance M Location (W CurrentNode).Location
  if CurrentNodeDistance > s.2 then (some CurrentNode, CurrentNodeDistance) else s

/-- `AAIManager::FindFurthestNode`.  As in `FindNearestNode` the log statement
dereferences the node found. -/
def FindFurthestNode (M : FMath K) (mgr : AAIManager K) (W : World K) (Location : FVector K) :
    Option (Option Nat) :=
  match (mgr.AllTraversableNodes.foldl (furthestStep M W Location) (none, 0)).1 with
  | none => none
  | some FurthestNode => some (some FurthestNode)

/-! ### The search in `float` arithmetic -/

/-- Modelled from the spec: `FVector::DistSquared` of the engine in `float`
arithmetic, the sum of the squares of the three differences, each operation
rounded. -/
def FVector.DistSquaredFl (Round : K → K) (a b : FVector K) : K :=
  Round (Round (Round (Round (b.X - a.X) * Round (b.X - a.X)) +
      Round (Round (b.Y - a.Y) * Round (b.Y - a.Y))) +
    Round (Round (b.Z - a.Z) * Round (b.Z - a.Z)))

/-- Modelled from the spec: `FVector::Distance` of the engine in `float`
arithmetic, the rounded square root of `DistSquared`. -/
def FVector.DistanceFl (Round : K → K) (M : FMath K) (a b : FVector K) : K :=
  Round (M.Sqrt (FVector.DistSquaredFl Round a b))

/-- Modelled from the spec: `ANavigationNode::FScore()` in `float` arithmetic,
the rounded sum of cost-so-far and heuristic estimate. -/
def ANavigationNode.FScoreFl (Round : K → K) (n : ANavigationNode K) : K :=
  Round (n.GScore + n.HScore)

/-- `AAIManager::CalculateHeuristic` in `float` arithmetic: the result of every
operation of the expression `D1*(Dx+Dy) + (D2-2*D1)*FMath::Min(Dx,Dy)` and of
the two differences is rounded. -/
def CalculateHeuristicFl (Round : K → K) (M : FMath K) (mgr : AAIManager K)
    (CurrentNodeLocation GoalNodeLocation : FVector K) : K :=
  if mgr.Heuristic = EHeuristicType.EUCLIDEAN then
    FVector.DistanceFl Round M CurrentNodeLocation GoalNodeLocation
  else if mgr.Heuristic = EHeuristicType.OCTILE ∨ mgr.Heuristic = EHeuristicType.CHEBYSHEV then
    let D1 : K := 1
    let D2 : K := if mgr.Heuristic = EHeuristicType.OCTILE then Round (M.Sqrt 2) else 1
    let Dx : K := |Round (GoalNodeLocation.X - CurrentNodeLocation.X)|
    let Dy : K := |Round (GoalNodeLocation.Y - CurrentNodeLocation.Y)|
    Round (Round (D1 * Round (Dx + Dy)) + Round (Round (D2 - Round (2 * D1)) * min Dx Dy))
  else
    M.FloatMax

/-- The scan for the index of the lowest F-score, with the F-scores of `float`
arithmetic. -/
def scanLowestFScoreFl (Round : K → K) (W : World K) (OpenSet : List Nat) : Nat → Nat → Nat → Nat
  | 0, _, idx => idx
  | k + 1, i, idx =>
    scanLowestFScoreFl Round W OpenSet k (i + 1)
      (if (W (OpenSet.getD i 0)).FScoreFl Round < (W (OpenSet.getD idx 0)).FScoreFl Round
        then i else idx)

/-- The value of `IndexLowestFScore` after the scan, in `float` arithmetic. -/
def IndexLowestFScoreFl (Round : K → K) (W : World K) (OpenSet : List Nat) : Nat :=
  scanLowestFScoreFl Round W OpenSet (OpenSet.length - 1) 1 0

/-- The body of the loop over `CurrentNode->ConnectedNodes` in
`GenerateAStarPath` in `float` arithmetic: `TentativeGScore` is the rounded sum
of the score of the current node and the distance. -/
def relaxAStarFl (Round : K → K) (M : FMath K) (mgr : AAIManager K) (EndNode CurrentNode : Nat)
    (s : World K × List Nat) (ConnectedNode : Nat) : World K × List Nat :=
  let TentativeGScore := Round ((s.1 CurrentNode).GScore +
    FVector.DistanceFl Round M (s.1 CurrentNode).Location (s.1 ConnectedNode).Location)
  if TentativeGScore < (s.1 ConnectedNode).GScore then
    (s.1.set ConnectedNode
        { s.1 ConnectedNode with
          CameFrom := some CurrentNode
          GScore := TentativeGScore
          HScore := CalculateHeuristicFl Round M mgr (s.1 ConnectedNode).Location
            (s.1 EndNode).Location },
      if ConnectedNode ∈ s.2 then s.2 else s.2 ++ [ConnectedNode])
  else s

/-- The loop `while (OpenSet.Num() > 0)` of `GenerateAStarPath` in `float`
arithmetic. -/
def aStarLoopFl (Round : K → K) (M : FMath K) (mgr : AAIManager K) (StartNode EndNode : Nat)
    (traceFuel : Nat) : Nat → World K → List Nat → Option (List Nat × World K)
  | 0, _, _ => none
  | fuel + 1, W, OpenSet =>
    if OpenSet.length > 0 then
      let CurrentNode := OpenSet.getD (IndexLowestFScoreFl Round W OpenSet) 0
      let OpenSet1 := OpenSet.filter (fun p => p ≠ CurrentNode)
      if CurrentNode = EndNode then
        (backTrace W StartNode traceFuel EndNode [EndNode]).map (fun Path => (Path, W))
      else
        let s := (W CurrentNode).ConnectedNodes.foldl
          (relaxAStarFl Round M mgr EndNode CurrentNode) (W, OpenSet1)
        aStarLoopFl Round M mgr StartNode EndNode traceFuel fuel s.1 s.2
    else some ([], W)

/-- The state in which `GenerateAStarPath` enters its `while` loop, in `float`
arithmetic. -/
def initSearchFl (Round : K → K) (M : FMath K) (mgr : AAIManager K) (W : World K)
    (StartNode EndNode : Nat) : World K :=
  let W1 := resetGScores M W mgr.AllNodes
  let W2 := W1.set StartNode { W1 StartNode with GScore := 0 }
  W2.set StartNode { W2 StartNode with
    HScore := CalculateHeuristicFl Round M mgr (W2 StartNode).Location (W2 EndNode).Location }

/-- `AAIManager::GenerateAStarPath` in `float` arithmetic.  `fuel` bounds the
iterations of each of the two `while` loops. -/
def GenerateAStarPathFl (Round : K → K) (M : FMath K) (mgr : AAIManager K) (W : World K)
    (StartNode EndNode : Nat) (fuel : Nat) : Option (List Nat × World K) :=
  aStarLoopFl Round M mgr StartNode EndNode fuel fuel
    (initSearchFl Round M mgr W StartNode EndNode) [StartNode]

/-- The array `GenerateAStarPath` returns in `float` arithmetic. -/
def AStarPathFl (Round : K → K) (M : FMath K) (mgr : AAIManager K) (W : World K)
    (StartNode EndNode : Nat) (fuel : Nat) : Option (List Nat) :=
  (GenerateAStarPathFl Round M mgr W StartNode EndNode fuel).map Prod.fst

/-- The sum of the `float` distances between the consecutive nodes of a
sequence as a loop over the sequence accumulates it in a `float`, from the
value `acc`. -/
def pathLengthFlFrom (Round : K → K) (M : FMath K) (W : World K) : K → List Nat → K
  | acc, [] => acc
  | acc, [_] => acc
  | acc, a :: b :: rest =>
    pathLengthFlFrom Round M W
      (Round (acc + FVector.DistanceFl Round M (W a).Location (W b).Location)) (b :: rest)

/-- The length of a sequence of nodes summed in `float` arithmetic, in the
order of the sequence. -/
def pathLengthFl (Round : K → K) (M : FMath K) (W : World K) (l : List Nat) : K :=
  pathLengthFlFrom Round M W 0 l

/-- The `float` arithmetic of a search to `EndNode` rounds nothing on the graph
with the nodes `nodes`: the distance between two nodes and the heuristic
estimate of a node are computed exactly, and the sum of the distances along a
sequence of nodes, with or without the estimate of its last node added, is a
number that rounding does not move. -/
def RoundsNothing (Round : K → K) (M : FMath K) (mgr : AAIManager K) (W : World K)
    (nodes : List Nat) (EndNode : Nat) : Prop :=
  (∀ a ∈ nodes, ∀ b ∈ nodes,
    FVector.DistanceFl Round M (W a).Location (W b).Location =
      FVector.Distance M (W a).Location (W b).Location) ∧
  (∀ x ∈ nodes,
    CalculateHeuristicFl Round M mgr (W x).Location (W EndNode).Location =
      CalculateHeuristic M mgr (W x).Location (W EndNode).Location) ∧
  (∀ l ∈ listsUpTo nodes (nodes.length + 1), Round (pathLength M W l) = pathLength M W l) ∧
  (∀ l ∈ listsUpTo nodes nodes.length, ∀ x ∈ nodes, l.getLast? = some x →
    Round (pathLength M W l + CalculateHeuristic M mgr (W x).Location (W EndNode).Location) =
      pathLength M W l + CalculateHeuristic M mgr (W x).Location (W EndNode).Location)

/-- What is used of rounding to a floating-point format: a rounded number is
not moved by rounding again, the opposite of a number is rounded to the
opposite, and 1 and 2 are numbers of the format. -/
structure IsRounding (Round : K → K) : Prop where
  idem : ∀ x, Round (Round x) = Round x
  neg : ∀ x, Round (-x) = - Round x
  one : Round 1 = 1
  two : Round 2 = 2

/-- Rounding moves the sum of two numbers of the format that are not negative
by at most the fraction `u` of the sum, and not below the first of the two. -/
structure RoundsWithin (Round : K → K) (u : K) : Prop where
  unit_nonneg : 0 ≤ u
  unit_le_one : u ≤ 1
  add_lower : ∀ a b, Round a = a → Round b = b → 0 ≤ a → 0 ≤ b →
    (1 - u) * (a + b) ≤ Round (a + b)
  add_upper : ∀ a b, Round a = a → Round b = b → 0 ≤ a → 0 ≤ b →
    Round (a + b) ≤ (1 + u) * (a + b)
  add_ge : ∀ a b, Round a = a → Round b = b → 0 ≤ a → 0 ≤ b → a ≤ Round (a + b)

/-- The distance between two nodes of the graph as `float` arithmetic computes
it differs from the distance by at most the fraction `δ` of the distance. -/
def DistanceWithin (Round : K → K) (M : FMath K) (W : World K) (nodes : List Nat) (δ : K) :
    Prop :=
  ∀ a ∈ nodes, ∀ b ∈ nodes,
    (1 - δ) * FVector.Distance M (W a).Location (W b).Location ≤
        FVector.DistanceFl Round M (W a).Location (W b).Location ∧
      FVector.DistanceFl Round M (W a).Location (W b).Location ≤
        (1 + δ) * FVector.Distance M (W a).Location (W b).Location

/-- The estimate of a node of the graph as `float` arithmetic computes it is a
number of the format, is not negative and exceeds the distance of the node to
the end node by at most the fraction `η` of the distance. -/
def EstimateWithin (Round : K → K) (M : FMath K) (mgr : AAIManager K) (W : World K)
    (nodes : List Nat) (EndNode : Nat) (η : K) : Prop :=
  ∀ x ∈ nodes,
    Round (CalculateHeuristicFl Round M mgr (W x).Location (W EndNode).Location) =
        CalculateHeuristicFl Round M mgr (W x).Location (W EndNode).Location ∧
      0 ≤ CalculateHeuristicFl Round M mgr (W x).Location (W EndNode).Location ∧
      CalculateHeuristicFl Round M mgr (W x).Location (W EndNode).Location ≤
        (1 + η) * FVector.Distance M (W x).Location (W EndNode).Location

/-- What every iteration of the search loop in `float` arithmetic keeps, for a
search from `s` to `e` entered with the node objects `W0`: `W` are the node
objects and `O` is the open set; `u` bounds the relative error of a sum. -/
structure CoreInvFl (Round : K → K) (M : FMath K) (mgr : AAIManager K) (W0 : World K)
    (nodes : List Nat) (s e : Nat) (u : K) (W : World K) (O : List Nat) : Prop where
  frame : ∀ q, (W q).Location = (W0 q).Location ∧ (W q).ConnectedNodes = (W0 q).ConnectedNodes
  gstart : (W s).GScore = 0
  gnonneg : ∀ x ∈ nodes, 0 ≤ (W x).GScore
  gmax : ∀ x ∈ nodes, (W x).GScore ≤ M.FloatMax
  gfloat : ∀ x ∈ nodes, Visited M s W x → Round (W x).GScore = (W x).GScore
  open_nodes : ∀ x ∈ O, x ∈ nodes
  open_vis : ∀ x ∈ O, Visited M s W x
  hscore : ∀ x ∈ O,
    (W x).HScore = CalculateHeuristicFl Round M mgr (W0 x).Location (W0 e).Location
  link : ∀ x ∈ nodes, x ≠ s → (W x).GScore < M.FloatMax →
    ∃ c ∈ nodes, (W x).CameFrom = some c ∧ x ∈ (W0 c).ConnectedNodes ∧ Visited M s W c ∧
      (1 - u) * ((W c).GScore + FVector.DistanceFl Round M (W0 c).Location (W0 x).Location) ≤
        (W x).GScore

/-- The edges leaving the nodes that are not in the open set are relaxed up to
rounding; of the edges leaving `c`, the node being expanded, those to the nodes
of `pre`. -/
def RelaxedEdgesFl (Round : K → K) (M : FMath K) (W0 : World K) (nodes : List Nat) (u : K)
    (c : Option Nat) (pre : List Nat) (W : World K) (O : List Nat) : Prop :=
  ∀ a ∈ nodes, a ∉ O → ∀ v ∈ (W0 a).ConnectedNodes, (c = some a → v ∈ pre) →
    (W v).GScore ≤
      (1 + u) * ((W a).GScore + FVector.DistanceFl Round M (W0 a).Location (W0 v).Location)

end Search

section Generation

variable {K : Type} [LinearOrderedField K]

/-- The component-wise difference of two vectors, `operator-` of `FVector`. -/
def FVector.sub (a b : FVector K) : FVector K :=
  ⟨a.X - b.X, a.Y - b.Y, a.Z - b.Z⟩

/-- Modelled from the spec: `FVector::Normalize` belongs to the engine; it
scales the vector to the unit direction vector.  The zero vector, which has no
direction, is left as it is. -/
def FVector.Normalize (M : FMath K) (v : FVector K) : FVector K :=
  let SquareSum := v.X * v.X + v.Y * v.Y + v.Z * v.Z
  if SquareSum > 0 then
    let Scale := 1 / M.Sqrt SquareSum
    ⟨v.X * Scale, v.Y * Scale, v.Z * Scale⟩
  else v

/-- `operator-` of `FVector2D`. -/
def FVector2D.sub (a b : FVector2D) : FVector2D :=
  ⟨a.X - b.X, a.Y - b.Y⟩

/-- The value of `bCanConnect` that `AddConnection` computes. -/
def bCanConnect (M : FMath K) (mgr : AAIManager K) (W : World K) (FromNode ToNode : Nat) : Bool :=
  if mgr.bSteepnessPreventConnection then
    let Direction := FVector.Normalize M (FVector.sub (W FromNode).Location (W ToNode).Location)
    decide (Direction.Z < mgr.AllowedAngle ∧ Direction.Z > mgr.AllowedAngle * -1)
  else true

/-- `AAIManager::AddConnection`. -/
def AddConnection (M : FMath K) (mgr : AAIManager K) (W : World K) (FromNode ToNode : Nat) :
    World K :=
  if bCanConnect M mgr W FromNode ToNode then
    let W1 :=
      if !(W ToNode).bIsTraversible then
        W.set FromNode { W FromNode with
          ConnectedNonTraversableNodes := (W FromNode).ConnectedNonTraversableNodes ++ [ToNode] }
      else
        W.set FromNode { W FromNode with
          ConnectedNodes := (W FromNode).ConnectedNodes ++ [ToNode] }
    let W2 := W1.set FromNode { W1 FromNode with
      AllConnectedNodes := (W1 FromNode).AllConnectedNodes ++ [ToNode] }
    let Dir2D := FVector2D.sub (W2 ToNode).GridLocation (W2 FromNode).GridLocation
    W2.set FromNode { W2 FromNode with
      AllConnectedDir := (W2 FromNode).AllConnectedDir ++ [Dir2D] }
  else W

/-- Modelled from the spec: `TArray::operator[]` belongs to the engine; a read
at an index that is not in `[0, Num())` is out of range, `none`. -/
def TArray.at {α : Type} (A : List α) (i : Int) : Option α :=
  if i < 0 then none else A.get? i.toNat

/-- Modelled from the spec: the class `ANavigationNode` is declared in a header
that is not part of the sources.  The node object
`SpawnActor<ANavigationNode>` creates at a location: no connection is recorded
on it yet. -/
def SpawnActor (Location : FVector K) (bIsTraversible : Bool) : ANavigationNode K :=
  { Location := Location
    bIsTraversible := bIsTraversible
    GridLocation := ⟨0, 0⟩
    ConnectedNodes := []
    ConnectedNonTraversableNodes := []
    AllConnectedNodes := []
    AllConnectedDir := []
    GScore := 0
    HScore := 0
    CameFrom := none }

/-- The pairs `(Col, Row)` in the order in which
`for (Col = 0; Col < Width; Col++) for (Row = 0; Row < Height; Row++)` visits
them. -/
def gridCells (Width Height : Int) : List (Int × Int) :=
  (List.range Width.toNat).flatMap fun (c : Nat) =>
    (List.range Height.toNat).map fun (r : Nat) => ((c : Int), (r : Int))

/-- The body of the first loop nest of `GenerateNodes`: spawns the node of
cell `(Col, Row)` at `Vertices[Row * Width + Col]`, adds it to `AllNodes` (and
to `AllTraversableNodes`) and sets its `GridLocation`.  The node spawned gets
the next unused pointer; `Traversible` tells whether a spawned node comes up
traversable. -/
def spawnCell (Traversible : Nat → Bool) (Vertices : List (FVector K)) (Width : Int)
    (s : AAIManager K × World K) (cell : Int × Int) : Option (AAIManager K × World K) :=
  match TArray.at Vertices (cell.2 * Width + cell.1) with
  | none => none
  | some v =>
    let Node := s.1.AllNodes.length
    let obj : ANavigationNode K :=
      { SpawnActor v (Traversible Node) with GridLocation := ⟨cell.1, cell.2⟩ }
    some ({ s.1 with
            AllNodes := s.1.AllNodes ++ [Node]
            AllTraversableNodes :=
              if obj.bIsTraversible then s.1.AllTraversableNodes ++ [Node]
              else s.1.AllTraversableNodes },
          s.2.set Node obj)

/-- The indices `t` of the calls `AddConnection(AllNodes[Row * Width + Col], AllNodes[t])`
that the second loop nest of `GenerateNodes` makes for `(Col, Row)`, in the
order of the source. -/
def connectionTargets (Width Height Col Row : Int) : List Int :=
  if Row = 0 ∧ Col = 0 then
    [(Row + 1) * Width + Col, (Row + 1) * Width + (Col + 1), Row * Width + (Col + 1)]
  else if Row = 0 ∧ Col = Width - 1 then
    [(Row + 1) * Width + Col, (Row + 1) * Width + (Col - 1), Row * Width + (Col - 1)]
  else if Row = Height - 1 ∧ Col = 0 then
    [(Row - 1) * Width + Col, (Row - 1) * Width + (Col + 1), Row * Width + (Col + 1)]
  else if Row = Height - 1 ∧ Col = Width - 1 then
    [(Row - 1) * Width + Col, (Row - 1) * Width + (Col - 1), Row * Width + (Col - 1)]
  else if Col = 0 then
    [(Row + 1) * Width + Col, (Row + 1) * Width + (Col + 1), Row * Width + (Col + 1),
     (Row - 1) * Width + Col, (Row - 1) * Width + (Col + 1)]
  else if Row = Height - 1 then
    [Row * Width + (Col - 1), Row * Width + (Col + 1), (Row - 1) * Width + (Col - 1),
     (Row - 1) * Width + Col, (Row - 1) * Width + (Col + 1)]
  else if Col = Width - 1 then
    [(Row + 1) * Width + Col, (Row + 1) * Width + (Col - 1), Row * Width + (Col - 1),
     (Row - 1) * Width + Col, (Row - 1) * Width + (Col - 1)]
  else if Row = 0 then
    [Row * Width + (Col - 1), Row * Width + (Col + 1), (Row + 1) * Width + (Col - 1),
     (Row + 1) * Width + Col, (Row + 1) * Width + (Col + 1)]
  else
    [(Row + 1) * Width + (Col - 1), (Row + 1) * Width + Col, (Row + 1) * Width + (Col + 1),
     Row * Width + (Col - 1), Row * Width + (Col + 1), (Row - 1) * Width + (Col - 1),
     (Row - 1) * Width + Col, (Row - 1) * Width + (Col + 1)]

/-- One call `AddConnection(AllNodes[from], AllNodes[to])`, with the two
range-checked reads of `AllNodes`. -/
def connectCall (M : FMath K) (mgr : AAIManager K) (fromIdx : Int) (W : World K) (toIdx : Int) :
    Option (World K) :=
  match TArray.at mgr.AllNodes fromIdx, TArray.at mgr.AllNodes toIdx with
  | some FromNode, some ToNode => some (AddConnection M mgr W FromNode ToNode)
  | _, _ => none

/-- The body of the second loop nest of `GenerateNodes` for `(Col, Row)`. -/
def connectCell (M : FMath K) (mgr : AAIManager K) (Width Height : Int)
    (W : World K) (cell : Int × Int) : Option (World K) :=
  (connectionTargets Width Height cell.1 cell.2).foldlM
    (connectCall M mgr (cell.2 * Width + cell.1)) W

/-- `AAIManager::GenerateNodes`: `none` when an array is read out of range.
The nodes destroyed at the beginning leave the arrays empty; the nodes spawned
overwrite the objects of `W`. -/
def GenerateNodes (M : FMath K) (mgr : AAIManager K) (W : World K) (Traversible : Nat → Bool)
    (Vertices : List (FVector K)) (Width Height : Int) : Option (AAIManager K × World K) :=
  match (gridCells Width Height).foldlM (spawnCell Traversible Vertices Width)
      ({ mgr with AllNodes := [], AllTraversableNodes := [] }, W) with
  | none => none
  | some s =>
    match (gridCells Width Height).foldlM (connectCell M s.1 Width Height) s.2 with
    | none => none
    | some W2 => some (s.1, W2)

/-- The cells `(Col', Row')` named by the index expressions of
`connectionTargets`: the entry for a cell is `Row' * Width + Col'`. -/
def targetCells (Width Height Col Row : Int) : List (Int × Int) :=
  if Row = 0 ∧ Col = 0 then
    [(Col, Row + 1), (Col + 1, Row + 1), (Col + 1, Row)]
  else if Row = 0 ∧ Col = Width - 1 then
    [(Col, Row + 1), (Col - 1, Row + 1), (Col - 1, Row)]
  else if Row = Height - 1 ∧ Col = 0 then
    [(Col, Row - 1), (Col + 1, Row - 1), (Col + 1, Row)]
  else if Row = Height - 1 ∧ Col = Width - 1 then
    [(Col, Row - 1), (Col - 1, Row - 1), (Col - 1, Row)]
  else if Col = 0 then
    [(Col, Row + 1), (Col + 1, Row + 1), (Col + 1, Row), (Col, Row - 1), (Col + 1, Row - 1)]
  else if Row = Height - 1 then
    [(Col - 1, Row), (Col + 1, Row), (Col - 1, Row - 1), (Col, Row - 1), (Col + 1, Row - 1)]
  else if Col = Width - 1 then
    [(Col, Row + 1), (Col - 1, Row + 1), (Col - 1, Row), (Col, Row - 1), (Col - 1, Row - 1)]
  else if Row = 0 then
    [(Col - 1, Row), (Col + 1, Row), (Col - 1, Row + 1), (Col, Row + 1), (Col + 1, Row + 1)]
  else
    [(Col - 1, Row + 1), (Col, Row + 1), (Col + 1, Row + 1), (Col - 1, Row), (Col + 1, Row),
     (Col - 1, Row - 1), (Col, Row - 1), (Col + 1, Row - 1)]

/-- The nodes that the adjacency sweep records on `AllNodes[i]` when `AllNodes`
holds the pointers `0, 1, ...` in order: the targets of the cell
`(i % Width, i / Width)` whose connection `AddConnection` accepts. -/
def acceptedTargets (M : FMath K) (mgr : AAIManager K) (W : World K) (Width Height : Int)
    (i : Nat) : List Nat :=
  ((connectionTargets Width Height ((i : Int) % Width) ((i : Int) / Width)).map Int.toNat).filter
    fun t => bCanConnect M mgr W i t

/-- Two worlds agree on what the adjacency sweep reads of a node: location,
grid location and traversability. -/
def SameFrame (W1 W2 : World K) : Prop :=
  ∀ q, (W1 q).Location = (W2 q).Location ∧ (W1 q).GridLocation = (W2 q).GridLocation ∧
    (W1 q).bIsTraversible = (W2 q).bIsTraversible

/-- The four connection lists of the node object `n` are those of `n0` followed
by what the sweep at index `i` records. -/
def SweptFrom (M : FMath K) (mgr : AAIManager K) (W : World K) (Width Height : Int) (i : Nat)
    (n0 n : ANavigationNode K) : Prop :=
  n.AllConnectedNodes = n0.AllConnectedNodes ++ acceptedTargets M mgr W Width Height i ∧
  n.AllConnectedDir = n0.AllConnectedDir ++
    (acceptedTargets M mgr W Width Height i).map
      (fun t => FVector2D.sub (W t).GridLocation (W i).GridLocation) ∧
  n.ConnectedNodes = n0.ConnectedNodes ++
    (acceptedTargets M mgr W Width Height i).filter (fun t => (W t).bIsTraversible) ∧
  n.ConnectedNonTraversableNodes = n0.ConnectedNonTraversableNodes ++
    (acceptedTargets M mgr W Width Height i).filter (fun t => !(W t).bIsTraversible)

end Generation

/-- The Chebyshev distance of two grid locations. -/
def gridChebyshev (a b : FVector2D) : Int :=
  max |a.X - b.X| |a.Y - b.Y|

/-! ## The `float` format -/

/-- The integer nearest to `y`; of two nearest integers the even one. -/
def roundHalfEven (y : ℚ) : Int :=
  if y - ⌊y⌋ < 1 / 2 then ⌊y⌋
  else if 1 / 2 < y - ⌊y⌋ then ⌊y⌋ + 1
  else if ⌊y⌋ % 2 = 0 then ⌊y⌋ else ⌊y⌋ + 1

/-- The number of binary digits of `n`, found in at most `fuel` halvings. -/
def bitLength : Nat → Nat → Nat
  | 0, _ => 0
  | fuel + 1, n => if n = 0 then 0 else bitLength fuel (n / 2) + 1

/-- The exponent `e` of the power of two with `2 ^ e ≤ x < 2 ^ (e + 1)`, for a
positive `x`. -/
def binade (x : ℚ) : Int :=
  let d : Int := (bitLength x.num.toNat x.num.toNat : Int) - (bitLength x.den x.den : Int)
  if (2 : ℚ) ^ d ≤ x then d else d - 1

/-- A positive number rounded to 24 significant binary digits, to the nearest
and to even on a tie; below `2 ^ (-126)` the spacing is that of the lowest
binade, `2 ^ (-149)`. -/
def roundPos (x : ℚ) : ℚ :=
  (roundHalfEven (x / (2 : ℚ) ^ (max (binade x) (-126) - 23)) : ℚ) *
    (2 : ℚ) ^ (max (binade x) (-126) - 23)

/-- Rounding to the nearest number of the IEEE single precision format
(`float`), ties to even.  The exponent is not bounded above: overflow to
infinity is not represented. -/
def binary32 (x : ℚ) : ℚ :=
  if 0 < x then roundPos x else if x < 0 then - roundPos (-x) else 0

/-! ## Concrete inputs -/

/-- Newton's iteration for the integer square root of `n`, from the estimate
`x`. -/
def natSqrtFrom (n : Nat) : Nat → Nat → Nat
  | 0, x => x
  | fuel + 1, x => if x * x ≤ n then x else natSqrtFrom n fuel ((x + n / x) / 2)

/-- The integer square root, rounded down. -/
def natSqrt (n : Nat) : Nat := natSqrtFrom n 200 n

/-- The integer square root of an integer, exact on perfect squares. -/
def isqrt (n : Int) : Int := natSqrt n.toNat

/-- Integer arithmetic with the integer square root. -/
def intMath : FMath Int := ⟨isqrt, 1000000⟩

/-- A traversable node at an integer position with the given `ConnectedNodes`. -/
def nodeAt (x y z : Int) (c : List Nat) : ANavigationNode Int :=
  ⟨⟨x, y, z⟩, true, ⟨0, 0⟩, c, [], c, [], 0, 0, none⟩

/-- Four nodes on a line: two routes lead from node 0 to node 3, over node 1
(length 1 + 2) and over node 2 (length 1 + 4). -/
def diamondWorld : World Int := fun p =>
  match p with
  | 0 => nodeAt 0 0 0 [1, 2]
  | 1 => nodeAt 1 0 0 [0, 3]
  | 2 => nodeAt (-1) 0 0 [0, 3]
  | 3 => nodeAt 3 0 0 [1, 2]
  | _ => nodeAt 0 0 0 []

/-- A manager over the four nodes of `diamondWorld`. -/
def diamondManager : AAIManager Int :=
  ⟨[0, 1, 2, 3], [0, 1, 2, 3], 0, false, EHeuristicType.EUCLIDEAN, EPathfindingType.A_STAR⟩

/-- Node 3 of `diamondWorld` with a `CameFrom` left over from an earlier
search that points to node 2. -/
def staleWorld : World Int := fun p =>
  if p = 3 then { diamondWorld 3 with CameFrom := some 2 } else diamondWorld p


/-- Rational arithmetic; the square root is rounded down to six decimal
places, and is exact on the squares of rational numbers with at most six
decimal places. -/
def ratMath : FMath ℚ :=
  ⟨fun q => (natSqrt (q.num.toNat * q.den * 10 ^ 12) : ℚ) / ((q.den : ℚ) * 10 ^ 6), 1000000⟩

/-- A traversable node at a rational position with the given
`ConnectedNodes`. -/
def ratNodeAt (x y z : ℚ) (c : List Nat) : ANavigationNode ℚ :=
  ⟨⟨x, y, z⟩, true, ⟨0, 0⟩, c, [], c, [], 0, 0, none⟩

/-- Four nodes: from node 0 to node 3 the route over node 1 has length
4 + 52 and the route over node 2 has length 29 + 29. -/
def detourWorld : World ℚ := fun p =>
  match p with
  | 0 => ratNodeAt 0 0 0 [1, 2]
  | 1 => ratNodeAt 0 4 0 [3]
  | 2 => ratNodeAt 24 12 11 [3]
  | 3 => ratNodeAt 48 24 0 []
  | _ => ratNodeAt 0 0 0 []

/-- A manager over the four nodes of `detourWorld` with the `OCTILE`
heuristic. -/
def octileManager : AAIManager ℚ :=
  ⟨[0, 1, 2, 3], [0, 1, 2, 3], 2 / 5, false, EHeuristicType.OCTILE, EPathfindingType.A_STAR⟩

/-- A manager with the settings of the constructor except that the steepness
filter is off. -/
def flatManager : AAIManager ℚ :=
  ⟨[], [], 2 / 5, false, EHeuristicType.EUCLIDEAN, EPathfindingType.A_STAR⟩

/-- Two nodes one unit apart on level ground and a third one three units
above the first. -/
def stepWorld : World ℚ := fun p =>
  match p with
  | 0 => SpawnActor ⟨0, 0, 0⟩ true
  | 1 => SpawnActor ⟨1, 0, 0⟩ true
  | _ => SpawnActor ⟨0, 0, 3⟩ false

/-- A world of traversable nodes at the origin. -/
def blankWorld : World ℚ := fun _ => SpawnActor ⟨0, 0, 0⟩ true

/-- The vertices of a flat grid of `Width` columns and `Height` rows with unit
spacing, in row-major order. -/
def flatVertices (Width Height : Nat) : List (FVector ℚ) :=
  (List.range (Width * Height)).map fun i => ⟨((i % Width : Nat) : ℚ), ((i / Width : Nat) : ℚ), 0⟩

/-- Rational arithmetic for the `float` functions: the square root is rounded
down to 64 binary places, which leaves the square root of the square of a
rational number exact, and `FloatMax` is the largest number of the `float`
format, `(2 ^ 24 - 1) * 2 ^ 104`. -/
def sqrtMath : FMath ℚ :=
  ⟨fun q => (natSqrt (q.num.toNat * q.den * 2 ^ 128) : ℚ) / ((q.den : ℚ) * 2 ^ 64),
    340282346638528859811704183484516925440⟩

/-- Six nodes on a line, at -16777216, -16777218, -2, -1.5, -1 and 16777216.
Two routes lead from node 0 to node 5: over node 1, which lies behind node 0
(length 2 + 33554434), and over the nodes 2, 3 and 4, which lie between them
(length 33554432). -/
def roundingWorld : World ℚ := fun p =>
  match p with
  | 0 => ratNodeAt (-16777216) 0 0 [1, 2]
  | 1 => ratNodeAt (-16777218) 0 0 [5]
  | 2 => ratNodeAt (-2) 0 0 [3]
  | 3 => ratNodeAt (-3 / 2) 0 0 [4]
  | 4 => ratNodeAt (-1) 0 0 [5]
  | 5 => ratNodeAt 16777216 0 0 []
  | _ => ratNodeAt 0 0 0 []

/-- Three nodes at the corners of a right triangle with the sides 3, 4 and 5:
from node 0 to node 2 leads the edge of length 5 and the route over node 1 of
length 3 + 4. -/
def triangleWorld : World ℚ := fun p =>
  match p with
  | 0 => ratNodeAt 0 0 0 [1, 2]
  | 1 => ratNodeAt 3 0 0 [2]
  | 2 => ratNodeAt 3 4 0 []
  | _ => ratNodeAt 0 0 0 []

/-- A manager over six nodes with the `EUCLIDEAN` heuristic. -/
def euclideanManager : AAIManager ℚ :=
  ⟨[0, 1, 2, 3, 4, 5], [0, 1, 2, 3, 4, 5], 2 / 5, false, EHeuristicType.EUCLIDEAN,
    EPathfindingType.A_STAR⟩

/-- A manager over six nodes with the `CHEBYSHEV` heuristic. -/
def chebyshevManager : AAIManager ℚ :=
  ⟨[0, 1, 2, 3, 4, 5], [0, 1, 2, 3, 4, 5], 2 / 5, false, EHeuristicType.CHEBYSHEV,
    EPathfindingType.A_STAR⟩

/-! # Properties -/

/-! ## `AddConnection` -/

section AddConnectionFacts

theorem World.set_same {K : Type} (W : World K) (p : Nat) (n : ANavigationNode K) : (W.set p n) p = n := by
  simp [World.set]

theorem World.set_other {K : Type} (W : World K) (p q : Nat) (n : ANavigationNode K) (h : q ≠ p) :
    (W.set p n) q = W q := by
  simp [World.set, h]

variable {K : Type} [LinearOrderedField K]

/-- A rejected call leaves every node object as it is. -/
theorem AddConnection_rejected (M : FMath K) (mgr : AAIManager K) (W : World K) (a b : Nat)
    (h : bCanConnect M mgr W a b = false) : AddConnection M mgr W a b = W := by
  simp [AddConnection, h]

/-- No call writes a node other than `FromNode`. -/
theorem AddConnection_other (M : FMath K) (mgr : AAIManager K) (W : World K) (a b q : Nat)
    (h : q ≠ a) : AddConnection M mgr W a b q = W q := by
  unfold AddConnection
  by_cases hc : bCanConnect M mgr W a b = true
  · simp only [hc, if_true]
    split <;> simp [World.set, h]
  · simp [hc]

/-- What an accepted call writes into `FromNode`. -/
theorem AddConnection_accepted (M : FMath K) (mgr : AAIManager K) (W : World K) (a b : Nat)
    (h : bCanConnect M mgr W a b = true) :
    AddConnection M mgr W a b a =
      { W a with
        ConnectedNodes :=
          if (W b).bIsTraversible then (W a).ConnectedNodes ++ [b] else (W a).ConnectedNodes
        ConnectedNonTraversableNodes :=
          if (W b).bIsTraversible then (W a).ConnectedNonTraversableNodes
          else (W a).ConnectedNonTraversableNodes ++ [b]
        AllConnectedNodes := (W a).AllConnectedNodes ++ [b]
        AllConnectedDir := (W a).AllConnectedDir ++
          [FVector2D.sub (W b).GridLocation (W a).GridLocation] } := by
  unfold AddConnection
  simp only [h, if_true]
  by_cases hba : b = a
  · subst hba
    by_cases ht : (W b).bIsTraversible = true <;> simp [World.set, ht]
  · by_cases ht : (W b).bIsTraversible = true <;> simp [World.set, ht, hba]

/-- The squared length of the difference of two distinct positions is positive. -/
theorem squareSum_pos_of_ne (u v : FVector K) (h : u ≠ v) :
    0 < (u.X - v.X) * (u.X - v.X) + (u.Y - v.Y) * (u.Y - v.Y) + (u.Z - v.Z) * (u.Z - v.Z) := by
  by_contra hle
  have hle' := not_lt.mp hle
  have hx := mul_self_nonneg (u.X - v.X)
  have hy := mul_self_nonneg (u.Y - v.Y)
  have hz := mul_self_nonneg (u.Z - v.Z)
  have ex : u.X - v.X = 0 := mul_self_eq_zero.mp (by linarith)
  have ey : u.Y - v.Y = 0 := mul_self_eq_zero.mp (by linarith)
  have ez : u.Z - v.Z = 0 := mul_self_eq_zero.mp (by linarith)
  exact h (FVector.ext (sub_eq_zero.mp ex) (sub_eq_zero.mp ey) (sub_eq_zero.mp ez))

/-- The `Z` component that `AddConnection` tests is the difference of the
heights divided by the distance of the two nodes. -/
theorem normalize_sub_Z (M : FMath K) (u v : FVector K) (h : u ≠ v) :
    (FVector.Normalize M (FVector.sub u v)).Z = (u.Z - v.Z) / FVector.Distance M u v := by
  have hpos := squareSum_pos_of_ne u v h
  have hsq : FVector.DistSquared u v =
      (u.X - v.X) * (u.X - v.X) + (u.Y - v.Y) * (u.Y - v.Y) + (u.Z - v.Z) * (u.Z - v.Z) := by
    unfold FVector.DistSquared
    ring
  simp only [FVector.Normalize, FVector.sub, FVector.Distance, hsq, gt_iff_lt, hpos, if_true]
  rw [mul_one_div]

/-- The acceptance test of `AddConnection` for nodes at distinct positions. -/
theorem bCanConnect_iff (M : FMath K) (mgr : AAIManager K) (W : World K) (a b : Nat)
    (hpos : (W a).Location ≠ (W b).Location) :
    bCanConnect M mgr W a b = true ↔
      (mgr.bSteepnessPreventConnection = false ∨
        (-mgr.AllowedAngle <
            ((W a).Location.Z - (W b).Location.Z) /
              FVector.Distance M (W a).Location (W b).Location ∧
          ((W a).Location.Z - (W b).Location.Z) /
              FVector.Distance M (W a).Location (W b).Location < mgr.AllowedAngle)) := by
  unfold bCanConnect
  by_cases hs : mgr.bSteepnessPreventConnection = true
  · simp only [hs, if_true, normalize_sub_Z M _ _ hpos, decide_eq_true_eq, gt_iff_lt]
    constructor
    · rintro ⟨h1, h2⟩
      right
      exact ⟨by linarith, h1⟩
    · rintro (h | ⟨h1, h2⟩)
      · simp at h
      · exact ⟨h2, by linarith⟩
  · simp [hs]

end AddConnectionFacts

/-- C9: for nodes at distinct positions `AddConnection(from, to)` records the
connection exactly when steepness filtering is disabled or the `Z` component of
the unit vector `(from - to) / |from - to|` lies strictly between
`-AllowedAngle` and `AllowedAngle`; otherwise it leaves every node as it is. -/
theorem C9_addConnection_records_iff {K : Type} [LinearOrderedField K] (M : FMath K)
    (mgr : AAIManager K) (W : World K) (a b : Nat)
    (hpos : (W a).Location ≠ (W b).Location) :
    ((AddConnection M mgr W a b a).AllConnectedNodes = (W a).AllConnectedNodes ++ [b] ↔
      (mgr.bSteepnessPreventConnection = false ∨
        (-mgr.AllowedAngle <
            ((W a).Location.Z - (W b).Location.Z) /
              FVector.Distance M (W a).Location (W b).Location ∧
          ((W a).Location.Z - (W b).Location.Z) /
              FVector.Distance M (W a).Location (W b).Location < mgr.AllowedAngle))) ∧
    (¬ (mgr.bSteepnessPreventConnection = false ∨
        (-mgr.AllowedAngle <
            ((W a).Location.Z - (W b).Location.Z) /
              FVector.Distance M (W a).Location (W b).Location ∧
          ((W a).Location.Z - (W b).Location.Z) /
              FVector.Distance M (W a).Location (W b).Location < mgr.AllowedAngle)) →
      AddConnection M mgr W a b = W) := by
  rw [← bCanConnect_iff M mgr W a b hpos]
  by_cases hc : bCanConnect M mgr W a b = true
  · simp [AddConnection_accepted M mgr W a b hc, hc]
  · have hc' : bCanConnect M mgr W a b = false := by simpa using hc
    simp [AddConnection_rejected M mgr W a b hc', hc']

/-- C9 at two nodes one unit apart on level ground, with the filter on and
`AllowedAngle = 2/5`. -/
theorem C9_addConnection_records_iff_witness :
    (stepWorld 0).Location ≠ (stepWorld 1).Location ∧
    ((AddConnection ratMath { flatManager with bSteepnessPreventConnection := true }
        stepWorld 0 1 0).AllConnectedNodes = (stepWorld 0).AllConnectedNodes ++ [1] ↔
      (({ flatManager with bSteepnessPreventConnection := true } :
          AAIManager ℚ).bSteepnessPreventConnection = false ∨
        (-({ flatManager with bSteepnessPreventConnection := true } : AAIManager ℚ).AllowedAngle <
            ((stepWorld 0).Location.Z - (stepWorld 1).Location.Z) /
              FVector.Distance ratMath (stepWorld 0).Location (stepWorld 1).Location ∧
          ((stepWorld 0).Location.Z - (stepWorld 1).Location.Z) /
              FVector.Distance ratMath (stepWorld 0).Location (stepWorld 1).Location <
            ({ flatManager with bSteepnessPreventConnection := true } :
              AAIManager ℚ).AllowedAngle))) :=
  have h : (stepWorld 0).Location ≠ (stepWorld 1).Location := by
    intro h
    have hx := congrArg FVector.X h
    simp [stepWorld, SpawnActor] at hx
  ⟨h, (C9_addConnection_records_iff ratMath _ stepWorld 0 1 h).1⟩

/-- C10: an accepted `AddConnection(from, to)` between distinct nodes appends
`to` to `from.ConnectedNodes` when `to` is traversable and to
`from.ConnectedNonTraversableNodes` when it is not (and leaves the other of the
two lists alone), and appends `to` to `from.AllConnectedNodes` and
`to.GridLocation - from.GridLocation` to `from.AllConnectedDir`, at the same
index when the two lists were parallel before; a rejected call leaves `from`
as it is; in both cases `to` is left as it is. -/
theorem C10_addConnection_effect {K : Type} [LinearOrderedField K] (M : FMath K)
    (mgr : AAIManager K) (W : World K) (a b : Nat) (hab : a ≠ b)
    (hpar : (W a).AllConnectedNodes.length = (W a).AllConnectedDir.length) :
    (bCanConnect M mgr W a b = true →
      ((W b).bIsTraversible = true →
        (AddConnection M mgr W a b a).ConnectedNodes = (W a).ConnectedNodes ++ [b] ∧
        (AddConnection M mgr W a b a).ConnectedNonTraversableNodes =
          (W a).ConnectedNonTraversableNodes) ∧
      ((W b).bIsTraversible = false →
        (AddConnection M mgr W a b a).ConnectedNodes = (W a).ConnectedNodes ∧
        (AddConnection M mgr W a b a).ConnectedNonTraversableNodes =
          (W a).ConnectedNonTraversableNodes ++ [b]) ∧
      (AddConnection M mgr W a b a).AllConnectedNodes = (W a).AllConnectedNodes ++ [b] ∧
      (AddConnection M mgr W a b a).AllConnectedDir =
        (W a).AllConnectedDir ++ [FVector2D.sub (W b).GridLocation (W a).GridLocation] ∧
      (AddConnection M mgr W a b a).AllConnectedNodes.get? (W a).AllConnectedNodes.length =
        some b ∧
      (AddConnection M mgr W a b a).AllConnectedDir.get? (W a).AllConnectedNodes.length =
        some (FVector2D.sub (W b).GridLocation (W a).GridLocation)) ∧
    (bCanConnect M mgr W a b = false → AddConnection M mgr W a b a = W a) ∧
    AddConnection M mgr W a b b = W b := by
  refine ⟨fun hc => ?_, fun hc => ?_, AddConnection_other M mgr W a b b (Ne.symm hab)⟩
  · rw [AddConnection_accepted M mgr W a b hc]
    have hba : b ≠ a := Ne.symm hab
    refine ⟨fun ht => ?_, fun ht => ?_, rfl, ?_, ?_, ?_⟩
    · simp [ht]
    · simp [ht]
    · simp [hba]
    · simp
    · simp [hba, hpar]
  · rw [AddConnection_rejected M mgr W a b hc]

/-- C10 at the level pair of `stepWorld`, where the call is accepted. -/
theorem C10_addConnection_effect_witness :
    (0 : Nat) ≠ 1 ∧
    (stepWorld 0).AllConnectedNodes.length = (stepWorld 0).AllConnectedDir.length ∧
    AddConnection ratMath flatManager stepWorld 0 1 1 = stepWorld 1 :=
  ⟨by decide, by decide,
    (C10_addConnection_effect ratMath flatManager stepWorld 0 1 (by decide) (by decide)).2.2⟩

/-- C5 at a grid of 2 columns and 3 rows with the filter off: the first
connection recorded on the node at grid location (0, 0) leads to the node at
(0, 2), two rows away. -/
theorem C5_nonsquare_connection_not_neighbour :
    (GenerateNodes ratMath flatManager blankWorld (fun _ => true) (flatVertices 2 3) 2 3).map
      (fun s => ((s.2 0).GridLocation, (s.2 0).AllConnectedNodes, (s.2 0).AllConnectedDir,
        (s.2 2).GridLocation)) =
      some (⟨0, 0⟩, [2, 3, 1], [⟨0, 2⟩, ⟨1, 0⟩, ⟨0, 1⟩], ⟨0, 2⟩) := by
  decide

/-- C6 at a grid of 2 columns and 3 rows with the filter off: the node at grid
location (0, 1), on the border and not a corner, has 3 connections recorded. -/
theorem C6_nonsquare_border_count :
    (GenerateNodes ratMath flatManager blankWorld (fun _ => true) (flatVertices 2 3) 2 3).map
      (fun s => ((s.2 1).GridLocation, (s.2 1).AllConnectedNodes.length)) =
      some (⟨0, 1⟩, 3) := by
  decide

/-- C7 at a grid of one column and one row: the first call of the adjacency
sweep reads `AllNodes[1]` while `AllNodes` holds one node. -/
theorem C7_single_cell_reads_out_of_range :
    (gridCells 1 1 = [(0, 0)] ∧ connectionTargets 1 1 0 0 = [1, 2, 1]) ∧
    (GenerateNodes ratMath flatManager blankWorld (fun _ => true) (flatVertices 1 1) 1 1).isSome
      = false := by
  decide

/-! ## The search loop -/

section SearchFacts

variable {K : Type} [LinearOrderedCommRing K]

theorem aStarLoop_succ (M : FMath K) (mgr : AAIManager K) (s e tf fuel : Nat) (W : World K)
    (O : List Nat) :
    aStarLoop M mgr s e tf (fuel + 1) W O =
      if O = [] then some ([], W)
      else if O.getD (IndexLowestFScore W O) 0 = e then
        (backTrace W s tf e [e]).map (fun Path => (Path, W))
      else aStarLoop M mgr s e tf fuel (expand M mgr e W O).1 (expand M mgr e W O).2 := by
  cases O with
  | nil => simp [aStarLoop]
  | cons x xs => simp [aStarLoop, expand]

/-- Whatever holds when the loop is entered and is kept by every iteration
that does not return, holds in the state in which the loop returns. -/
theorem aStarLoop_invariant (M : FMath K) (mgr : AAIManager K) (s e tf : Nat)
    (P : World K → List Nat → Prop)
    (hstep : ∀ W O, P W O → O ≠ [] → O.getD (IndexLowestFScore W O) 0 ≠ e →
      P (expand M mgr e W O).1 (expand M mgr e W O).2) :
    ∀ (fuel : Nat) (W : World K) (O : List Nat) (p : List Nat) (W' : World K), P W O →
      aStarLoop M mgr s e tf fuel W O = some (p, W') →
      (p = [] ∧ P W' []) ∨
      (∃ O', P W' O' ∧ O' ≠ [] ∧ O'.getD (IndexLowestFScore W' O') 0 = e ∧
        backTrace W' s tf e [e] = some p) := by
  intro fuel
  induction fuel with
  | zero => intro W O p W' _ h; simp [aStarLoop] at h
  | succ n ih =>
    intro W O p W' hP h
    rw [aStarLoop_succ] at h
    by_cases hO : O = []
    · subst hO
      simp at h
      obtain ⟨h1, h2⟩ := h
      subst h1 h2
      exact Or.inl ⟨rfl, hP⟩
    · rw [if_neg hO] at h
      by_cases hc : O.getD (IndexLowestFScore W O) 0 = e
      · rw [if_pos hc] at h
        cases hb : backTrace W s tf e [e] with
        | none => simp [hb] at h
        | some q =>
          simp [hb] at h
          obtain ⟨h1, h2⟩ := h
          subst h1 h2
          exact Or.inr ⟨O, hP, hO, hc, hb⟩
      · rw [if_neg hc] at h
        exact ih _ _ p W' (hstep W O hP hO hc) h

omit [LinearOrderedCommRing K] in
/-- The back trace extends `Path` along `CameFrom` until it arrives at the
start node. -/
theorem backTrace_spec (W : World K) (s : Nat) :
    ∀ (fuel cur : Nat) (Path p : List Nat), backTrace W s fuel cur Path = some p →
      Path.getLast? = some cur →
      List.Chain' (fun a b => (W a).CameFrom = some b) Path →
      p.head? = Path.head? ∧ p.getLast? = some s ∧
        List.Chain' (fun a b => (W a).CameFrom = some b) p ∧ Path <+: p := by
  intro fuel
  induction fuel with
  | zero => intro cur Path p h; simp [backTrace] at h
  | succ n ih =>
    intro cur Path p h hlast hchain
    unfold backTrace at h
    by_cases hcs : cur = s
    · simp [hcs] at h
      subst h
      exact ⟨rfl, by rw [hlast, hcs], hchain, List.prefix_refl _⟩
    · simp only [ne_eq, hcs, not_false_eq_true, if_true] at h
      cases hcf : (W cur).CameFrom with
      | none => simp [hcf] at h
      | some c =>
        simp only [hcf] at h
        have hne : Path ≠ [] := by
          intro h0
          simp [h0] at hlast
        have hchain' : List.Chain' (fun a b => (W a).CameFrom = some b) (Path ++ [c]) := by
          rw [List.chain'_append]
          refine ⟨hchain, List.chain'_singleton _, ?_⟩
          intro x hx y hy
          simp at hy
          subst hy
          rw [hlast] at hx
          simp at hx
          subst hx
          exact hcf
        obtain ⟨h1, h2, h3, h4⟩ := ih c (Path ++ [c]) p h (by simp) hchain'
        refine ⟨?_, h2, h3, (List.prefix_append _ _).trans h4⟩
        rw [h1]
        cases Path with
        | nil => exact absurd rfl hne
        | cons x xs => rfl

end SearchFacts

/-- C1, as stated, at the four nodes of `diamondWorld`: the search from node 0
to node 3 returns `[3, 1, 0]`, whose first element is the end node and whose
last element is the start node. -/
theorem C1_returned_path_starts_at_end :
    AStarPath intMath diamondManager diamondWorld 0 3 10 = some [3, 1, 0] ∧
    ¬ (([3, 1, 0] : List Nat).head? = some 0 ∧ ([3, 1, 0] : List Nat).getLast? = some 3) := by
  decide

/-- C1, amended: a non-empty sequence returned by `GenerateAStarPath` is in
end-to-start order: its first element is the end node, its last element is the
start node, and each later element is the `CameFrom` of the element before it,
the node from which that one was reached. -/
theorem C1_path_is_end_to_start {K : Type} [LinearOrderedCommRing K] (M : FMath K)
    (mgr : AAIManager K) (W : World K) (StartNode EndNode fuel : Nat) (p : List Nat)
    (hp : AStarPath M mgr W StartNode EndNode fuel = some p) (hne : p ≠ []) :
    ∃ W', GenerateAStarPath M mgr W StartNode EndNode fuel = some (p, W') ∧
      p.head? = some EndNode ∧ p.getLast? = some StartNode ∧
      List.Chain' (fun a b => (W' a).CameFrom = some b) p := by
  unfold AStarPath at hp
  cases hg : GenerateAStarPath M mgr W StartNode EndNode fuel with
  | none => simp [hg] at hp
  | some r =>
    obtain ⟨q, W'⟩ := r
    simp [hg] at hp
    subst hp
    refine ⟨W', rfl, ?_⟩
    unfold GenerateAStarPath at hg
    rcases aStarLoop_invariant M mgr StartNode EndNode fuel (fun _ _ => True)
        (fun _ _ _ _ _ => trivial) fuel _ _ q W' trivial hg with ⟨h0, _⟩ | ⟨O', _, _, _, hb⟩
    · exact absurd h0 hne
    · obtain ⟨h1, h2, h3, _⟩ := backTrace_spec W' StartNode fuel EndNode [EndNode] q hb
        (by simp) (List.chain'_singleton _)
      exact ⟨by simpa using h1, h2, h3⟩

/-- C1, amended, at the search from node 0 to node 3 of `diamondWorld`. -/
theorem C1_path_is_end_to_start_witness :
    ∃ W', GenerateAStarPath intMath diamondManager diamondWorld 0 3 10 = some ([3, 1, 0], W') ∧
      ([3, 1, 0] : List Nat).head? = some 3 ∧ ([3, 1, 0] : List Nat).getLast? = some 0 ∧
      List.Chain' (fun a b => (W' a).CameFrom = some b) [3, 1, 0] :=
  C1_path_is_end_to_start intMath diamondManager diamondWorld 0 3 10 [3, 1, 0]
    (by decide) (by decide)

/-! ## Graph generation -/

theorem connectionTargets_eq_map (Width Height Col Row : Int) :
    connectionTargets Width Height Col Row =
      (targetCells Width Height Col Row).map fun p => p.2 * Width + p.1 := by
  unfold connectionTargets targetCells
  split_ifs <;> rfl

/-- The cells connected to a cell of the grid are the cells of the grid next to
it, horizontally, vertically or diagonally. -/
theorem mem_targetCells_iff (Width Height Col Row : Int) (hW : 2 ≤ Width) (hH : 2 ≤ Height)
    (hc : 0 ≤ Col ∧ Col < Width) (hr : 0 ≤ Row ∧ Row < Height) (p : Int × Int) :
    p ∈ targetCells Width Height Col Row ↔
      (0 ≤ p.1 ∧ p.1 < Width) ∧ (0 ≤ p.2 ∧ p.2 < Height) ∧
      (p.1 - Col ≤ 1 ∧ Col - p.1 ≤ 1) ∧ (p.2 - Row ≤ 1 ∧ Row - p.2 ≤ 1) ∧
      ¬ (p.1 = Col ∧ p.2 = Row) := by
  obtain ⟨a, b⟩ := p
  unfold targetCells
  split_ifs <;> simp only [List.mem_cons, List.mem_singleton, Prod.mk.injEq, List.mem_nil_iff,
    or_false] <;> omega

/-- The row-major index of a cell of the grid lies in the grid and determines
the cell. -/
theorem cell_index_bounds (Width Height c r : Int)
    (hc : 0 ≤ c ∧ c < Width) (hr : 0 ≤ r ∧ r < Height) :
    0 ≤ r * Width + c ∧ r * Width + c < Width * Height ∧
      (r * Width + c) % Width = c ∧ (r * Width + c) / Width = r := by
  have hW : 0 < Width := by omega
  have h1 : 0 ≤ r * Width := mul_nonneg hr.1 hW.le
  have h2 : (r + 1) * Width ≤ Height * Width := mul_le_mul_of_nonneg_right (by omega) hW.le
  refine ⟨by omega, by nlinarith, ?_, ?_⟩
  · rw [Int.add_comm, Int.add_mul_emod_self]
    exact Int.emod_eq_of_lt hc.1 hc.2
  · rw [Int.add_comm, Int.add_mul_ediv_right _ _ (by omega), Int.ediv_eq_zero_of_lt hc.1 hc.2]
    simp

/-- Every index below `Width * Height` is the row-major index of a cell. -/
theorem index_cell_bounds (Width Height : Int) (hW : 0 < Width) (i : Int)
    (hi : 0 ≤ i ∧ i < Width * Height) :
    (0 ≤ i % Width ∧ i % Width < Width) ∧ (0 ≤ i / Width ∧ i / Width < Height) ∧
      (i / Width) * Width + i % Width = i := by
  refine ⟨⟨Int.emod_nonneg _ (by omega), Int.emod_lt_of_pos _ hW⟩,
    ⟨Int.ediv_nonneg hi.1 hW.le, ?_⟩, ?_⟩
  · exact Int.ediv_lt_of_lt_mul hW (by rw [Int.mul_comm]; exact hi.2)
  · rw [Int.mul_comm]; exact Int.ediv_add_emod i Width

section GenerationFacts

variable {K : Type} [LinearOrderedField K]

/-- The acceptance test reads nothing but the two locations. -/
theorem bCanConnect_congr (M : FMath K) (mgr : AAIManager K) (W1 W2 : World K) (a b : Nat)
    (ha : (W1 a).Location = (W2 a).Location) (hb : (W1 b).Location = (W2 b).Location) :
    bCanConnect M mgr W1 a b = bCanConnect M mgr W2 a b := by
  unfold bCanConnect
  rw [ha, hb]

/-- Swapping the two nodes negates the `Z` component tested. -/
theorem normalize_sub_swap (M : FMath K) (u v : FVector K) :
    (FVector.Normalize M (FVector.sub v u)).Z = -(FVector.Normalize M (FVector.sub u v)).Z := by
  have hS : (v.X - u.X) * (v.X - u.X) + (v.Y - u.Y) * (v.Y - u.Y) + (v.Z - u.Z) * (v.Z - u.Z) =
      (u.X - v.X) * (u.X - v.X) + (u.Y - v.Y) * (u.Y - v.Y) + (u.Z - v.Z) * (u.Z - v.Z) := by
    ring
  simp only [FVector.Normalize, FVector.sub, hS]
  split_ifs
  · simp only
    ring
  · simp

/-- The acceptance test does not depend on the order of the two nodes. -/
theorem bCanConnect_symm (M : FMath K) (mgr : AAIManager K) (W : World K) (a b : Nat) :
    bCanConnect M mgr W a b = bCanConnect M mgr W b a := by
  unfold bCanConnect
  split_ifs
  · simp only [normalize_sub_swap M (W a).Location (W b).Location]
    apply decide_eq_decide.mpr
    constructor <;> rintro ⟨h1, h2⟩ <;> constructor <;> linarith
  · rfl

/-- `AddConnection` writes connection lists only. -/
theorem AddConnection_frame (M : FMath K) (mgr : AAIManager K) (W : World K) (a b q : Nat) :
    (AddConnection M mgr W a b q).Location = (W q).Location ∧
    (AddConnection M mgr W a b q).GridLocation = (W q).GridLocation ∧
    (AddConnection M mgr W a b q).bIsTraversible = (W q).bIsTraversible := by
  by_cases hq : q = a
  · subst hq
    by_cases hc : bCanConnect M mgr W q b = true
    · rw [AddConnection_accepted M mgr W q b hc]
      exact ⟨rfl, rfl, rfl⟩
    · have hc' : bCanConnect M mgr W q b = false := by simpa using hc
      rw [AddConnection_rejected M mgr W q b hc']
      exact ⟨rfl, rfl, rfl⟩
  · rw [AddConnection_other M mgr W a b q hq]
    exact ⟨rfl, rfl, rfl⟩

/-- The calls `AddConnection(a, t)` for the nodes `t` of a list, one after the
other: what they leave on the nodes. -/
theorem connectAll_spec (M : FMath K) (mgr : AAIManager K) (a : Nat) :
    ∀ (ts : List Nat) (W : World K),
      (∀ q, q ≠ a → ts.foldl (fun W t => AddConnection M mgr W a t) W q = W q) ∧
      (∀ q, (ts.foldl (fun W t => AddConnection M mgr W a t) W q).Location = (W q).Location ∧
        (ts.foldl (fun W t => AddConnection M mgr W a t) W q).GridLocation =
          (W q).GridLocation ∧
        (ts.foldl (fun W t => AddConnection M mgr W a t) W q).bIsTraversible =
          (W q).bIsTraversible) ∧
      (ts.foldl (fun W t => AddConnection M mgr W a t) W a).AllConnectedNodes =
        (W a).AllConnectedNodes ++ ts.filter (fun t => bCanConnect M mgr W a t) ∧
      (ts.foldl (fun W t => AddConnection M mgr W a t) W a).AllConnectedDir =
        (W a).AllConnectedDir ++ (ts.filter (fun t => bCanConnect M mgr W a t)).map
          (fun t => FVector2D.sub (W t).GridLocation (W a).GridLocation) ∧
      (ts.foldl (fun W t => AddConnection M mgr W a t) W a).ConnectedNodes =
        (W a).ConnectedNodes ++ (ts.filter (fun t => bCanConnect M mgr W a t)).filter
          (fun t => (W t).bIsTraversible) ∧
      (ts.foldl (fun W t => AddConnection M mgr W a t) W a).ConnectedNonTraversableNodes =
        (W a).ConnectedNonTraversableNodes ++
          (ts.filter (fun t => bCanConnect M mgr W a t)).filter
            (fun t => !(W t).bIsTraversible) := by
  intro ts
  induction ts with
  | nil => intro W; simp
  | cons t ts ih =>
    intro W
    obtain ⟨h1, h2, h3, h4, h5, h6⟩ := ih (AddConnection M mgr W a t)
    have hfr := AddConnection_frame M mgr W a t
    have hcan : ∀ x, bCanConnect M mgr (AddConnection M mgr W a t) a x = bCanConnect M mgr W a x :=
      fun x => bCanConnect_congr M mgr _ _ a x (hfr a).1 (hfr x).1
    simp only [List.foldl_cons]
    refine ⟨fun q hq => ?_, fun q => ?_, ?_, ?_, ?_, ?_⟩
    · rw [h1 q hq, AddConnection_other M mgr W a t q hq]
    · obtain ⟨e1, e2, e3⟩ := h2 q
      obtain ⟨f1, f2, f3⟩ := hfr q
      exact ⟨e1.trans f1, e2.trans f2, e3.trans f3⟩
    · rw [h3]
      simp only [hcan]
      by_cases hc : bCanConnect M mgr W a t = true
      · rw [AddConnection_accepted M mgr W a t hc]
        simp [List.filter_cons, hc]
      · have hc' : bCanConnect M mgr W a t = false := by simpa using hc
        rw [AddConnection_rejected M mgr W a t hc']
        simp [List.filter_cons, hc']
    · rw [h4]
      simp only [hcan, (hfr _).2.1]
      by_cases hc : bCanConnect M mgr W a t = true
      · rw [AddConnection_accepted M mgr W a t hc]
        simp [List.filter_cons, hc]
      · have hc' : bCanConnect M mgr W a t = false := by simpa using hc
        rw [AddConnection_rejected M mgr W a t hc']
        simp [List.filter_cons, hc']
    · rw [h5]
      simp only [hcan, (hfr _).2.2]
      by_cases hc : bCanConnect M mgr W a t = true
      · rw [AddConnection_accepted M mgr W a t hc]
        by_cases ht : (W t).bIsTraversible = true <;> simp [List.filter_cons, hc, ht]
      · have hc' : bCanConnect M mgr W a t = false := by simpa using hc
        rw [AddConnection_rejected M mgr W a t hc']
        simp [List.filter_cons, hc']
    · rw [h6]
      simp only [hcan, (hfr _).2.2]
      by_cases hc : bCanConnect M mgr W a t = true
      · rw [AddConnection_accepted M mgr W a t hc]
        by_cases ht : (W t).bIsTraversible = true <;> simp [List.filter_cons, hc, ht]
      · have hc' : bCanConnect M mgr W a t = false := by simpa using hc
        rw [AddConnection_rejected M mgr W a t hc']
        simp [List.filter_cons, hc']


omit [LinearOrderedField K] in
theorem TArray_at_range (n : Nat) (i : Int) (h0 : 0 ≤ i) (hn : i < n) :
    TArray.at (List.range n) i = some i.toNat := by
  unfold TArray.at
  rw [if_neg (by omega)]
  have : i.toNat < n := by omega
  simp [List.getElem?_range, this]

omit [LinearOrderedField K] in
theorem foldlM_eq_some_foldl {α β : Type} (f : α → β → Option α) (g : α → β → α) :
    ∀ (l : List β) (a : α), (∀ b ∈ l, ∀ a, f a b = some (g a b)) →
      l.foldlM f a = some (l.foldl g a) := by
  intro l
  induction l with
  | nil => intro a _; rfl
  | cons b l ih =>
    intro a h
    rw [List.foldlM_cons, h b (List.mem_cons_self _ _) a]
    exact ih (g a b) (fun b' hb' a' => h b' (List.mem_cons_of_mem _ hb') a')

/-- On a grid of at least two rows and two columns every read of the adjacency
sweep is in range, and the sweep of a cell is the sequence of its
`AddConnection` calls. -/
theorem connectCell_eq (M : FMath K) (mgr : AAIManager K) (Width Height : Int)
    (hW : 2 ≤ Width) (hH : 2 ≤ Height) (hall : mgr.AllNodes = List.range (Width * Height).toNat)
    (W : World K) (cell : Int × Int)
    (hc : 0 ≤ cell.1 ∧ cell.1 < Width) (hr : 0 ≤ cell.2 ∧ cell.2 < Height) :
    connectCell M mgr Width Height W cell =
      some (((connectionTargets Width Height cell.1 cell.2).map Int.toNat).foldl
        (fun W t => AddConnection M mgr W (cell.2 * Width + cell.1).toNat t) W) := by
  unfold connectCell
  rw [List.foldl_map]
  apply foldlM_eq_some_foldl
  intro t ht W'
  have hpos : 0 ≤ Width * Height := mul_nonneg (by omega) (by omega)
  have hcast : (((Width * Height).toNat : Nat) : Int) = Width * Height := Int.toNat_of_nonneg hpos
  obtain ⟨b1, b2, _, _⟩ := cell_index_bounds Width Height cell.1 cell.2 hc hr
  rw [connectionTargets_eq_map] at ht
  obtain ⟨p, hp, rfl⟩ := List.mem_map.mp ht
  obtain ⟨pc, pr, _⟩ := (mem_targetCells_iff Width Height cell.1 cell.2 hW hH hc hr p).mp hp
  obtain ⟨c1, c2, _, _⟩ := cell_index_bounds Width Height p.1 p.2 pc pr
  unfold connectCall
  rw [hall, TArray_at_range _ _ b1 (by rw [hcast]; exact b2),
    TArray_at_range _ _ c1 (by rw [hcast]; exact c2)]


/-- The sweep of one cell: it writes the node at the index of the cell only,
and appends to its lists what `acceptedTargets` lists. -/
theorem connectCell_swept (M : FMath K) (mgr : AAIManager K) (Width Height : Int)
    (hW : 2 ≤ Width) (hH : 2 ≤ Height) (hall : mgr.AllNodes = List.range (Width * Height).toNat)
    (Wref W : World K) (hfr : SameFrame W Wref) (cell : Int × Int)
    (hc : 0 ≤ cell.1 ∧ cell.1 < Width) (hr : 0 ≤ cell.2 ∧ cell.2 < Height) :
    ∃ W1, connectCell M mgr Width Height W cell = some W1 ∧ SameFrame W1 Wref ∧
      (∀ q, q ≠ (cell.2 * Width + cell.1).toNat → W1 q = W q) ∧
      SweptFrom M mgr Wref Width Height (cell.2 * Width + cell.1).toNat
        (W (cell.2 * Width + cell.1).toNat) (W1 (cell.2 * Width + cell.1).toNat) := by
  refine ⟨_, connectCell_eq M mgr Width Height hW hH hall W cell hc hr, ?_⟩
  obtain ⟨b1, b2, b3, b4⟩ := cell_index_bounds Width Height cell.1 cell.2 hc hr
  have hi : (((cell.2 * Width + cell.1).toNat : Nat) : Int) = cell.2 * Width + cell.1 :=
    Int.toNat_of_nonneg b1
  obtain ⟨h1, h2, h3, h4, h5, h6⟩ := connectAll_spec M mgr (cell.2 * Width + cell.1).toNat
    ((connectionTargets Width Height cell.1 cell.2).map Int.toNat) W
  have hacc : acceptedTargets M mgr Wref Width Height (cell.2 * Width + cell.1).toNat =
      ((connectionTargets Width Height cell.1 cell.2).map Int.toNat).filter
        (fun t => bCanConnect M mgr W (cell.2 * Width + cell.1).toNat t) := by
    unfold acceptedTargets
    rw [hi, b3, b4]
    apply List.filter_congr
    intro t _
    exact bCanConnect_congr M mgr _ _ _ _ (hfr _).1.symm (hfr _).1.symm
  refine ⟨fun q => ?_, h1, ?_, ?_, ?_, ?_⟩
  · obtain ⟨e1, e2, e3⟩ := h2 q
    obtain ⟨f1, f2, f3⟩ := hfr q
    exact ⟨e1.trans f1, e2.trans f2, e3.trans f3⟩
  · rw [h3, hacc]
  · rw [h4, hacc]
    congr 1
    apply List.map_congr_left
    intro t _
    rw [(hfr t).2.1, (hfr _).2.1]
  · rw [h5, hacc]
    congr 1
    apply List.filter_congr
    intro t _
    rw [(hfr t).2.2]
  · rw [h6, hacc]
    congr 1
    apply List.filter_congr
    intro t _
    rw [(hfr t).2.2]

/-- The adjacency sweep over a list of distinct cells of the grid: the node at
the index of each cell listed gets its connections appended, every other node
object is left as it is. -/
theorem connectFold_spec (M : FMath K) (mgr : AAIManager K) (Width Height : Int)
    (hW : 2 ≤ Width) (hH : 2 ≤ Height) (hall : mgr.AllNodes = List.range (Width * Height).toNat)
    (Wref : World K) :
    ∀ (cells : List (Int × Int)) (W : World K), SameFrame W Wref →
      (∀ cell ∈ cells, (0 ≤ cell.1 ∧ cell.1 < Width) ∧ (0 ≤ cell.2 ∧ cell.2 < Height)) →
      (cells.map fun cell => (cell.2 * Width + cell.1).toNat).Nodup →
      ∃ W', cells.foldlM (connectCell M mgr Width Height) W = some W' ∧ SameFrame W' Wref ∧
        (∀ q, q ∉ (cells.map fun cell => (cell.2 * Width + cell.1).toNat) → W' q = W q) ∧
        (∀ q, q ∈ (cells.map fun cell => (cell.2 * Width + cell.1).toNat) →
          SweptFrom M mgr Wref Width Height q (W q) (W' q)) := by
  intro cells
  induction cells with
  | nil =>
    intro W hfr _ _
    exact ⟨W, rfl, hfr, fun _ _ => rfl, fun q hq => by simp at hq⟩
  | cons cell tl ih =>
    intro W hfr hvalid hnd
    obtain ⟨hc, hr⟩ := hvalid cell (List.mem_cons_self _ _)
    obtain ⟨W1, e1, fr1, other1, swept1⟩ :=
      connectCell_swept M mgr Width Height hW hH hall Wref W hfr cell hc hr
    rw [List.map_cons, List.nodup_cons] at hnd
    obtain ⟨W', e2, fr2, other2, swept2⟩ := ih W1 fr1
      (fun c hc' => hvalid c (List.mem_cons_of_mem _ hc')) hnd.2
    refine ⟨W', ?_, fr2, fun q hq => ?_, fun q hq => ?_⟩
    · rw [List.foldlM_cons, e1]
      exact e2
    · rw [List.map_cons, List.mem_cons, not_or] at hq
      rw [other2 q hq.2, other1 q hq.1]
    · rw [List.map_cons, List.mem_cons] at hq
      by_cases hq1 : q = (cell.2 * Width + cell.1).toNat
      · subst hq1
        rw [other2 _ hnd.1]
        exact swept1
      · have hq2 := hq.resolve_left hq1
        have := swept2 q hq2
        rw [other1 q hq1] at this
        exact this


omit [LinearOrderedField K] in
/-- The cells visited by the two loop nests are the cells of the grid. -/
theorem mem_gridCells (Width Height : Int) (cell : Int × Int) :
    cell ∈ gridCells Width Height ↔
      (0 ≤ cell.1 ∧ cell.1 < Width) ∧ (0 ≤ cell.2 ∧ cell.2 < Height) := by
  obtain ⟨c, r⟩ := cell
  simp only [gridCells, List.mem_flatMap, List.mem_map, List.mem_range, Prod.mk.injEq]
  constructor
  · rintro ⟨a, ha, b, hb, rfl, rfl⟩
    omega
  · rintro ⟨h1, h2⟩
    exact ⟨c.toNat, by omega, r.toNat, by omega, by omega, by omega⟩

omit [LinearOrderedField K] in
/-- The loop nests visit the cells column by column: the `j`-th cell visited is
`(j / Height, j % Height)`. -/
theorem gridCells_eq_map (Width Height : Int) :
    gridCells Width Height =
      (List.range (Width.toNat * Height.toNat)).map
        fun j => (((j / Height.toNat : Nat) : Int), ((j % Height.toNat : Nat) : Int)) := by
  unfold gridCells
  generalize Width.toNat = w
  generalize Height.toNat = h
  induction w with
  | zero => simp
  | succ w ih =>
    rw [List.range_succ, List.flatMap_append, ih, Nat.succ_mul, List.range_add, List.map_append]
    congr 1
    simp only [List.flatMap_cons, List.flatMap_nil, List.append_nil, List.map_map]
    apply List.map_congr_left
    intro r hr
    have hr' : r < h := List.mem_range.mp hr
    have hpos : 0 < h := by omega
    simp only [Function.comp, Prod.mk.injEq, Nat.cast_inj]
    constructor
    · rw [Nat.mul_comm, Nat.mul_add_div hpos, Nat.div_eq_of_lt hr']
      simp
    · rw [Nat.mul_comm, Nat.mul_add_mod, Nat.mod_eq_of_lt hr']

omit [LinearOrderedField K] in
theorem gridCells_length (Width Height : Int) :
    (gridCells Width Height).length = Width.toNat * Height.toNat := by
  rw [gridCells_eq_map]
  simp

omit [LinearOrderedField K] in
/-- No two cells visited have the same row-major index. -/
theorem gridCells_index_nodup (Width Height : Int) :
    ((gridCells Width Height).map fun cell => (cell.2 * Width + cell.1).toNat).Nodup := by
  have hnd : (gridCells Width Height).Nodup := by
    rw [gridCells_eq_map]
    apply List.Nodup.map_on _ (List.nodup_range _)
    intro x hx y hy hxy
    simp only [Prod.mk.injEq, Nat.cast_inj] at hxy
    rw [← Nat.div_add_mod x Height.toNat, ← Nat.div_add_mod y Height.toNat, hxy.1, hxy.2]
  apply List.Nodup.map_on _ hnd
  intro x hx y hy hxy
  obtain ⟨xc, xr⟩ := (mem_gridCells Width Height x).mp hx
  obtain ⟨yc, yr⟩ := (mem_gridCells Width Height y).mp hy
  obtain ⟨a1, _, a3, a4⟩ := cell_index_bounds Width Height x.1 x.2 xc xr
  obtain ⟨b1, _, b3, b4⟩ := cell_index_bounds Width Height y.1 y.2 yc yr
  have hxy' : x.2 * Width + x.1 = y.2 * Width + y.1 := by
    have := congrArg (fun n : Nat => (n : Int)) hxy
    simp only [Int.toNat_of_nonneg a1, Int.toNat_of_nonneg b1] at this
    exact this
  rw [hxy'] at a3 a4
  exact Prod.ext (a3.symm.trans b3) (a4.symm.trans b4)

omit [LinearOrderedField K] in
/-- Every index below `Width * Height` is the row-major index of a cell
visited. -/
theorem index_mem_gridCells (Width Height : Int) (hW : 0 < Width) (q : Nat)
    (hq : (q : Int) < Width * Height) :
    q ∈ (gridCells Width Height).map fun cell => (cell.2 * Width + cell.1).toNat := by
  obtain ⟨h1, h2, h3⟩ := index_cell_bounds Width Height hW q ⟨by omega, hq⟩
  refine List.mem_map.mpr ⟨((q : Int) % Width, (q : Int) / Width),
    (mem_gridCells Width Height _).mpr ⟨h1, h2⟩, ?_⟩
  simp only [h3]
  simp


/-- The first loop nest over a list of cells whose vertices exist: the nodes
spawned get the next pointers in order, and nothing else is written. -/
theorem spawnFold_spec (Traversible : Nat → Bool) (Vertices : List (FVector K)) (Width : Int) :
    ∀ (cells : List (Int × Int)) (s : AAIManager K × World K),
      (∀ cell ∈ cells, ∃ v, TArray.at Vertices (cell.2 * Width + cell.1) = some v) →
      ∃ s', cells.foldlM (spawnCell Traversible Vertices Width) s = some s' ∧
        s'.1.AllNodes = s.1.AllNodes ++ List.range' s.1.AllNodes.length cells.length ∧
        s'.1.AllowedAngle = s.1.AllowedAngle ∧
        s'.1.bSteepnessPreventConnection = s.1.bSteepnessPreventConnection ∧
        s'.1.Heuristic = s.1.Heuristic ∧ s'.1.Pathfinding = s.1.Pathfinding ∧
        (∀ q, q < s.1.AllNodes.length → s'.2 q = s.2 q) ∧
        (∀ j (hj : j < cells.length), ∃ v,
          TArray.at Vertices (cells[j].2 * Width + cells[j].1) = some v ∧
          s'.2 (s.1.AllNodes.length + j) =
            { SpawnActor v (Traversible (s.1.AllNodes.length + j)) with
              GridLocation := ⟨cells[j].1, cells[j].2⟩ }) := by
  intro cells
  induction cells with
  | nil =>
    intro s _
    exact ⟨s, rfl, by simp, rfl, rfl, rfl, rfl, fun _ _ => rfl, fun j hj => by simp at hj⟩
  | cons cell tl ih =>
    intro s hv
    obtain ⟨v, hvx⟩ := hv cell (List.mem_cons_self _ _)
    have hstep : ∃ s1, spawnCell Traversible Vertices Width s cell = some s1 ∧
        s1.1.AllNodes = s.1.AllNodes ++ [s.1.AllNodes.length] ∧
        s1.1.AllowedAngle = s.1.AllowedAngle ∧
        s1.1.bSteepnessPreventConnection = s.1.bSteepnessPreventConnection ∧
        s1.1.Heuristic = s.1.Heuristic ∧ s1.1.Pathfinding = s.1.Pathfinding ∧
        s1.2 = s.2.set s.1.AllNodes.length
            { SpawnActor v (Traversible s.1.AllNodes.length) with
              GridLocation := ⟨cell.1, cell.2⟩ } := by
      unfold spawnCell
      rw [hvx]
      exact ⟨_, rfl, rfl, rfl, rfl, rfl, rfl, rfl⟩
    obtain ⟨s1, e1, a1, a2, a3, a4, a5, a6⟩ := hstep
    obtain ⟨s', e, h1, h2, h3, h4, h5, h6, h7⟩ :=
      ih s1 (fun c hc => hv c (List.mem_cons_of_mem _ hc))
    rw [a1] at h1 h6 h7
    simp only [List.length_append, List.length_singleton] at h1 h6 h7
    refine ⟨s', ?_, ?_, h2.trans a2, h3.trans a3, h4.trans a4, h5.trans a5,
      fun q hq => ?_, fun j hj => ?_⟩
    · rw [List.foldlM_cons, e1]
      exact e
    · rw [h1, List.length_cons, List.range'_succ, List.append_assoc]
      rfl
    · rw [h6 q (by omega), a6]
      exact World.set_other _ _ _ _ (by omega)
    · cases j with
      | zero =>
        refine ⟨v, hvx, ?_⟩
        rw [Nat.add_zero, h6 _ (by omega), a6]
        exact World.set_same _ _ _
      | succ j =>
        obtain ⟨v', hv', e'⟩ := h7 j (by simpa using hj)
        refine ⟨v', hv', ?_⟩
        rw [show s.1.AllNodes.length + (j + 1) = s.1.AllNodes.length + 1 + j by omega]
        exact e'


theorem acceptedTargets_congr (M : FMath K) (mgr : AAIManager K) (W1 W2 : World K)
    (h : SameFrame W1 W2) (Width Height : Int) (i : Nat) :
    acceptedTargets M mgr W1 Width Height i = acceptedTargets M mgr W2 Width Height i := by
  unfold acceptedTargets
  apply List.filter_congr
  intro t _
  exact bCanConnect_congr M mgr _ _ _ _ (h _).1 (h _).1

omit [LinearOrderedField K] in
theorem TArray_at_of_lt {α : Type} (A : List α) (i : Int) (h0 : 0 ≤ i) (h1 : i < A.length) :
    ∃ v, TArray.at A i = some v := by
  unfold TArray.at
  rw [if_neg (by omega)]
  have : i.toNat < A.length := by omega
  exact ⟨A[i.toNat], by simp [List.getElem?_eq_getElem this]⟩

/-- `GenerateNodes` on a grid of at least two rows and two columns with one
vertex per cell: no read is out of range; `AllNodes` holds the pointers
`0, 1, ...` in order; the node at index `q` is the one spawned for the cell
`(q / Height, q % Height)`, at the vertex of that cell; its connection lists are
what the sweep records at index `q`. -/
theorem GenerateNodes_spec (M : FMath K) (mgr : AAIManager K) (W : World K)
    (Traversible : Nat → Bool) (Vertices : List (FVector K)) (Width Height : Int)
    (hW : 2 ≤ Width) (hH : 2 ≤ Height) (hlen : (Vertices.length : Int) = Width * Height) :
    ∃ mgr' W', GenerateNodes M mgr W Traversible Vertices Width Height = some (mgr', W') ∧
      mgr'.AllNodes = List.range (Width * Height).toNat ∧
      mgr'.AllowedAngle = mgr.AllowedAngle ∧
      mgr'.bSteepnessPreventConnection = mgr.bSteepnessPreventConnection ∧
      mgr'.Heuristic = mgr.Heuristic ∧ mgr'.Pathfinding = mgr.Pathfinding ∧
      ∀ q : Nat, (q : Int) < Width * Height →
        (W' q).GridLocation = ⟨((q / Height.toNat : Nat) : Int), ((q % Height.toNat : Nat) : Int)⟩ ∧
        TArray.at Vertices (((q % Height.toNat : Nat) : Int) * Width +
          ((q / Height.toNat : Nat) : Int)) = some (W' q).Location ∧
        (W' q).bIsTraversible = Traversible q ∧
        (W' q).AllConnectedNodes = acceptedTargets M mgr' W' Width Height q ∧
        (W' q).AllConnectedDir = (acceptedTargets M mgr' W' Width Height q).map
          (fun t => FVector2D.sub (W' t).GridLocation (W' q).GridLocation) ∧
        (W' q).ConnectedNodes = (acceptedTargets M mgr' W' Width Height q).filter
          (fun t => (W' t).bIsTraversible) ∧
        (W' q).ConnectedNonTraversableNodes = (acceptedTargets M mgr' W' Width Height q).filter
          (fun t => !(W' t).bIsTraversible) := by
  have hn : Width.toNat * Height.toNat = (Width * Height).toNat := by
    have h1 : ((Width.toNat * Height.toNat : Nat) : Int) = Width * Height := by
      rw [Nat.cast_mul, Int.toNat_of_nonneg (by omega), Int.toNat_of_nonneg (by omega)]
    omega
  have hpos : 0 ≤ Width * Height := mul_nonneg (by omega) (by omega)
  obtain ⟨s1, e1, a1, a2, a3, a4, a5, _, a7⟩ :=
    spawnFold_spec Traversible Vertices Width (gridCells Width Height)
      ({ mgr with AllNodes := [], AllTraversableNodes := [] }, W)
      (fun cell hcell => by
        obtain ⟨hc, hr⟩ := (mem_gridCells Width Height cell).mp hcell
        obtain ⟨b1, b2, _, _⟩ := cell_index_bounds Width Height cell.1 cell.2 hc hr
        exact TArray_at_of_lt Vertices _ b1 (by rw [hlen]; exact b2))
  simp only [List.length_nil, List.nil_append, Nat.zero_add, gridCells_length, hn] at a1 a7
  rw [← List.range_eq_range'] at a1
  obtain ⟨W', e2, fr, _, swept⟩ := connectFold_spec M s1.1 Width Height hW hH a1 s1.2
    (gridCells Width Height) s1.2 (fun q => ⟨rfl, rfl, rfl⟩)
    (fun cell hcell => (mem_gridCells Width Height cell).mp hcell)
    (gridCells_index_nodup Width Height)
  refine ⟨s1.1, W', ?_, a1, a2, a3, a4, a5, fun q hq => ?_⟩
  · unfold GenerateNodes
    rw [e1]
    simp only [e2]
  · have hq' : q < (Width * Height).toNat := by omega
    have hq2 : q < (gridCells Width Height).length := by
      rw [gridCells_length, hn]
      exact hq'
    obtain ⟨v, hv, hobj⟩ := a7 q hq'
    have hcellq : (gridCells Width Height)[q] =
        (((q / Height.toNat : Nat) : Int), ((q % Height.toNat : Nat) : Int)) := by
      simp [gridCells_eq_map]
    rw [hcellq] at hv hobj
    obtain ⟨s1a, s1b, s1c, s1d⟩ := swept q (index_mem_gridCells Width Height (by omega) q hq)
    rw [← acceptedTargets_congr M s1.1 W' s1.2 fr Width Height q] at s1a s1b s1c s1d
    have l1 : (s1.2 q).AllConnectedNodes = [] := by rw [hobj]; rfl
    have l2 : (s1.2 q).AllConnectedDir = [] := by rw [hobj]; rfl
    have l3 : (s1.2 q).ConnectedNodes = [] := by rw [hobj]; rfl
    have l4 : (s1.2 q).ConnectedNonTraversableNodes = [] := by rw [hobj]; rfl
    rw [l1, List.nil_append] at s1a
    rw [l2, List.nil_append] at s1b
    rw [l3, List.nil_append] at s1c
    rw [l4, List.nil_append] at s1d
    obtain ⟨f1, f2, f3⟩ := fr q
    refine ⟨?_, ?_, ?_, s1a, ?_, ?_, ?_⟩
    · rw [f2, hobj]
    · rw [hv, f1, hobj]
      rfl
    · rw [f3, hobj]
      rfl
    · rw [s1b]
      apply List.map_congr_left
      intro t _
      rw [(fr t).2.1, f2]
    · rw [s1c]
      apply List.filter_congr
      intro t _
      rw [(fr t).2.2]
    · rw [s1d]
      apply List.filter_congr
      intro t _
      rw [(fr t).2.2]


omit [LinearOrderedField K] in
/-- The node at index `b` is a target of the sweep at index `a` exactly when
the cell of `b` is one of the target cells of the cell of `a`. -/
theorem mem_connectionTargets_iff (Width Height : Int) (hW : 2 ≤ Width) (hH : 2 ≤ Height)
    (a b : Nat) (ha : (a : Int) < Width * Height) (hb : (b : Int) < Width * Height) :
    b ∈ (connectionTargets Width Height ((a : Int) % Width) ((a : Int) / Width)).map Int.toNat ↔
      ((b : Int) % Width, (b : Int) / Width) ∈
        targetCells Width Height ((a : Int) % Width) ((a : Int) / Width) := by
  obtain ⟨ac, ar, _⟩ := index_cell_bounds Width Height (by omega) a ⟨by omega, ha⟩
  obtain ⟨bc, br, hbi⟩ := index_cell_bounds Width Height (by omega) b ⟨by omega, hb⟩
  rw [connectionTargets_eq_map, List.map_map]
  constructor
  · intro h
    obtain ⟨p, hp, hpb⟩ := List.mem_map.mp h
    obtain ⟨pc, pr, _⟩ := (mem_targetCells_iff Width Height _ _ hW hH ac ar p).mp hp
    obtain ⟨c1, _, c3, c4⟩ := cell_index_bounds Width Height p.1 p.2 pc pr
    have hpb' : (b : Int) = p.2 * Width + p.1 := by
      simp only [Function.comp] at hpb
      omega
    rw [hpb', c3, c4]
    exact hp
  · intro h
    refine List.mem_map.mpr ⟨_, h, ?_⟩
    simp only [Function.comp, hbi]
    simp

omit [LinearOrderedField K] in
/-- Being a target cell is a symmetric relation on the cells of the grid. -/
theorem targetCells_symm (Width Height : Int) (hW : 2 ≤ Width) (hH : 2 ≤ Height)
    (p q : Int × Int) (hp : (0 ≤ p.1 ∧ p.1 < Width) ∧ (0 ≤ p.2 ∧ p.2 < Height))
    (hq : (0 ≤ q.1 ∧ q.1 < Width) ∧ (0 ≤ q.2 ∧ q.2 < Height))
    (h : q ∈ targetCells Width Height p.1 p.2) : p ∈ targetCells Width Height q.1 q.2 := by
  rw [mem_targetCells_iff Width Height _ _ hW hH hp.1 hp.2] at h
  rw [mem_targetCells_iff Width Height _ _ hW hH hq.1 hq.2]
  omega

end GenerationFacts

/-- C8: on a grid of at least two rows and two columns, with one vertex per
cell and with any steepness setting, the adjacency recorded by `GenerateNodes`
is symmetric: `B` occurs in `AllConnectedNodes` of `A` exactly when `A` occurs
in `AllConnectedNodes` of `B`. -/
theorem C8_adjacency_symmetric {K : Type} [LinearOrderedField K] (M : FMath K)
    (mgr : AAIManager K) (W : World K) (Traversible : Nat → Bool) (Vertices : List (FVector K))
    (Width Height : Int) (hW : 2 ≤ Width) (hH : 2 ≤ Height)
    (hlen : (Vertices.length : Int) = Width * Height) :
    ∃ mgr' W', GenerateNodes M mgr W Traversible Vertices Width Height = some (mgr', W') ∧
      ∀ a ∈ mgr'.AllNodes, ∀ b ∈ mgr'.AllNodes,
        (b ∈ (W' a).AllConnectedNodes ↔ a ∈ (W' b).AllConnectedNodes) := by
  obtain ⟨mgr', W', e, hall, _, _, _, _, hnodes⟩ :=
    GenerateNodes_spec M mgr W Traversible Vertices Width Height hW hH hlen
  refine ⟨mgr', W', e, ?_⟩
  have hpos : 0 ≤ Width * Height := mul_nonneg (by omega) (by omega)
  have key : ∀ a b : Nat, (a : Int) < Width * Height → (b : Int) < Width * Height →
      b ∈ (W' a).AllConnectedNodes → a ∈ (W' b).AllConnectedNodes := by
    intro a b ha hb hmem
    rw [(hnodes a ha).2.2.2.1] at hmem
    rw [(hnodes b hb).2.2.2.1]
    unfold acceptedTargets at hmem ⊢
    rw [List.mem_filter] at hmem ⊢
    obtain ⟨ac, ar, _⟩ := index_cell_bounds Width Height (by omega) a ⟨by omega, ha⟩
    obtain ⟨bc, br, _⟩ := index_cell_bounds Width Height (by omega) b ⟨by omega, hb⟩
    refine ⟨?_, by rw [bCanConnect_symm]; exact hmem.2⟩
    rw [mem_connectionTargets_iff Width Height hW hH b a hb ha]
    exact targetCells_symm Width Height hW hH (_, _) (_, _) ⟨ac, ar⟩ ⟨bc, br⟩
      ((mem_connectionTargets_iff Width Height hW hH a b ha hb).mp hmem.1)
  intro a ha b hb
  rw [hall, List.mem_range] at ha hb
  have ha' : (a : Int) < Width * Height := by omega
  have hb' : (b : Int) < Width * Height := by omega
  exact ⟨key a b ha' hb', key b a hb' ha'⟩

/-- C8 at a flat grid of 2 columns and 3 rows with the filter of the
constructor (`AllowedAngle = 2/5`, filter on). -/
theorem C8_adjacency_symmetric_witness :
    ∃ mgr' W', GenerateNodes ratMath { flatManager with bSteepnessPreventConnection := true }
        blankWorld (fun _ => true) (flatVertices 2 3) 2 3 = some (mgr', W') ∧
      ∀ a ∈ mgr'.AllNodes, ∀ b ∈ mgr'.AllNodes,
        (b ∈ (W' a).AllConnectedNodes ↔ a ∈ (W' b).AllConnectedNodes) :=
  C8_adjacency_symmetric ratMath _ blankWorld (fun _ => true) (flatVertices 2 3) 2 3
    (by decide) (by decide) (by decide)

section SearchFacts

variable {K : Type} [LinearOrderedCommRing K]

/-! ### The steps of the search -/

/-- The tentative score of the neighbour `v` of the current node `c`. -/
theorem relaxAStar_of_lt (M : FMath K) (mgr : AAIManager K) (e c : Nat) (W : World K)
    (O : List Nat) (v : Nat)
    (h : (W c).GScore + FVector.Distance M (W c).Location (W v).Location < (W v).GScore) :
    relaxAStar M mgr e c (W, O) v =
      (W.set v { W v with
          CameFrom := some c
          GScore := (W c).GScore + FVector.Distance M (W c).Location (W v).Location
          HScore := CalculateHeuristic M mgr (W v).Location (W e).Location },
        if v ∈ O then O else O ++ [v]) := by
  simp [relaxAStar, h]

theorem relaxAStar_of_not_lt (M : FMath K) (mgr : AAIManager K) (e c : Nat) (W : World K)
    (O : List Nat) (v : Nat)
    (h : ¬ (W c).GScore + FVector.Distance M (W c).Location (W v).Location < (W v).GScore) :
    relaxAStar M mgr e c (W, O) v = (W, O) := by
  simp [relaxAStar, h]

omit [LinearOrderedCommRing K] in
/-- A property of the state that every step of a loop over a list keeps holds
after the loop; the property may mention the elements processed so far. -/
theorem foldl_prefix_induction {α β : Type} (f : α → β → α) (P : List β → α → Prop)
    (l : List β) :
    ∀ (pre : List β) (a : α), P pre a →
      (∀ pre' a' b, P pre' a' → b ∈ l → P (pre' ++ [b]) (f a' b)) →
      P (pre ++ l) (l.foldl f a) := by
  induction l with
  | nil => intro pre a h _; simpa using h
  | cons b l ih =>
    intro pre a h hstep
    have h1 := hstep pre a b h (List.mem_cons_self _ _)
    have h2 := ih (pre ++ [b]) (f a b) h1
      (fun pre' a' b' hp hb' => hstep pre' a' b' hp (List.mem_cons_of_mem _ hb'))
    simpa using h2

/-- The scan for the lowest F-score keeps the index of a node whose score is
not above that of any node scanned. -/
theorem scanLowestFScore_spec (W : World K) (O : List Nat) :
    ∀ (k i idx : Nat), idx < i → i + k = O.length →
      (∀ j, j < i → (W (O.getD idx 0)).FScore ≤ (W (O.getD j 0)).FScore) →
      scanLowestFScore W O k i idx < O.length ∧
      ∀ j, j < O.length →
        (W (O.getD (scanLowestFScore W O k i idx) 0)).FScore ≤ (W (O.getD j 0)).FScore := by
  intro k
  induction k with
  | zero =>
    intro i idx h1 h2 h3
    simp only [scanLowestFScore]
    exact ⟨by omega, fun j hj => h3 j (by omega)⟩
  | succ k ih =>
    intro i idx h1 h2 h3
    simp only [scanLowestFScore]
    by_cases hlt : (W (O.getD i 0)).FScore < (W (O.getD idx 0)).FScore
    · rw [if_pos hlt]
      apply ih (i + 1) i (by omega) (by omega)
      intro j hj
      by_cases hji : j = i
      · rw [hji]
      · exact le_trans hlt.le (h3 j (by omega))
    · rw [if_neg hlt]
      apply ih (i + 1) idx (by omega) (by omega)
      intro j hj
      by_cases hji : j = i
      · rw [hji]; exact not_lt.mp hlt
      · exact h3 j (by omega)

/-- The node taken from a non-empty open set is one of its nodes, and none of
them has a lower F-score. -/
theorem lowest_spec (W : World K) (O : List Nat) (hO : O ≠ []) :
    O.getD (IndexLowestFScore W O) 0 ∈ O ∧
    ∀ x ∈ O, (W (O.getD (IndexLowestFScore W O) 0)).FScore ≤ (W x).FScore := by
  have hlen : 0 < O.length := List.length_pos.mpr hO
  obtain ⟨h1, h2⟩ := scanLowestFScore_spec W O (O.length - 1) 1 0 (by omega) (by omega)
    (fun j hj => by
      have : j = 0 := by omega
      rw [this])
  constructor
  · unfold IndexLowestFScore
    rw [List.getD_eq_getElem _ _ h1]
    exact List.getElem_mem _
  · intro x hx
    obtain ⟨j, hj, rfl⟩ := List.getElem_of_mem hx
    have := h2 j hj
    rw [List.getD_eq_getElem _ _ hj] at this
    exact this


/-- What one step of the loop over `ConnectedNodes` does: nothing, or it
writes the three search fields of the neighbour and has it in the open set. -/
theorem relaxAStar_effect (M : FMath K) (mgr : AAIManager K) (e c : Nat) (W : World K)
    (O : List Nat) (v : Nat) :
    (¬ (W c).GScore + FVector.Distance M (W c).Location (W v).Location < (W v).GScore ∧
      relaxAStar M mgr e c (W, O) v = (W, O)) ∨
    ((W c).GScore + FVector.Distance M (W c).Location (W v).Location < (W v).GScore ∧
      (∀ q, q ≠ v → (relaxAStar M mgr e c (W, O) v).1 q = W q) ∧
      ((relaxAStar M mgr e c (W, O) v).1 v).GScore =
        (W c).GScore + FVector.Distance M (W c).Location (W v).Location ∧
      ((relaxAStar M mgr e c (W, O) v).1 v).CameFrom = some c ∧
      ((relaxAStar M mgr e c (W, O) v).1 v).HScore =
        CalculateHeuristic M mgr (W v).Location (W e).Location ∧
      ((relaxAStar M mgr e c (W, O) v).1 v).Location = (W v).Location ∧
      ((relaxAStar M mgr e c (W, O) v).1 v).ConnectedNodes = (W v).ConnectedNodes ∧
      (∀ x, x ∈ (relaxAStar M mgr e c (W, O) v).2 ↔ x ∈ O ∨ x = v) ∧
      (relaxAStar M mgr e c (W, O) v).2.length ≤ O.length + 1) := by
  by_cases h : (W c).GScore + FVector.Distance M (W c).Location (W v).Location < (W v).GScore
  · right
    rw [relaxAStar_of_lt M mgr e c W O v h]
    refine ⟨h, fun q hq => World.set_other _ _ _ _ hq, ?_, ?_, ?_, ?_, ?_, fun x => ?_, ?_⟩
    · simp [World.set]
    · simp [World.set]
    · simp [World.set]
    · simp [World.set]
    · simp [World.set]
    · by_cases hv : v ∈ O
      · simp only [hv, if_true]
        constructor
        · exact Or.inl
        · rintro (h1 | h1)
          · exact h1
          · rw [h1]; exact hv
      · simp [hv]
    · by_cases hv : v ∈ O <;> simp [hv]
  · left
    exact ⟨h, relaxAStar_of_not_lt M mgr e c W O v h⟩

/-- One step of the loop over the connections of the node `c` keeps the
invariant of the search. -/
theorem relaxAStar_core (M : FMath K) (mgr : AAIManager K) (W0 : World K) (nodes : List Nat)
    (s e c : Nat) (hclosed : ClosedGraph W0 nodes) (hnn : SqrtNonnegOn M W0 nodes)
    (hc : c ∈ nodes) (W : World K) (O : List Nat) (v : Nat) (hv : v ∈ (W0 c).ConnectedNodes)
    (hinv : CoreInv M mgr W0 nodes s e W O) (hvis : Visited M s W c)
    (hreach : Reachable W0 s c) :
    CoreInv M mgr W0 nodes s e (relaxAStar M mgr e c (W, O) v).1
      (relaxAStar M mgr e c (W, O) v).2 ∧
    Visited M s (relaxAStar M mgr e c (W, O) v).1 c ∧
    ((relaxAStar M mgr e c (W, O) v).1 c).GScore = (W c).GScore ∧
    (∀ x, ((relaxAStar M mgr e c (W, O) v).1 x).GScore ≤ (W x).GScore) := by
  have hvn : v ∈ nodes := hclosed c hc v hv
  have hd : 0 ≤ FVector.Distance M (W c).Location (W v).Location := by
    rw [(hinv.frame c).1, (hinv.frame v).1]
    exact hnn c hc v hvn
  rcases relaxAStar_effect M mgr e c W O v with ⟨_, h⟩ | ⟨hlt, hoth, hg, hcf, hh, hloc, hcon, hmem, _⟩
  · rw [h]
    exact ⟨hinv, hvis, rfl, fun _ => le_rfl⟩
  · have hcv : c ≠ v := by
      intro h
      rw [← h] at hlt hd
      linarith
    have hvs : v ≠ s := by
      intro h
      rw [h, hinv.gstart] at hlt
      have := hinv.gnonneg c hc
      rw [h] at hd
      linarith
    have hgc : ((relaxAStar M mgr e c (W, O) v).1 c).GScore = (W c).GScore := by
      rw [hoth c hcv]
    have hmono : ∀ x, ((relaxAStar M mgr e c (W, O) v).1 x).GScore ≤ (W x).GScore := by
      intro x
      by_cases hx : x = v
      · rw [hx, hg]; exact hlt.le
      · rw [hoth x hx]
    have hvlt : ((relaxAStar M mgr e c (W, O) v).1 v).GScore < M.FloatMax := by
      rw [hg]
      exact lt_of_lt_of_le hlt (hinv.gmax v hvn)
    have hvis' : ∀ x, Visited M s W x → Visited M s (relaxAStar M mgr e c (W, O) v).1 x := by
      intro x hx
      rcases hx with hx | hx
      · exact Or.inl hx
      · exact Or.inr (lt_of_le_of_lt (hmono x) hx)
    refine ⟨⟨fun q => ?_, ?_, fun x hx => ?_, fun x hx => ?_, fun x hx => ?_, fun x hx => ?_,
      fun x hx => ?_, fun x hx => ?_, fun x hx hxs hxlt => ?_⟩, hvis' c hvis, hgc, hmono⟩
    · by_cases hq : q = v
      · rw [hq, hloc, hcon]; exact hinv.frame v
      · rw [hoth q hq]; exact hinv.frame q
    · rw [hoth s (Ne.symm hvs)]; exact hinv.gstart
    · by_cases hxv : x = v
      · rw [hxv, hg]
        have := hinv.gnonneg c hc
        linarith
      · rw [hoth x hxv]; exact hinv.gnonneg x hx
    · exact le_trans (hmono x) (hinv.gmax x hx)
    · rcases (hmem x).mp hx with h | h
      · exact hinv.open_nodes x h
      · rw [h]; exact hvn
    · rcases (hmem x).mp hx with h | h
      · exact hvis' x (hinv.open_vis x h)
      · rw [h]; exact Or.inr hvlt
    · rcases (hmem x).mp hx with h | h
      · exact hinv.open_reach x h
      · rw [h]; exact Relation.ReflTransGen.tail hreach hv
    · by_cases hxv : x = v
      · rw [hxv, hh, (hinv.frame v).1, (hinv.frame e).1]
      · rw [hoth x hxv]
        rcases (hmem x).mp hx with h | h
        · exact hinv.hscore x h
        · exact absurd h hxv
    · by_cases hxv : x = v
      · subst hxv
        refine ⟨c, hc, hcf, hv, hvis' c hvis, ?_⟩
        rw [hgc, hg, (hinv.frame c).1, (hinv.frame x).1]
      · rw [hoth x hxv] at hxlt ⊢
        obtain ⟨c', hc', h1, h2, h3, h4⟩ := hinv.link x hx hxs hxlt
        exact ⟨c', hc', h1, h2, hvis' c' h3, le_trans (add_le_add_right (hmono c') _) h4⟩


/-- One step of the loop over the connections of `c` keeps the edges relaxed
and relaxes the edge to the neighbour it visits. -/
theorem relaxAStar_edges (M : FMath K) (mgr : AAIManager K) (W0 : World K) (nodes : List Nat)
    (s e c : Nat) (hclosed : ClosedGraph W0 nodes) (hnn : SqrtNonnegOn M W0 nodes)
    (hc : c ∈ nodes) (W : World K) (O : List Nat) (pre : List Nat) (v : Nat)
    (hv : v ∈ (W0 c).ConnectedNodes)
    (hinv : CoreInv M mgr W0 nodes s e W O)
    (hed : RelaxedEdges M W0 nodes (some c) pre W O) :
    RelaxedEdges M W0 nodes (some c) (pre ++ [v]) (relaxAStar M mgr e c (W, O) v).1
      (relaxAStar M mgr e c (W, O) v).2 := by
  have hvn : v ∈ nodes := hclosed c hc v hv
  have hd : 0 ≤ FVector.Distance M (W0 c).Location (W0 v).Location := hnn c hc v hvn
  have hT : (W c).GScore + FVector.Distance M (W c).Location (W v).Location =
      (W c).GScore + FVector.Distance M (W0 c).Location (W0 v).Location := by
    rw [(hinv.frame c).1, (hinv.frame v).1]
  rcases relaxAStar_effect M mgr e c W O v with ⟨hnlt, h⟩ | ⟨hlt, hoth, hg, _, _, _, _, hmem, _⟩
  · rw [h]
    intro u hu huO w hw hpre
    by_cases huc : u = c
    · subst huc
      rcases List.mem_append.mp (hpre rfl) with h1 | h1
      · exact hed u hu huO w hw (fun _ => h1)
      · simp only [List.mem_singleton] at h1
        subst h1
        rw [← hT]
        exact not_lt.mp hnlt
    · exact hed u hu huO w hw (fun h => absurd (Option.some.inj h).symm huc)
  · have hcv : c ≠ v := by
      intro h
      rw [← h] at hlt hT hd
      rw [hT] at hlt
      linarith
    have hmono : ∀ x, ((relaxAStar M mgr e c (W, O) v).1 x).GScore ≤ (W x).GScore := by
      intro x
      by_cases hx : x = v
      · rw [hx, hg]; exact hlt.le
      · rw [hoth x hx]
    intro u hu huO w hw hpre
    have huO' : u ∉ O := fun h => huO ((hmem u).mpr (Or.inl h))
    have huv : u ≠ v := fun h => huO ((hmem u).mpr (Or.inr h))
    rw [hoth u huv]
    by_cases hcase : u = c ∧ w = v
    · obtain ⟨h1, h2⟩ := hcase
      subst h1 h2
      rw [hg, hT]
    · have hold : (W w).GScore ≤
          (W u).GScore + FVector.Distance M (W0 u).Location (W0 w).Location := by
        apply hed u hu huO' w hw
        intro h
        have huc : u = c := (Option.some.inj h).symm
        rcases List.mem_append.mp (hpre h) with h1 | h1
        · exact h1
        · simp only [List.mem_singleton] at h1
          exact absurd ⟨huc, h1⟩ hcase
      exact le_trans (hmono w) hold

/-- An iteration of the search loop that does not return keeps the invariant of
the search and leaves the edges of the nodes outside the open set relaxed. -/
theorem expand_edges (M : FMath K) (mgr : AAIManager K) (W0 : World K) (nodes : List Nat)
    (s e : Nat) (hclosed : ClosedGraph W0 nodes) (hnn : SqrtNonnegOn M W0 nodes)
    (W : World K) (O : List Nat) (hO : O ≠ [])
    (hinv : CoreInv M mgr W0 nodes s e W O)
    (hed : RelaxedEdges M W0 nodes none [] W O) :
    CoreInv M mgr W0 nodes s e (expand M mgr e W O).1 (expand M mgr e W O).2 ∧
    RelaxedEdges M W0 nodes none [] (expand M mgr e W O).1 (expand M mgr e W O).2 := by
  obtain ⟨hcO, _⟩ := lowest_spec W O hO
  generalize hcdef : O.getD (IndexLowestFScore W O) 0 = c at hcO
  have hc : c ∈ nodes := hinv.open_nodes c hcO
  have hsub : ∀ x ∈ O.filter (fun p => p ≠ c), x ∈ O := fun x hx => (List.mem_filter.mp hx).1
  have hinv1 : CoreInv M mgr W0 nodes s e W (O.filter (fun p => p ≠ c)) :=
    ⟨hinv.frame, hinv.gstart, hinv.gnonneg, hinv.gmax, fun x hx => hinv.open_nodes x (hsub x hx),
      fun x hx => hinv.open_vis x (hsub x hx), fun x hx => hinv.open_reach x (hsub x hx),
      fun x hx => hinv.hscore x (hsub x hx), hinv.link⟩
  have hed1 : RelaxedEdges M W0 nodes (some c) [] W (O.filter (fun p => p ≠ c)) := by
    intro u hu huO w hw hpre
    by_cases huc : u = c
    · have := hpre (by rw [huc])
      simp at this
    · apply hed u hu _ w hw (fun h => by simp at h)
      intro h
      exact huO (List.mem_filter.mpr ⟨h, by simpa using huc⟩)
  have key := foldl_prefix_induction (relaxAStar M mgr e c)
    (fun pre st => CoreInv M mgr W0 nodes s e st.1 st.2 ∧ Visited M s st.1 c ∧
      RelaxedEdges M W0 nodes (some c) pre st.1 st.2)
    (W0 c).ConnectedNodes [] (W, O.filter (fun p => p ≠ c))
    ⟨hinv1, hinv.open_vis c hcO, hed1⟩
    (fun pre st v ⟨h1, h2, h3⟩ hv => by
      obtain ⟨g1, g2, _, _⟩ := relaxAStar_core M mgr W0 nodes s e c hclosed hnn hc st.1 st.2 v hv
        h1 h2 (hinv.open_reach c hcO)
      exact ⟨g1, g2, relaxAStar_edges M mgr W0 nodes s e c hclosed hnn hc st.1 st.2 pre v hv
        h1 h3⟩)
  unfold expand
  rw [hcdef, (hinv.frame c).2]
  simp only [List.nil_append] at key
  refine ⟨key.1, ?_⟩
  intro u hu huO w hw _
  apply key.2.2 u hu huO w hw
  intro h
  rw [Option.some.inj h]
  exact hw


omit [LinearOrderedCommRing K] in
/-- The reset loop writes `GScore` of the nodes of `AllNodes` and nothing
else. -/
theorem resetGScores_apply (M : FMath K) :
    ∀ (AllNodes : List Nat) (W : World K) (q : Nat),
      resetGScores M W AllNodes q =
        if q ∈ AllNodes then { W q with GScore := M.FloatMax } else W q := by
  intro AllNodes
  induction AllNodes with
  | nil => intro W q; simp [resetGScores]
  | cons p l ih =>
    intro W q
    have hstep : resetGScores M W (p :: l) =
        resetGScores M (W.set p { W p with GScore := M.FloatMax }) l := rfl
    rw [hstep, ih]
    by_cases hqp : q = p
    · subst hqp
      by_cases hql : q ∈ l <;> simp [hql, World.set]
    · by_cases hql : q ∈ l <;> simp [hql, hqp, World.set]

/-- The state in which the search loop is entered. -/
theorem initSearch_spec (M : FMath K) (mgr : AAIManager K) (W0 : World K) (s e : Nat) :
    (∀ q, (initSearch M mgr W0 s e q).Location = (W0 q).Location ∧
      (initSearch M mgr W0 s e q).ConnectedNodes = (W0 q).ConnectedNodes ∧
      (initSearch M mgr W0 s e q).CameFrom = (W0 q).CameFrom) ∧
    (initSearch M mgr W0 s e s).GScore = 0 ∧
    (initSearch M mgr W0 s e s).HScore =
      CalculateHeuristic M mgr (W0 s).Location (W0 e).Location ∧
    (∀ q ∈ mgr.AllNodes, q ≠ s → (initSearch M mgr W0 s e q).GScore = M.FloatMax) := by
  have hloc : ∀ q, (resetGScores M W0 mgr.AllNodes q).Location = (W0 q).Location := by
    intro q
    rw [resetGScores_apply]
    split_ifs <;> rfl
  refine ⟨fun q => ?_, ?_, ?_, fun q hq hqs => ?_⟩
  · by_cases hqs : q = s
    · subst hqs
      simp only [initSearch, World.set, if_true]
      rw [resetGScores_apply]
      split_ifs <;> exact ⟨rfl, rfl, rfl⟩
    · simp only [initSearch, World.set, hqs, if_false]
      rw [resetGScores_apply]
      split_ifs <;> exact ⟨rfl, rfl, rfl⟩
  · simp [initSearch, World.set]
  · by_cases hes : e = s
    · subst hes
      simp only [initSearch, World.set, if_true]
      rw [hloc]
    · simp only [initSearch, World.set, if_true, hes, if_false]
      rw [hloc, hloc]
  · simp only [initSearch, World.set, hqs, if_false]
    rw [resetGScores_apply, if_pos hq]

/-- The invariant of the search holds when the loop is entered. -/
theorem initSearch_core (M : FMath K) (mgr : AAIManager K) (W0 : World K) (nodes : List Nat)
    (s e : Nat) (hclosed : ClosedGraph W0 nodes) (hnn : SqrtNonnegOn M W0 nodes)
    (hs : s ∈ nodes) (hall : ∀ x ∈ nodes, x ∈ mgr.AllNodes) (hmax : 0 ≤ M.FloatMax) :
    CoreInv M mgr W0 nodes s e (initSearch M mgr W0 s e) [s] ∧
    RelaxedEdges M W0 nodes none [] (initSearch M mgr W0 s e) [s] := by
  obtain ⟨h1, h2, h3, h4⟩ := initSearch_spec M mgr W0 s e
  have hg : ∀ x ∈ nodes, x ≠ s → (initSearch M mgr W0 s e x).GScore = M.FloatMax :=
    fun x hx hxs => h4 x (hall x hx) hxs
  have hgmax : ∀ x ∈ nodes, (initSearch M mgr W0 s e x).GScore ≤ M.FloatMax := by
    intro x hx
    by_cases hxs : x = s
    · rw [hxs, h2]; exact hmax
    · rw [hg x hx hxs]
  constructor
  · refine ⟨fun q => ⟨(h1 q).1, (h1 q).2.1⟩, h2, fun x hx => ?_, hgmax, fun x hx => ?_,
      fun x hx => ?_, fun x hx => ?_, fun x hx => ?_, fun x hx hxs hlt => ?_⟩
    · by_cases hxs : x = s
      · rw [hxs, h2]
      · rw [hg x hx hxs]; exact hmax
    · rw [List.mem_singleton.mp hx]; exact hs
    · exact Or.inl (List.mem_singleton.mp hx)
    · rw [List.mem_singleton.mp hx]; exact Relation.ReflTransGen.refl
    · rw [List.mem_singleton.mp hx]; exact h3
    · rw [hg x hx hxs] at hlt
      exact absurd hlt (lt_irrefl _)
  · intro u hu huO w hw _
    have hus : u ≠ s := fun h => huO (by rw [h]; exact List.mem_singleton_self s)
    rw [hg u hu hus]
    have hd := hnn u hu w (hclosed u hu w hw)
    have := hgmax w (hclosed u hu w hw)
    unfold FVector.Distance
    linarith


/-! ### Lengths -/

theorem DistSquared_comm (a b : FVector K) : FVector.DistSquared a b = FVector.DistSquared b a := by
  unfold FVector.DistSquared
  ring

theorem Distance_comm (M : FMath K) (a b : FVector K) :
    FVector.Distance M a b = FVector.Distance M b a := by
  unfold FVector.Distance
  rw [DistSquared_comm]

theorem pathLength_append_singleton (M : FMath K) (W : World K) :
    ∀ (l : List Nat) (x y : Nat), l.getLast? = some x →
      pathLength M W (l ++ [y]) =
        pathLength M W l + FVector.Distance M (W x).Location (W y).Location := by
  intro l
  induction l with
  | nil => intro x y h; simp at h
  | cons a l ih =>
    intro x y h
    cases l with
    | nil =>
      simp at h
      subst h
      simp [pathLength]
    | cons b l =>
      have h' : (b :: l).getLast? = some x := by
        rw [List.getLast?_cons_cons] at h
        exact h
      have := ih x y h'
      show FVector.Distance M (W a).Location (W b).Location + pathLength M W (b :: (l ++ [y])) =
        FVector.Distance M (W a).Location (W b).Location + pathLength M W (b :: l) +
          FVector.Distance M (W x).Location (W y).Location
      rw [show b :: (l ++ [y]) = (b :: l) ++ [y] from rfl, this]
      ring

omit [LinearOrderedCommRing K] in
/-- The nodes of a chain that starts in a closed graph are nodes of the graph. -/
theorem chain_mem_nodes (W0 : World K) (nodes : List Nat) (hclosed : ClosedGraph W0 nodes) :
    ∀ (c : List Nat) (x : Nat), IsConnectedChain W0 c → c.head? = some x → x ∈ nodes →
      ∀ y ∈ c, y ∈ nodes := by
  intro c
  induction c with
  | nil => intro x _ _ _ y hy; simp at hy
  | cons a c ih =>
    intro x hch hhead hx y hy
    simp at hhead
    subst hhead
    rcases List.mem_cons.mp hy with h | h
    · rw [h]; exact hx
    · cases c with
      | nil => simp at h
      | cons b c =>
        have hch' : IsConnectedChain W0 (b :: c) := (List.chain'_cons.mp hch).2
        have hb : b ∈ nodes := hclosed a hx b (List.chain'_cons.mp hch).1
        exact ih b hch' rfl hb y h

/-- The length of a chain in a graph with non-negative distances is not
negative. -/
theorem pathLength_nonneg (M : FMath K) (W0 : World K) (nodes : List Nat)
    (hnn : SqrtNonnegOn M W0 nodes) :
    ∀ (c : List Nat), (∀ y ∈ c, y ∈ nodes) → 0 ≤ pathLength M W0 c := by
  intro c
  induction c with
  | nil => intro _; simp [pathLength]
  | cons a c ih =>
    intro h
    cases c with
    | nil => simp [pathLength]
    | cons b c =>
      have h1 := ih (fun y hy => h y (List.mem_cons_of_mem _ hy))
      have h2 := hnn a (h a (List.mem_cons_self _ _)) b
        (h b (List.mem_cons_of_mem _ (List.mem_cons_self _ _)))
      simp only [pathLength, FVector.Distance]
      linarith

/-- The sequence returned by the back trace is not longer than the score of the
node the trace starts from. -/
theorem backTrace_length (M : FMath K) (mgr : AAIManager K) (W0 : World K) (nodes : List Nat)
    (s e : Nat) (W : World K) (O : List Nat) (hinv : CoreInv M mgr W0 nodes s e W O) :
    ∀ (fuel cur : Nat) (Path p : List Nat), backTrace W s fuel cur Path = some p →
      Path.getLast? = some cur → cur ∈ nodes → Visited M s W cur →
      pathLength M W0 p ≤ pathLength M W0 Path + (W cur).GScore := by
  intro fuel
  induction fuel with
  | zero => intro cur Path p h; simp [backTrace] at h
  | succ n ih =>
    intro cur Path p h hlast hcur hvis
    unfold backTrace at h
    by_cases hcs : cur = s
    · simp [hcs] at h
      subst h
      rw [hcs, hinv.gstart]
      simp
    · simp only [ne_eq, hcs, not_false_eq_true, if_true] at h
      have hlt : (W cur).GScore < M.FloatMax := hvis.resolve_left hcs
      obtain ⟨c, hc, hcf, _, hcvis, hle⟩ := hinv.link cur hcur hcs hlt
      rw [hcf] at h
      have := ih c (Path ++ [c]) p h (by simp) hc hcvis
      rw [pathLength_append_singleton M W0 Path cur c hlast, Distance_comm] at this
      linarith

/-- When the end node has the lowest F-score of the open set, its F-score is
at most the score of the first node of any chain to it plus the length of the
chain. -/
theorem chain_bound (M : FMath K) (mgr : AAIManager K) (W0 : World K) (nodes : List Nat)
    (s e : Nat) (hclosed : ClosedGraph W0 nodes) (W : World K) (O : List Nat)
    (hinv : CoreInv M mgr W0 nodes s e W O) (hed : RelaxedEdges M W0 nodes none [] W O)
    (hadm : Admissible M W0 nodes e
      (fun x => CalculateHeuristic M mgr (W0 x).Location (W0 e).Location))
    (heO : e ∈ O) (hmin : ∀ x ∈ O, (W e).FScore ≤ (W x).FScore) :
    ∀ (c : List Nat) (x : Nat), IsConnectedChain W0 c → c.head? = some x →
      c.getLast? = some e → x ∈ nodes → ∀ A, (W x).GScore ≤ A →
      (W e).FScore ≤ A + pathLength M W0 c := by
  intro c
  induction c with
  | nil => intro x _ h; simp at h
  | cons a c ih =>
    intro x hch hhead hlast hx A hA
    simp at hhead
    subst hhead
    by_cases haO : a ∈ O
    · have h1 := hmin a haO
      have h2 := hadm (a :: c) a hch rfl hlast hx
      simp only [ANavigationNode.FScore] at h1 ⊢
      rw [hinv.hscore a haO] at h1
      linarith
    · cases c with
      | nil =>
        simp at hlast
        rw [hlast] at haO
        exact absurd heO haO
      | cons b c =>
        have hab : b ∈ (W0 a).ConnectedNodes := (List.chain'_cons.mp hch).1
        have hch' : IsConnectedChain W0 (b :: c) := (List.chain'_cons.mp hch).2
        have hb : b ∈ nodes := hclosed a hx b hab
        have hrel := hed a hx haO b hab (fun h => by simp at h)
        have hlast' : (b :: c).getLast? = some e := by
          rw [List.getLast?_cons_cons] at hlast
          exact hlast
        have := ih b hch' rfl hlast' hb
          (A + FVector.Distance M (W0 a).Location (W0 b).Location) (by linarith)
        simp only [pathLength]
        linarith


/-- With an estimate that is admissible and zero at the end node, a sequence
returned by the search is not longer than any chain of connections from the
start node to the end node. -/
theorem aStar_optimal (M : FMath K) (mgr : AAIManager K) (W0 : World K) (nodes : List Nat)
    (s e : Nat) (hclosed : ClosedGraph W0 nodes) (hnn : SqrtNonnegOn M W0 nodes)
    (hs : s ∈ nodes) (hall : ∀ x ∈ nodes, x ∈ mgr.AllNodes) (hmax : 0 ≤ M.FloatMax)
    (hadm : Admissible M W0 nodes e
      (fun x => CalculateHeuristic M mgr (W0 x).Location (W0 e).Location))
    (hzero : 0 ≤ CalculateHeuristic M mgr (W0 e).Location (W0 e).Location)
    (fuel : Nat) (p : List Nat) (W' : World K)
    (hres : GenerateAStarPath M mgr W0 s e fuel = some (p, W'))
    (c : List Nat) (hc : ChainFromTo W0 s e c) :
    pathLength M W0 p ≤ pathLength M W0 c := by
  obtain ⟨hch, hhead, hlast⟩ := hc
  have hcn : ∀ y ∈ c, y ∈ nodes := chain_mem_nodes W0 nodes hclosed c s hch hhead hs
  obtain ⟨i1, i2⟩ := initSearch_core M mgr W0 nodes s e hclosed hnn hs hall hmax
  unfold GenerateAStarPath at hres
  rcases aStarLoop_invariant M mgr s e fuel
      (fun W O => CoreInv M mgr W0 nodes s e W O ∧ RelaxedEdges M W0 nodes none [] W O)
      (fun W O hP hO _ => expand_edges M mgr W0 nodes s e hclosed hnn W O hO hP.1 hP.2)
      fuel _ _ p W' ⟨i1, i2⟩ hres with ⟨h0, _⟩ | ⟨O', ⟨hinv, hed⟩, hO', hcur, hb⟩
  · rw [h0]
    simpa [pathLength] using pathLength_nonneg M W0 nodes hnn c hcn
  · obtain ⟨heO, hmin⟩ := lowest_spec W' O' hO'
    rw [hcur] at heO hmin
    have h1 := backTrace_length M mgr W0 nodes s e W' O' hinv fuel e [e] p hb (by simp)
      (hinv.open_nodes e heO) (hinv.open_vis e heO)
    have h2 := chain_bound M mgr W0 nodes s e hclosed W' O' hinv hed hadm heO hmin c s hch hhead
      hlast hs 0 (by rw [hinv.gstart])
    simp only [ANavigationNode.FScore] at h2
    rw [hinv.hscore e heO] at h2
    simp only [pathLength] at h1
    linarith

/-! ### The heuristics -/

/-- The triangle inequality for the lengths of two vectors and of their sum. -/
theorem triangle_aux (u1 u2 u3 v1 v2 v3 α β γ : K) (hα : 0 ≤ α) (hβ : 0 ≤ β)
    (p : α * α = u1 * u1 + u2 * u2 + u3 * u3) (q : β * β = v1 * v1 + v2 * v2 + v3 * v3)
    (r : γ * γ = (u1 + v1) * (u1 + v1) + (u2 + v2) * (u2 + v2) + (u3 + v3) * (u3 + v3)) :
    γ ≤ α + β := by
  have lagrange : (u1 * u1 + u2 * u2 + u3 * u3) * (v1 * v1 + v2 * v2 + v3 * v3) -
      (u1 * v1 + u2 * v2 + u3 * v3) * (u1 * v1 + u2 * v2 + u3 * v3) =
      (u1 * v2 - u2 * v1) * (u1 * v2 - u2 * v1) + (u1 * v3 - u3 * v1) * (u1 * v3 - u3 * v1) +
        (u2 * v3 - u3 * v2) * (u2 * v3 - u3 * v2) := by
    ring
  have hcs : (u1 * v1 + u2 * v2 + u3 * v3) * (u1 * v1 + u2 * v2 + u3 * v3) ≤
      (α * β) * (α * β) := by
    have e1 : (α * β) * (α * β) = (α * α) * (β * β) := by ring
    rw [e1, p, q]
    have n1 := mul_self_nonneg (u1 * v2 - u2 * v1)
    have n2 := mul_self_nonneg (u1 * v3 - u3 * v1)
    have n3 := mul_self_nonneg (u2 * v3 - u3 * v2)
    linarith
  have hdot : u1 * v1 + u2 * v2 + u3 * v3 ≤ α * β := by
    by_contra hlt
    have hlt' := not_le.mp hlt
    have := mul_self_lt_mul_self (mul_nonneg hα hβ) hlt'
    linarith
  have hsq : γ * γ ≤ (α + β) * (α + β) := by
    have e2 : (α + β) * (α + β) = α * α + β * β + 2 * (α * β) := by ring
    have e3 : (u1 + v1) * (u1 + v1) + (u2 + v2) * (u2 + v2) + (u3 + v3) * (u3 + v3) =
        (u1 * u1 + u2 * u2 + u3 * u3) + (v1 * v1 + v2 * v2 + v3 * v3) +
          2 * (u1 * v1 + u2 * v2 + u3 * v3) := by ring
    rw [e2, r, e3, p, q]
    linarith
  by_contra hlt
  have hlt' := not_le.mp hlt
  have := mul_self_lt_mul_self (add_nonneg hα hβ) hlt'
  linarith

/-- Where the square root is exact, the distance satisfies the triangle
inequality. -/
theorem Distance_triangle (M : FMath K) (W0 : World K) (nodes : List Nat)
    (hex : SqrtExactOn M W0 nodes) (a b c : Nat) (ha : a ∈ nodes) (hb : b ∈ nodes)
    (hc : c ∈ nodes) :
    FVector.Distance M (W0 a).Location (W0 c).Location ≤
      FVector.Distance M (W0 a).Location (W0 b).Location +
        FVector.Distance M (W0 b).Location (W0 c).Location := by
  obtain ⟨p0, p1⟩ := hex a ha b hb
  obtain ⟨q0, q1⟩ := hex b hb c hc
  obtain ⟨_, r1⟩ := hex a ha c hc
  unfold FVector.Distance
  refine triangle_aux _ _ _ _ _ _ _ _ _ p0 q0 p1 q1 ?_
  rw [r1]
  unfold FVector.DistSquared
  ring

/-- Where the square root is exact, the distance to the end node never exceeds
the length of a chain to it. -/
theorem euclidean_le_chain (M : FMath K) (W0 : World K) (nodes : List Nat) (e : Nat)
    (hclosed : ClosedGraph W0 nodes) (hex : SqrtExactOn M W0 nodes) (he : e ∈ nodes) :
    Admissible M W0 nodes e
      (fun x => FVector.Distance M (W0 x).Location (W0 e).Location) := by
  intro c
  induction c with
  | nil => intro x _ h; simp at h
  | cons a c ih =>
    intro x hch hhead hlast hx
    simp at hhead
    subst hhead
    cases c with
    | nil =>
      simp at hlast
      subst hlast
      obtain ⟨h0, h1⟩ := hex a hx a hx
      have hz : FVector.DistSquared (W0 a).Location (W0 a).Location = 0 := by
        unfold FVector.DistSquared
        ring
      rw [hz] at h1
      have : M.Sqrt 0 = 0 := mul_self_eq_zero.mp h1
      simp only [pathLength, FVector.Distance, hz, this, le_refl]
    | cons b c =>
      have hab : b ∈ (W0 a).ConnectedNodes := (List.chain'_cons.mp hch).1
      have hch' : IsConnectedChain W0 (b :: c) := (List.chain'_cons.mp hch).2
      have hb : b ∈ nodes := hclosed a hx b hab
      have hlast' : (b :: c).getLast? = some e := by
        rw [List.getLast?_cons_cons] at hlast
        exact hlast
      have h1 := ih b hch' rfl hlast' hb
      have h2 := Distance_triangle M W0 nodes hex a b e hx hb he
      simp only [pathLength] at h1 ⊢
      linarith

/-- The value of `CalculateHeuristic` for `CHEBYSHEV` is the larger of the two
absolute differences. -/
theorem chebyshev_eq_max (M : FMath K) (mgr : AAIManager K)
    (hh : mgr.Heuristic = EHeuristicType.CHEBYSHEV) (a b : FVector K) :
    CalculateHeuristic M mgr a b = max |b.X - a.X| |b.Y - a.Y| := by
  simp only [CalculateHeuristic, hh]
  simp only [reduceCtorEq, if_false, or_true, if_true]
  rcases le_total |b.X - a.X| |b.Y - a.Y| with h | h
  · rw [min_eq_left h, max_eq_right h]; ring
  · rw [min_eq_right h, max_eq_left h]; ring

/-- A number whose square is at most the square of a non-negative number is
at most that number in absolute value. -/
theorem abs_le_of_mul_self_le (x α : K) (hα : 0 ≤ α) (h : x * x ≤ α * α) : |x| ≤ α := by
  by_contra hlt
  have hlt' := not_le.mp hlt
  have := mul_self_lt_mul_self hα hlt'
  rw [abs_mul_abs_self] at this
  linarith

/-- Where the square root is exact, the `CHEBYSHEV` estimate is at most the
distance. -/
theorem chebyshev_le_distance (M : FMath K) (mgr : AAIManager K)
    (hh : mgr.Heuristic = EHeuristicType.CHEBYSHEV) (W0 : World K) (nodes : List Nat)
    (hex : SqrtExactOn M W0 nodes) (a b : Nat) (ha : a ∈ nodes) (hb : b ∈ nodes) :
    CalculateHeuristic M mgr (W0 a).Location (W0 b).Location ≤
      FVector.Distance M (W0 a).Location (W0 b).Location := by
  rw [chebyshev_eq_max M mgr hh]
  obtain ⟨h0, h1⟩ := hex a ha b hb
  unfold FVector.Distance
  unfold FVector.DistSquared at h1 ⊢
  have nx := mul_self_nonneg ((W0 b).Location.X - (W0 a).Location.X)
  have ny := mul_self_nonneg ((W0 b).Location.Y - (W0 a).Location.Y)
  have nz := mul_self_nonneg ((W0 b).Location.Z - (W0 a).Location.Z)
  exact max_le (abs_le_of_mul_self_le _ _ h0 (by linarith))
    (abs_le_of_mul_self_le _ _ h0 (by linarith))


/-- The `EUCLIDEAN` and the `CHEBYSHEV` estimate are admissible where the square
root is exact, and zero at the end node. -/
theorem heuristic_admissible (M : FMath K) (mgr : AAIManager K)
    (hh : mgr.Heuristic = EHeuristicType.EUCLIDEAN ∨ mgr.Heuristic = EHeuristicType.CHEBYSHEV)
    (W0 : World K) (nodes : List Nat) (e : Nat) (hclosed : ClosedGraph W0 nodes)
    (hex : SqrtExactOn M W0 nodes) (he : e ∈ nodes) :
    Admissible M W0 nodes e
        (fun x => CalculateHeuristic M mgr (W0 x).Location (W0 e).Location) ∧
      0 ≤ CalculateHeuristic M mgr (W0 e).Location (W0 e).Location := by
  have heu := euclidean_le_chain M W0 nodes e hclosed hex he
  rcases hh with hh | hh
  · have hcalc : ∀ a b : FVector K, CalculateHeuristic M mgr a b = FVector.Distance M a b := by
      intro a b
      simp [CalculateHeuristic, hh]
    constructor
    · intro c x h1 h2 h3 h4
      simp only [hcalc]
      exact heu c x h1 h2 h3 h4
    · rw [hcalc]
      exact (hex e he e he).1
  · constructor
    · intro c x h1 h2 h3 h4
      exact le_trans (chebyshev_le_distance M mgr hh W0 nodes hex x e h4 he) (heu c x h1 h2 h3 h4)
    · rw [chebyshev_eq_max M mgr hh]
      exact le_max_of_le_left (abs_nonneg _)

/-- With the `EUCLIDEAN` or the `CHEBYSHEV` heuristic, on a graph whose nodes are
all in `AllNodes` and on whose distances the square root is exact, the sequence
returned by the search is not longer than any chain of connections from the
start node to the end node. -/
theorem aStar_shortest (M : FMath K) (mgr : AAIManager K) (W : World K) (nodes : List Nat)
    (s e : Nat)
    (hh : mgr.Heuristic = EHeuristicType.EUCLIDEAN ∨ mgr.Heuristic = EHeuristicType.CHEBYSHEV)
    (hclosed : ClosedGraph W nodes) (hs : s ∈ nodes) (he : e ∈ nodes)
    (hall : ∀ x ∈ nodes, x ∈ mgr.AllNodes) (hex : SqrtExactOn M W nodes)
    (hmax : 0 ≤ M.FloatMax) (fuel : Nat) (p : List Nat)
    (hp : AStarPath M mgr W s e fuel = some p) (c : List Nat) (hc : ChainFromTo W s e c) :
    pathLength M W p ≤ pathLength M W c := by
  obtain ⟨hadm, hzero⟩ := heuristic_admissible M mgr hh W nodes e hclosed hex he
  unfold AStarPath at hp
  cases hg : GenerateAStarPath M mgr W s e fuel with
  | none => simp [hg] at hp
  | some r =>
    obtain ⟨q, W'⟩ := r
    simp [hg] at hp
    subst hp
    exact aStar_optimal M mgr W nodes s e hclosed (fun a ha b hb => (hex a ha b hb).1) hs hall
      hmax hadm hzero fuel q W' hg c hc

end SearchFacts

/-- Over the real numbers, with the real square root, the square root is exact
on all distances: there the hypothesis `SqrtExactOn` holds of every graph. -/
theorem sqrtExactOn_real (FloatMax : ℝ) (W : World ℝ) (nodes : List Nat) :
    SqrtExactOn ⟨Real.sqrt, FloatMax⟩ W nodes := by
  intro a _ b _
  have h : 0 ≤ FVector.DistSquared (W a).Location (W b).Location := by
    unfold FVector.DistSquared
    have h1 := mul_self_nonneg ((W b).Location.X - (W a).Location.X)
    have h2 := mul_self_nonneg ((W b).Location.Y - (W a).Location.Y)
    have h3 := mul_self_nonneg ((W b).Location.Z - (W a).Location.Z)
    linarith
  exact ⟨Real.sqrt_nonneg _, Real.mul_self_sqrt h⟩

section Termination

variable {K : Type} [LinearOrderedCommRing K]

omit [LinearOrderedCommRing K] in
theorem mem_listsUpTo (nodes : List Nat) :
    ∀ (n : Nat) (l : List Nat), l.length ≤ n → (∀ y ∈ l, y ∈ nodes) → l ∈ listsUpTo nodes n := by
  intro n
  induction n with
  | zero =>
    intro l hl _
    have : l = [] := List.length_eq_zero.mp (by omega)
    simp [this, listsUpTo]
  | succ n ih =>
    intro l hl hmem
    cases l with
    | nil => simp [listsUpTo]
    | cons a l =>
      simp only [listsUpTo, List.mem_cons, List.mem_flatMap, List.mem_map]
      right
      exact ⟨l, ih l (by simpa using hl) (fun y hy => hmem y (List.mem_cons_of_mem _ hy)),
        a, hmem a (List.mem_cons_self _ _), rfl⟩

omit [LinearOrderedCommRing K] in
/-- A sequence of distinct nodes of the graph is one of the sequences counted. -/
theorem nodup_mem_listsUpTo (nodes : List Nat) (l : List Nat) (hnd : l.Nodup)
    (hmem : ∀ y ∈ l, y ∈ nodes) : l ∈ listsUpTo nodes nodes.length :=
  mem_listsUpTo nodes nodes.length l (List.Subperm.length_le (hnd.subperm hmem)) hmem

omit [LinearOrderedCommRing K] in
/-- Counting with a stronger predicate that fails on an element counted before
gives a smaller number. -/
theorem countP_lt_of_imp {α : Type} (p q : α → Bool) (L : List α)
    (himp : ∀ a, q a = true → p a = true) (a : α) (ha : a ∈ L) (hp : p a = true)
    (hq : q a = false) : L.countP q < L.countP p := by
  induction L with
  | nil => simp at ha
  | cons b L ih =>
    rcases List.mem_cons.mp ha with h | h
    · subst h
      have hle : L.countP q ≤ L.countP p := List.countP_mono_left (fun x _ => himp x)
      rw [List.countP_cons_of_pos _ _ hp, List.countP_cons_of_neg _ _ (by simp [hq])]
      omega
    · have := ih h
      by_cases hqb : q b = true
      · rw [List.countP_cons_of_pos _ _ hqb, List.countP_cons_of_pos _ _ (himp b hqb)]
        omega
      · by_cases hpb : p b = true
        · rw [List.countP_cons_of_neg _ _ hqb, List.countP_cons_of_pos _ _ hpb]
          omega
        · rw [List.countP_cons_of_neg _ _ hqb, List.countP_cons_of_neg _ _ hpb]
          exact this

/-- An initial segment of a sequence of nodes of the graph is not longer than
the sequence. -/
theorem pathLength_prefix_le (M : FMath K) (W0 : World K) (nodes : List Nat)
    (hnn : SqrtNonnegOn M W0 nodes) :
    ∀ (q r : List Nat), (∀ y ∈ q ++ r, y ∈ nodes) →
      pathLength M W0 q ≤ pathLength M W0 (q ++ r) := by
  intro q
  induction q with
  | nil =>
    intro r h
    simpa [pathLength] using pathLength_nonneg M W0 nodes hnn r (by simpa using h)
  | cons a q ih =>
    intro r h
    cases q with
    | nil =>
      simpa [pathLength] using pathLength_nonneg M W0 nodes hnn (a :: r) (by simpa using h)
    | cons b q =>
      have := ih r (fun y hy => h y (by simp at hy ⊢; tauto))
      show FVector.Distance M (W0 a).Location (W0 b).Location + pathLength M W0 (b :: q) ≤
        FVector.Distance M (W0 a).Location (W0 b).Location + pathLength M W0 (b :: q ++ r)
      linarith


/-- One step of the loop over the connections of `c` keeps every score
accounted for, and what it adds to the open set it takes from `pending`. -/
theorem relaxAStar_walks (M : FMath K) (mgr : AAIManager K) (W0 : World K) (nodes : List Nat)
    (s e c : Nat) (hclosed : ClosedGraph W0 nodes) (hnn : SqrtNonnegOn M W0 nodes)
    (hc : c ∈ nodes) (W : World K) (O : List Nat) (v : Nat) (hv : v ∈ (W0 c).ConnectedNodes)
    (hinv : CoreInv M mgr W0 nodes s e W O) (hvis : Visited M s W c)
    (hw : WalksInv M W0 nodes s W) :
    WalksInv M W0 nodes s (relaxAStar M mgr e c (W, O) v).1 ∧
    pending M W0 nodes (relaxAStar M mgr e c (W, O) v).1 +
        (relaxAStar M mgr e c (W, O) v).2.length ≤
      pending M W0 nodes W + O.length := by
  have hvn : v ∈ nodes := hclosed c hc v hv
  have hd : 0 ≤ FVector.Distance M (W0 c).Location (W0 v).Location := hnn c hc v hvn
  have hT : (W c).GScore + FVector.Distance M (W c).Location (W v).Location =
      (W c).GScore + FVector.Distance M (W0 c).Location (W0 v).Location := by
    rw [(hinv.frame c).1, (hinv.frame v).1]
  rcases relaxAStar_effect M mgr e c W O v with ⟨_, h⟩ | ⟨hlt, hoth, hg, _, _, _, _, _, hlen⟩
  · rw [h]
    exact ⟨hw, le_rfl⟩
  · rw [hT] at hlt hg
    have hmono : ∀ x, ((relaxAStar M mgr e c (W, O) v).1 x).GScore ≤ (W x).GScore := by
      intro x
      by_cases hx : x = v
      · rw [hx, hg]; exact hlt.le
      · rw [hoth x hx]
    obtain ⟨wc, hnd, hmem, hlast, hcost, hpre⟩ := hw c hc hvis
    -- the sequence that accounts for the new score of `v`
    have hvwc : v ∉ wc := by
      intro hin
      obtain ⟨l1, l2, hsplit⟩ := List.append_of_mem hin
      have hq : (l1 ++ [v]) <+: wc := ⟨l2, by rw [hsplit]; simp⟩
      have h1 := hpre (l1 ++ [v]) hq v (by simp)
      have h2 : pathLength M W0 (l1 ++ [v]) ≤ pathLength M W0 wc := by
        have := pathLength_prefix_le M W0 nodes hnn (l1 ++ [v]) l2
          (fun y hy => hmem y (by rw [hsplit]; simpa using hy))
        rw [hsplit]
        simpa using this
      linarith
    have hnew : WalkOK M W0 nodes (relaxAStar M mgr e c (W, O) v).1 (wc ++ [v]) v := by
      refine ⟨?_, ?_, by simp, ?_, ?_⟩
      · rw [List.nodup_append]
        refine ⟨hnd, List.nodup_singleton v, ?_⟩
        intro a ha hb
        rw [List.mem_singleton.mp hb] at ha
        exact hvwc ha
      · intro y hy
        rcases List.mem_append.mp hy with h | h
        · exact hmem y h
        · rw [List.mem_singleton.mp h]; exact hvn
      · rw [pathLength_append_singleton M W0 wc c v hlast, hcost, hg]
      · intro q hq y hy
        rcases List.prefix_concat_iff.mp hq with h | h
        · rw [h] at hy ⊢
          simp at hy
          rw [← hy, pathLength_append_singleton M W0 wc c v hlast, hcost, hg]
        · exact le_trans (hmono y) (hpre q h y hy)
    constructor
    · intro x hx hxvis
      by_cases hxv : x = v
      · rw [hxv]; exact ⟨_, hnew⟩
      · have hxvis' : Visited M s W x := by
          rcases hxvis with h | h
          · exact Or.inl h
          · rw [hoth x hxv] at h; exact Or.inr h
        obtain ⟨wx, a1, a2, a3, a4, a5⟩ := hw x hx hxvis'
        exact ⟨wx, a1, a2, a3, by rw [hoth x hxv]; exact a4,
          fun q hq y hy => le_trans (hmono y) (a5 q hq y hy)⟩
    · have hcount : pending M W0 nodes (relaxAStar M mgr e c (W, O) v).1 < pending M W0 nodes W := by
        unfold pending
        apply countP_lt_of_imp _ _ _ _ (wc ++ [v])
          (nodup_mem_listsUpTo nodes _ hnew.1 hnew.2.1)
        · have hl : (wc ++ [v]).getLast? = some v := by simp
          simp only [hl, decide_eq_true_eq]
          rw [pathLength_append_singleton M W0 wc c v hlast, hcost]
          exact hlt
        · have hl : (wc ++ [v]).getLast? = some v := by simp
          simp only [hl, decide_eq_false_iff_not, not_lt]
          rw [pathLength_append_singleton M W0 wc c v hlast, hcost, hg]
        · intro l hl
          cases hlast' : l.getLast? with
          | none => simp [hlast'] at hl
          | some y =>
            simp only [hlast', decide_eq_true_eq] at hl ⊢
            exact lt_of_lt_of_le hl (hmono y)
      omega


/-- An iteration of the search loop that does not return keeps the invariant of
the search and every score accounted for, and lowers the sum of `pending` and
the size of the open set. -/
theorem expand_walks (M : FMath K) (mgr : AAIManager K) (W0 : World K) (nodes : List Nat)
    (s e : Nat) (hclosed : ClosedGraph W0 nodes) (hnn : SqrtNonnegOn M W0 nodes)
    (W : World K) (O : List Nat) (hO : O ≠ [])
    (hinv : CoreInv M mgr W0 nodes s e W O) (hw : WalksInv M W0 nodes s W) :
    CoreInv M mgr W0 nodes s e (expand M mgr e W O).1 (expand M mgr e W O).2 ∧
    WalksInv M W0 nodes s (expand M mgr e W O).1 ∧
    pending M W0 nodes (expand M mgr e W O).1 + (expand M mgr e W O).2.length <
      pending M W0 nodes W + O.length := by
  obtain ⟨hcO, _⟩ := lowest_spec W O hO
  generalize hcdef : O.getD (IndexLowestFScore W O) 0 = c at hcO
  have hc : c ∈ nodes := hinv.open_nodes c hcO
  have hsub : ∀ x ∈ O.filter (fun p => p ≠ c), x ∈ O := fun x hx => (List.mem_filter.mp hx).1
  have hinv1 : CoreInv M mgr W0 nodes s e W (O.filter (fun p => p ≠ c)) :=
    ⟨hinv.frame, hinv.gstart, hinv.gnonneg, hinv.gmax, fun x hx => hinv.open_nodes x (hsub x hx),
      fun x hx => hinv.open_vis x (hsub x hx), fun x hx => hinv.open_reach x (hsub x hx),
      fun x hx => hinv.hscore x (hsub x hx), hinv.link⟩
  have hlen1 : (O.filter (fun p => p ≠ c)).length < O.length := by
    apply List.length_filter_lt_length_iff_exists.mpr
    exact ⟨c, hcO, by simp⟩
  have key := foldl_prefix_induction (relaxAStar M mgr e c)
    (fun _ st => CoreInv M mgr W0 nodes s e st.1 st.2 ∧ Visited M s st.1 c ∧
      WalksInv M W0 nodes s st.1 ∧
      pending M W0 nodes st.1 + st.2.length ≤
        pending M W0 nodes W + (O.filter (fun p => p ≠ c)).length)
    (W0 c).ConnectedNodes [] (W, O.filter (fun p => p ≠ c))
    ⟨hinv1, hinv.open_vis c hcO, hw, le_rfl⟩
    (fun _ st v ⟨h1, h2, h3, h4⟩ hv => by
      obtain ⟨g1, g2, _, _⟩ := relaxAStar_core M mgr W0 nodes s e c hclosed hnn hc st.1 st.2 v hv
        h1 h2 (hinv.open_reach c hcO)
      obtain ⟨g3, g4⟩ := relaxAStar_walks M mgr W0 nodes s e c hclosed hnn hc st.1 st.2 v hv
        h1 h2 h3
      exact ⟨g1, g2, g3, le_trans g4 h4⟩)
  unfold expand
  rw [hcdef, (hinv.frame c).2]
  exact ⟨key.1, key.2.2.1, lt_of_le_of_lt key.2.2.2 (by omega)⟩

omit [LinearOrderedCommRing K] in
/-- What can be reached from a node of a closed graph is a node of the graph. -/
theorem reachable_mem_nodes (W0 : World K) (nodes : List Nat) (hclosed : ClosedGraph W0 nodes)
    (s x : Nat) (hs : s ∈ nodes) (h : Reachable W0 s x) : x ∈ nodes := by
  induction h with
  | refl => exact hs
  | tail _ hbc ih => exact hclosed _ ih _ hbc

/-- When the end node cannot be reached, the search loop runs until the open
set is empty and returns the empty array, within a number of iterations bounded
by `pending` and the size of the open set. -/
theorem aStarLoop_unreachable (M : FMath K) (mgr : AAIManager K) (W0 : World K)
    (nodes : List Nat) (s e tf : Nat) (hclosed : ClosedGraph W0 nodes)
    (hnn : SqrtNonnegOn M W0 nodes) (hun : ¬ Reachable W0 s e) :
    ∀ (n : Nat) (W : World K) (O : List Nat), CoreInv M mgr W0 nodes s e W O →
      WalksInv M W0 nodes s W → pending M W0 nodes W + O.length ≤ n →
      ∀ fuel, n + 1 ≤ fuel → ∃ W', aStarLoop M mgr s e tf fuel W O = some ([], W') := by
  intro n
  induction n with
  | zero =>
    intro W O _ _ hm fuel hf
    have hO : O = [] := List.length_eq_zero.mp (by omega)
    obtain ⟨f, rfl⟩ : ∃ f, fuel = f + 1 := ⟨fuel - 1, by omega⟩
    rw [aStarLoop_succ, if_pos hO]
    exact ⟨W, rfl⟩
  | succ n ih =>
    intro W O hinv hw hm fuel hf
    obtain ⟨f, rfl⟩ : ∃ f, fuel = f + 1 := ⟨fuel - 1, by omega⟩
    rw [aStarLoop_succ]
    by_cases hO : O = []
    · rw [if_pos hO]
      exact ⟨W, rfl⟩
    · rw [if_neg hO]
      have hce : O.getD (IndexLowestFScore W O) 0 ≠ e := by
        intro h
        have := hinv.open_reach _ (lowest_spec W O hO).1
        rw [h] at this
        exact hun this
      rw [if_neg hce]
      obtain ⟨g1, g2, g3⟩ := expand_walks M mgr W0 nodes s e hclosed hnn W O hO hinv hw
      exact ih _ _ g1 g2 (by omega) f (by omega)

/-- Every score is accounted for when the loop is entered. -/
theorem initSearch_walks (M : FMath K) (mgr : AAIManager K) (W0 : World K) (nodes : List Nat)
    (s e : Nat) (hs : s ∈ nodes) (hall : ∀ x ∈ nodes, x ∈ mgr.AllNodes) :
    WalksInv M W0 nodes s (initSearch M mgr W0 s e) := by
  obtain ⟨_, h2, _, h4⟩ := initSearch_spec M mgr W0 s e
  intro x hx hvis
  have hxs : x = s := by
    rcases hvis with h | h
    · exact h
    · by_contra hne
      rw [h4 x (hall x hx) hne] at h
      exact lt_irrefl _ h
  subst hxs
  refine ⟨[x], List.nodup_singleton x, fun y hy => by rw [List.mem_singleton.mp hy]; exact hs,
    rfl, by simp [pathLength, h2], fun q hq y hy => ?_⟩
  rcases List.prefix_cons_iff.mp hq with h | ⟨t, ht, hpre⟩
  · rw [h] at hy
    simp at hy
  · have : t = [] := List.prefix_nil.mp hpre
    subst this
    subst ht
    simp at hy
    subst hy
    simp [pathLength, h2]

end Termination

/-- C4: on a finite graph whose nodes are all in `AllNodes` (with non-negative
distances), when the end node cannot be reached from the start node by
following `ConnectedNodes`, the search loop terminates and `GenerateAStarPath`
returns the empty array. -/
theorem C4_unreachable_end_returns_empty {K : Type} [LinearOrderedCommRing K] (M : FMath K)
    (mgr : AAIManager K) (W : World K) (nodes : List Nat) (StartNode EndNode : Nat)
    (hclosed : ClosedGraph W nodes) (hs : StartNode ∈ nodes)
    (hall : ∀ x ∈ nodes, x ∈ mgr.AllNodes) (hnn : SqrtNonnegOn M W nodes)
    (hmax : 0 ≤ M.FloatMax) (hun : ¬ Reachable W StartNode EndNode) :
    ∃ N, ∀ fuel, N ≤ fuel →
      ∃ W', GenerateAStarPath M mgr W StartNode EndNode fuel = some ([], W') := by
  obtain ⟨i1, _⟩ := initSearch_core M mgr W nodes StartNode EndNode hclosed hnn hs hall hmax
  have i2 := initSearch_walks M mgr W nodes StartNode EndNode hs hall
  refine ⟨pending M W nodes (initSearch M mgr W StartNode EndNode) + [StartNode].length + 1,
    fun fuel hf => ?_⟩
  unfold GenerateAStarPath
  exact aStarLoop_unreachable M mgr W nodes StartNode EndNode fuel hclosed hnn hun _ _ _ i1 i2
    le_rfl fuel hf

/-- C4 at the search from node 0 of `diamondWorld` to node 4, which no node is
connected to. -/
theorem C4_unreachable_end_returns_empty_witness :
    ∃ N, ∀ fuel, N ≤ fuel →
      ∃ W', GenerateAStarPath intMath diamondManager diamondWorld 0 4 fuel = some ([], W') :=
  C4_unreachable_end_returns_empty intMath diamondManager diamondWorld [0, 1, 2, 3] 0 4
    (by unfold ClosedGraph; decide) (by decide) (by decide) (by unfold SqrtNonnegOn; decide)
    (by decide)
    (fun h => absurd
      (reachable_mem_nodes diamondWorld [0, 1, 2, 3] (by unfold ClosedGraph; decide) 0 4
        (by decide) h)
      (by decide))

/-! ## Nearest and furthest node -/

section NearestFacts

variable {K : Type} [LinearOrderedCommRing K]

/-- The scan of `FindNearestNode` over a list: either it leaves the state as it
is, and no node of the list is nearer than the distance it started with, or it
ends at the first of the nearest nodes of the list. -/
theorem nearestScan_spec (M : FMath K) (W : World K) (Location : FVector K) :
    ∀ (l : List Nat) (b : Option Nat) (bd : K),
      (l.foldl (nearestStep M W Location) (b, bd) = (b, bd) ∧
        ∀ m ∈ l, bd ≤ FVector.Distance M Location (W m).Location) ∨
      (∃ n pre post, l = pre ++ n :: post ∧
        l.foldl (nearestStep M W Location) (b, bd) =
          (some n, FVector.Distance M Location (W n).Location) ∧
        FVector.Distance M Location (W n).Location < bd ∧
        (∀ m ∈ pre, FVector.Distance M Location (W n).Location <
          FVector.Distance M Location (W m).Location) ∧
        (∀ m ∈ post, FVector.Distance M Location (W n).Location ≤
          FVector.Distance M Location (W m).Location)) := by
  intro l
  induction l with
  | nil => intro b bd; left; simp
  | cons x l ih =>
    intro b bd
    by_cases hx : FVector.Distance M Location (W x).Location < bd
    · have hstep : nearestStep M W Location (b, bd) x =
          (some x, FVector.Distance M Location (W x).Location) := by
        simp [nearestStep, hx]
      right
      rcases ih (some x) (FVector.Distance M Location (W x).Location) with
        ⟨h1, h2⟩ | ⟨n, pre, post, h1, h2, h3, h4, h5⟩
      · exact ⟨x, [], l, rfl, by rw [List.foldl_cons, hstep, h1], hx,
          fun m hm => by simp at hm, h2⟩
      · refine ⟨n, x :: pre, post, by rw [h1]; rfl, by rw [List.foldl_cons, hstep, h2],
          lt_trans h3 hx, fun m hm => ?_, h5⟩
        rcases List.mem_cons.mp hm with h | h
        · rw [h]; exact h3
        · exact h4 m h
    · have hstep : nearestStep M W Location (b, bd) x = (b, bd) := by
        simp [nearestStep, hx]
      have hx' := not_lt.mp hx
      rcases ih b bd with ⟨h1, h2⟩ | ⟨n, pre, post, h1, h2, h3, h4, h5⟩
      · left
        refine ⟨by rw [List.foldl_cons, hstep, h1], fun m hm => ?_⟩
        rcases List.mem_cons.mp hm with h | h
        · rw [h]; exact hx'
        · exact h2 m h
      · right
        refine ⟨n, x :: pre, post, by rw [h1]; rfl, by rw [List.foldl_cons, hstep, h2], h3,
          fun m hm => ?_, h5⟩
        rcases List.mem_cons.mp hm with h | h
        · rw [h]; exact lt_of_lt_of_le h3 hx'
        · exact h4 m h

/-- The scan of `FindFurthestNode` over a list: either it leaves the state as
it is, and no node of the list is further than the distance it started with,
or it ends at the first of the furthest nodes of the list. -/
theorem furthestScan_spec (M : FMath K) (W : World K) (Location : FVector K) :
    ∀ (l : List Nat) (b : Option Nat) (bd : K),
      (l.foldl (furthestStep M W Location) (b, bd) = (b, bd) ∧
        ∀ m ∈ l, FVector.Distance M Location (W m).Location ≤ bd) ∨
      (∃ n pre post, l = pre ++ n :: post ∧
        l.foldl (furthestStep M W Location) (b, bd) =
          (some n, FVector.Distance M Location (W n).Location) ∧
        bd < FVector.Distance M Location (W n).Location ∧
        (∀ m ∈ pre, FVector.Distance M Location (W m).Location <
          FVector.Distance M Location (W n).Location) ∧
        (∀ m ∈ post, FVector.Distance M Location (W m).Location ≤
          FVector.Distance M Location (W n).Location)) := by
  intro l
  induction l with
  | nil => intro b bd; left; simp
  | cons x l ih =>
    intro b bd
    by_cases hx : FVector.Distance M Location (W x).Location > bd
    · have hstep : furthestStep M W Location (b, bd) x =
          (some x, FVector.Distance M Location (W x).Location) := by
        simp [furthestStep, hx]
      right
      rcases ih (some x) (FVector.Distance M Location (W x).Location) with
        ⟨h1, h2⟩ | ⟨n, pre, post, h1, h2, h3, h4, h5⟩
      · exact ⟨x, [], l, rfl, by rw [List.foldl_cons, hstep, h1], hx,
          fun m hm => by simp at hm, h2⟩
      · refine ⟨n, x :: pre, post, by rw [h1]; rfl, by rw [List.foldl_cons, hstep, h2],
          lt_trans hx h3, fun m hm => ?_, h5⟩
        rcases List.mem_cons.mp hm with h | h
        · rw [h]; exact h3
        · exact h4 m h
    · have hstep : furthestStep M W Location (b, bd) x = (b, bd) := by
        simp [furthestStep, hx]
      have hx' := not_lt.mp hx
      rcases ih b bd with ⟨h1, h2⟩ | ⟨n, pre, post, h1, h2, h3, h4, h5⟩
      · left
        refine ⟨by rw [List.foldl_cons, hstep, h1], fun m hm => ?_⟩
        rcases List.mem_cons.mp hm with h | h
        · rw [h]; exact hx'
        · exact h2 m h
      · right
        refine ⟨n, x :: pre, post, by rw [h1]; rfl, by rw [List.foldl_cons, hstep, h2], h3,
          fun m hm => ?_, h5⟩
        rcases List.mem_cons.mp hm with h | h
        · rw [h]; exact lt_of_le_of_lt hx' h3
        · exact h4 m h

/-- When some traversable node is at a positive distance, `FindFurthestNode`
returns the first of the furthest traversable nodes. -/
theorem FindFurthestNode_of_pos (M : FMath K) (mgr : AAIManager K) (W : World K)
    (Location : FVector K)
    (hpos : ∃ m ∈ mgr.AllTraversableNodes, 0 < FVector.Distance M Location (W m).Location) :
    ∃ n pre post, FindFurthestNode M mgr W Location = some (some n) ∧
      mgr.AllTraversableNodes = pre ++ n :: post ∧
      (∀ m ∈ pre, FVector.Distance M Location (W m).Location <
        FVector.Distance M Location (W n).Location) ∧
      (∀ m ∈ post, FVector.Distance M Location (W m).Location ≤
        FVector.Distance M Location (W n).Location) := by
  obtain ⟨m0, hm0, hd0⟩ := hpos
  rcases furthestScan_spec M W Location mgr.AllTraversableNodes none 0 with
    ⟨_, h2⟩ | ⟨n, pre, post, h1, h2, _, h4, h5⟩
  · exact absurd (h2 m0 hm0) (not_le.mpr hd0)
  · refine ⟨n, pre, post, ?_, h1, h4, h5⟩
    unfold FindFurthestNode
    rw [h2]

/-- On an empty traversable subset both searches dereference `nullptr` in their
log statement. -/
theorem find_on_empty (M : FMath K) (mgr : AAIManager K) (W : World K) (Location : FVector K)
    (h : mgr.AllTraversableNodes = []) :
    FindNearestNode M mgr W Location = none ∧ FindFurthestNode M mgr W Location = none := by
  simp [FindNearestNode, FindFurthestNode, h]

end NearestFacts

/-- C11 at a single traversable node that lies at the query location: the
distance 0 is not greater than the initial `FurthestDistance`, `FurthestNode`
stays `nullptr` and the log statement dereferences it; no node is returned. -/
theorem C11_furthest_of_coincident_node :
    ({ diamondManager with AllTraversableNodes := [0] } : AAIManager Int).AllTraversableNodes ≠ [] ∧
    FVector.Distance intMath ⟨0, 0, 0⟩ (diamondWorld 0).Location = 0 ∧
    FindFurthestNode intMath { diamondManager with AllTraversableNodes := [0] } diamondWorld
      ⟨0, 0, 0⟩ = none := by
  decide

/-- C12: on a non-empty traversable subset all of whose nodes are nearer than
the maximum, `FindNearestNode` returns a node of the subset that is as near
to the location as every node of the subset, namely the first such node: the
nodes before it in the list are further away. -/
theorem C12_nearest_is_first_minimum {K : Type} [LinearOrderedCommRing K] (M : FMath K)
    (mgr : AAIManager K) (W : World K) (Location : FVector K)
    (hne : mgr.AllTraversableNodes ≠ [])
    (hmax : ∀ m ∈ mgr.AllTraversableNodes,
      FVector.Distance M Location (W m).Location < M.FloatMax) :
    ∃ n pre post, FindNearestNode M mgr W Location = some (some n) ∧
      mgr.AllTraversableNodes = pre ++ n :: post ∧
      (∀ m ∈ mgr.AllTraversableNodes, FVector.Distance M Location (W n).Location ≤
        FVector.Distance M Location (W m).Location) ∧
      (∀ m ∈ pre, FVector.Distance M Location (W n).Location <
        FVector.Distance M Location (W m).Location) := by
  obtain ⟨m0, hm0⟩ := List.exists_mem_of_ne_nil _ hne
  rcases nearestScan_spec M W Location mgr.AllTraversableNodes none M.FloatMax with
    ⟨_, h2⟩ | ⟨n, pre, post, h1, h2, _, h4, h5⟩
  · exact absurd (h2 m0 hm0) (not_le.mpr (hmax m0 hm0))
  · refine ⟨n, pre, post, ?_, h1, fun m hm => ?_, h4⟩
    · unfold FindNearestNode
      rw [h2]
    · rw [h1] at hm
      rcases List.mem_append.mp hm with h | h
      · exact (h4 m h).le
      · rcases List.mem_cons.mp h with h | h
        · rw [h]
        · exact h5 m h

/-- C12 at the four nodes of `diamondWorld` and the location of node 1. -/
theorem C12_nearest_is_first_minimum_witness :
    ∃ n pre post, FindNearestNode intMath diamondManager diamondWorld ⟨1, 0, 0⟩ = some (some n) ∧
      diamondManager.AllTraversableNodes = pre ++ n :: post ∧
      (∀ m ∈ diamondManager.AllTraversableNodes,
        FVector.Distance intMath ⟨1, 0, 0⟩ (diamondWorld n).Location ≤
          FVector.Distance intMath ⟨1, 0, 0⟩ (diamondWorld m).Location) ∧
      (∀ m ∈ pre, FVector.Distance intMath ⟨1, 0, 0⟩ (diamondWorld n).Location <
        FVector.Distance intMath ⟨1, 0, 0⟩ (diamondWorld m).Location) :=
  C12_nearest_is_first_minimum intMath diamondManager diamondWorld ⟨1, 0, 0⟩ (by decide)
    (by decide)

/-- C13 on an empty traversable subset: neither `FindNearestNode` nor
`FindFurthestNode` completes; the log statement of each calls `GetName()` on
the `nullptr` it is about to return. -/
theorem C13_empty_subset_dereferences_null :
    ({ diamondManager with AllTraversableNodes := [] } : AAIManager Int).AllTraversableNodes = [] ∧
    FindNearestNode intMath { diamondManager with AllTraversableNodes := [] } diamondWorld
      ⟨0, 0, 0⟩ = none ∧
    FindFurthestNode intMath { diamondManager with AllTraversableNodes := [] } diamondWorld
      ⟨0, 0, 0⟩ = none := by
  decide

section GridFacts

variable {K : Type} [LinearOrderedField K]

omit [LinearOrderedField K] in
/-- The targets of a cell of the grid are indices of the grid. -/
theorem connectionTargets_bounds (Width Height : Int) (hW : 2 ≤ Width) (hH : 2 ≤ Height)
    (a : Nat) (ha : (a : Int) < Width * Height) (t : Nat)
    (ht : t ∈ (connectionTargets Width Height ((a : Int) % Width) ((a : Int) / Width)).map
      Int.toNat) :
    (t : Int) < Width * Height := by
  obtain ⟨ac, ar, _⟩ := index_cell_bounds Width Height (by omega) a ⟨by omega, ha⟩
  rw [connectionTargets_eq_map, List.map_map] at ht
  obtain ⟨p, hp, hpt⟩ := List.mem_map.mp ht
  obtain ⟨pc, pr, _⟩ := (mem_targetCells_iff Width Height _ _ hW hH ac ar p).mp hp
  obtain ⟨c1, c2, _, _⟩ := cell_index_bounds Width Height p.1 p.2 pc pr
  simp only [Function.comp] at hpt
  omega

omit [LinearOrderedField K] in
/-- No cell is among its own targets. -/
theorem not_mem_own_targets (Width Height : Int) (hW : 2 ≤ Width) (hH : 2 ≤ Height)
    (a : Nat) (ha : (a : Int) < Width * Height) :
    a ∉ (connectionTargets Width Height ((a : Int) % Width) ((a : Int) / Width)).map
      Int.toNat := by
  intro h
  obtain ⟨ac, ar, _⟩ := index_cell_bounds Width Height (by omega) a ⟨by omega, ha⟩
  have := (mem_targetCells_iff Width Height _ _ hW hH ac ar _).mp
    ((mem_connectionTargets_iff Width Height hW hH a a ha ha).mp h)
  exact this.2.2.2.2 ⟨rfl, rfl⟩

omit [LinearOrderedField K] in
/-- The targets of a cell of the grid are distinct. -/
theorem connectionTargets_nodup (Width Height : Int) (hW : 2 ≤ Width) (hH : 2 ≤ Height)
    (c r : Int) (hc : 0 ≤ c ∧ c < Width) (hr : 0 ≤ r ∧ r < Height) :
    ((connectionTargets Width Height c r).map Int.toNat).Nodup := by
  have hcells : (targetCells Width Height c r).Nodup := by
    unfold targetCells
    split_ifs <;> simp only [List.nodup_cons, List.mem_cons, List.mem_singleton, Prod.mk.injEq,
      List.not_mem_nil, List.nodup_nil, not_or, not_false_eq_true, and_true] <;> omega
  rw [connectionTargets_eq_map, List.map_map]
  apply List.Nodup.map_on _ hcells
  intro x hx y hy hxy
  obtain ⟨xc, xr, _⟩ := (mem_targetCells_iff Width Height c r hW hH hc hr x).mp hx
  obtain ⟨yc, yr, _⟩ := (mem_targetCells_iff Width Height c r hW hH hc hr y).mp hy
  obtain ⟨a1, _, a3, a4⟩ := cell_index_bounds Width Height x.1 x.2 xc xr
  obtain ⟨b1, _, b3, b4⟩ := cell_index_bounds Width Height y.1 y.2 yc yr
  simp only [Function.comp] at hxy
  have hxy' : x.2 * Width + x.1 = y.2 * Width + y.1 := by omega
  rw [hxy'] at a3 a4
  exact Prod.ext (a3.symm.trans b3) (a4.symm.trans b4)

/-- With the filter off every target is accepted. -/
theorem acceptedTargets_of_filter_off (M : FMath K) (mgr : AAIManager K) (W : World K)
    (Width Height : Int) (i : Nat) (hs : mgr.bSteepnessPreventConnection = false) :
    acceptedTargets M mgr W Width Height i =
      (connectionTargets Width Height ((i : Int) % Width) ((i : Int) / Width)).map Int.toNat := by
  unfold acceptedTargets
  apply List.filter_eq_self.mpr
  intro t _
  simp [bCanConnect, hs]

/-- With the filter on and `AllowedAngle ≤ 0` no connection is accepted. -/
theorem bCanConnect_of_nonpos (M : FMath K) (mgr : AAIManager K) (W : World K) (a b : Nat)
    (hs : mgr.bSteepnessPreventConnection = true) (hA : mgr.AllowedAngle ≤ 0) :
    bCanConnect M mgr W a b = false := by
  unfold bCanConnect
  simp only [hs, if_true, decide_eq_false_iff_not]
  rintro ⟨h1, h2⟩
  have h3 : mgr.AllowedAngle * -1 = -mgr.AllowedAngle := by ring
  rw [h3] at h2
  linarith

omit [LinearOrderedField K] in
/-- The Chebyshev distance of two pairs of integers is 1 exactly when the pairs
differ and neither coordinate differs by more than 1. -/
theorem chebyshev_eq_one_iff (dx dy : Int) :
    max |dx| |dy| = 1 ↔ (dx ≤ 1 ∧ -dx ≤ 1) ∧ (dy ≤ 1 ∧ -dy ≤ 1) ∧ ¬ (dx = 0 ∧ dy = 0) := by
  rcases abs_cases dx with ⟨h1, h2⟩ | ⟨h1, h2⟩ <;> rcases abs_cases dy with ⟨h3, h4⟩ | ⟨h3, h4⟩ <;>
    omega

end GridFacts

/-- C14: on a grid of at least two rows and two columns with one vertex per
cell, after `GenerateNodes` no node occurs in its own `ConnectedNodes`,
`ConnectedNonTraversableNodes` or `AllConnectedNodes`. -/
theorem C14_no_self_connection {K : Type} [LinearOrderedField K] (M : FMath K)
    (mgr : AAIManager K) (W : World K) (Traversible : Nat → Bool) (Vertices : List (FVector K))
    (Width Height : Int) (hW : 2 ≤ Width) (hH : 2 ≤ Height)
    (hlen : (Vertices.length : Int) = Width * Height) :
    ∃ mgr' W', GenerateNodes M mgr W Traversible Vertices Width Height = some (mgr', W') ∧
      ∀ q ∈ mgr'.AllNodes, q ∉ (W' q).ConnectedNodes ∧
        q ∉ (W' q).ConnectedNonTraversableNodes ∧ q ∉ (W' q).AllConnectedNodes := by
  obtain ⟨mgr', W', e, hall, _, _, _, _, hnodes⟩ :=
    GenerateNodes_spec M mgr W Traversible Vertices Width Height hW hH hlen
  refine ⟨mgr', W', e, fun q hq => ?_⟩
  have hpos : 0 ≤ Width * Height := mul_nonneg (by omega) (by omega)
  rw [hall, List.mem_range] at hq
  have hq' : (q : Int) < Width * Height := by omega
  obtain ⟨_, _, _, h1, _, h2, h3⟩ := hnodes q hq'
  have hacc : q ∉ acceptedTargets M mgr' W' Width Height q := by
    intro h
    unfold acceptedTargets at h
    exact not_mem_own_targets Width Height hW hH q hq' (List.mem_filter.mp h).1
  rw [h1, h2, h3]
  exact ⟨fun h => hacc (List.mem_filter.mp h).1, fun h => hacc (List.mem_filter.mp h).1, hacc⟩

/-- C14 at a flat grid of 2 columns and 3 rows with the filter off. -/
theorem C14_no_self_connection_witness :
    ∃ mgr' W', GenerateNodes ratMath flatManager blankWorld (fun _ => true) (flatVertices 2 3)
        2 3 = some (mgr', W') ∧
      ∀ q ∈ mgr'.AllNodes, q ∉ (W' q).ConnectedNodes ∧
        q ∉ (W' q).ConnectedNonTraversableNodes ∧ q ∉ (W' q).AllConnectedNodes :=
  C14_no_self_connection ratMath flatManager blankWorld (fun _ => true) (flatVertices 2 3) 2 3
    (by decide) (by decide) (by decide)

/-- C19: with the steepness filter on and `AllowedAngle ≤ 0`, `AddConnection`
records nothing for any pair of nodes, whatever their elevations; and on a grid
of at least two rows and two columns with one vertex per cell `GenerateNodes`
then leaves `ConnectedNodes`, `ConnectedNonTraversableNodes` and
`AllConnectedNodes` of every node empty. -/
theorem C19_nonpositive_angle_records_nothing {K : Type} [LinearOrderedField K] (M : FMath K)
    (mgr : AAIManager K) (hs : mgr.bSteepnessPreventConnection = true)
    (hA : mgr.AllowedAngle ≤ 0) :
    (∀ (W : World K) (a b : Nat), AddConnection M mgr W a b = W) ∧
    (∀ (W : World K) (Traversible : Nat → Bool) (Vertices : List (FVector K))
      (Width Height : Int), 2 ≤ Width → 2 ≤ Height →
      (Vertices.length : Int) = Width * Height →
      ∃ mgr' W', GenerateNodes M mgr W Traversible Vertices Width Height = some (mgr', W') ∧
        ∀ q ∈ mgr'.AllNodes, (W' q).ConnectedNodes = [] ∧
          (W' q).ConnectedNonTraversableNodes = [] ∧ (W' q).AllConnectedNodes = []) := by
  constructor
  · intro W a b
    exact AddConnection_rejected M mgr W a b (bCanConnect_of_nonpos M mgr W a b hs hA)
  · intro W Traversible Vertices Width Height hW hH hlen
    obtain ⟨mgr', W', e, hall, hA', hs', _, _, hnodes⟩ :=
      GenerateNodes_spec M mgr W Traversible Vertices Width Height hW hH hlen
    refine ⟨mgr', W', e, fun q hq => ?_⟩
    have hpos : 0 ≤ Width * Height := mul_nonneg (by omega) (by omega)
    rw [hall, List.mem_range] at hq
    obtain ⟨_, _, _, h1, _, h2, h3⟩ := hnodes q (by omega)
    have hacc : acceptedTargets M mgr' W' Width Height q = [] := by
      unfold acceptedTargets
      apply List.filter_eq_nil_iff.mpr
      intro t _
      rw [bCanConnect_of_nonpos M mgr' W' q t (hs'.trans hs) (by rw [hA']; exact hA)]
      simp
    rw [h1, h2, h3, hacc]
    exact ⟨rfl, rfl, rfl⟩

/-- C19 at `AllowedAngle = 0` on the level pair of `stepWorld` and on a flat
grid of 2 columns and 2 rows. -/
theorem C19_nonpositive_angle_records_nothing_witness :
    AddConnection ratMath
        { flatManager with bSteepnessPreventConnection := true, AllowedAngle := 0 }
        stepWorld 0 1 = stepWorld ∧
    ∃ mgr' W', GenerateNodes ratMath
        { flatManager with bSteepnessPreventConnection := true, AllowedAngle := 0 }
        blankWorld (fun _ => true) (flatVertices 2 2) 2 2 = some (mgr', W') ∧
      ∀ q ∈ mgr'.AllNodes, (W' q).ConnectedNodes = [] ∧
        (W' q).ConnectedNonTraversableNodes = [] ∧ (W' q).AllConnectedNodes = [] :=
  have h := C19_nonpositive_angle_records_nothing ratMath
    { flatManager with bSteepnessPreventConnection := true, AllowedAngle := 0 } rfl (le_refl 0)
  ⟨h.1 stepWorld 0 1,
    h.2 blankWorld (fun _ => true) (flatVertices 2 2) 2 2 (by decide) (by decide) (by decide)⟩

/-- C20: on a square grid of `N ≥ 2` rows and columns with one vertex per cell
and the filter off, `AllConnectedNodes` of every node holds, once each, exactly
the nodes whose `GridLocation` is at Chebyshev distance 1 from its own, and
the entries of `AllConnectedDir` are the `GridLocation` of the node at the same
index of `AllConnectedNodes` minus its own. -/
theorem C20_square_grid_adjacency {K : Type} [LinearOrderedField K] (M : FMath K)
    (mgr : AAIManager K) (W : World K) (Traversible : Nat → Bool) (Vertices : List (FVector K))
    (N : Nat) (hN : 2 ≤ N) (hlen : Vertices.length = N * N)
    (hs : mgr.bSteepnessPreventConnection = false) :
    ∃ mgr' W', GenerateNodes M mgr W Traversible Vertices N N = some (mgr', W') ∧
      ∀ q ∈ mgr'.AllNodes,
        (W' q).AllConnectedNodes.Nodup ∧
        (∀ t, t ∈ (W' q).AllConnectedNodes ↔
          t ∈ mgr'.AllNodes ∧ gridChebyshev (W' t).GridLocation (W' q).GridLocation = 1) ∧
        (W' q).AllConnectedDir = (W' q).AllConnectedNodes.map
          (fun t => FVector2D.sub (W' t).GridLocation (W' q).GridLocation) := by
  have hW : (2 : Int) ≤ (N : Int) := by omega
  obtain ⟨mgr', W', e, hall, _, hs', _, _, hnodes⟩ :=
    GenerateNodes_spec M mgr W Traversible Vertices N N hW hW (by rw [hlen]; push_cast; rfl)
  refine ⟨mgr', W', e, fun q hq => ?_⟩
  have hnn : ((N : Int) * N).toNat = N * N := by
    have : ((N * N : Nat) : Int) = (N : Int) * N := by push_cast; rfl
    omega
  have hlt : ∀ t : Nat, t ∈ mgr'.AllNodes ↔ (t : Int) < (N : Int) * N := by
    intro t
    rw [hall, List.mem_range, hnn]
    constructor
    · intro h
      have : ((t : Nat) : Int) < ((N * N : Nat) : Int) := by exact_mod_cast h
      simpa using this
    · intro h
      have : ((t : Nat) : Int) < ((N * N : Nat) : Int) := by simpa using h
      exact_mod_cast this
  have hq' : (q : Int) < (N : Int) * N := (hlt q).mp hq
  have hgrid : ∀ t : Nat, (t : Int) < (N : Int) * N →
      (W' t).GridLocation = ⟨(t : Int) / N, (t : Int) % N⟩ := by
    intro t ht
    rw [(hnodes t ht).1]
    simp
  obtain ⟨_, _, _, h1, h2, _, _⟩ := hnodes q hq'
  have hacc := acceptedTargets_of_filter_off M mgr' W' N N q (hs'.trans hs)
  obtain ⟨qc, qr, _⟩ := index_cell_bounds N N (by omega) q ⟨by omega, hq'⟩
  refine ⟨?_, fun t => ?_, by rw [h2, h1]⟩
  · rw [h1, hacc]
    exact connectionTargets_nodup N N hW hW _ _ qc qr
  · rw [h1, hacc]
    constructor
    · intro ht
      have ht' := connectionTargets_bounds N N hW hW q hq' t ht
      refine ⟨(hlt t).mpr ht', ?_⟩
      have hcell := (mem_targetCells_iff N N _ _ hW hW qc qr _).mp
        ((mem_connectionTargets_iff N N hW hW q t hq' ht').mp ht)
      rw [hgrid t ht', hgrid q hq']
      unfold gridChebyshev
      rw [chebyshev_eq_one_iff]
      simp only at hcell ⊢
      omega
    · rintro ⟨htn, hch⟩
      have ht' := (hlt t).mp htn
      obtain ⟨tc, tr, _⟩ := index_cell_bounds N N (by omega) t ⟨by omega, ht'⟩
      rw [mem_connectionTargets_iff N N hW hW q t hq' ht',
        mem_targetCells_iff N N _ _ hW hW qc qr]
      rw [hgrid t ht', hgrid q hq'] at hch
      unfold gridChebyshev at hch
      rw [chebyshev_eq_one_iff] at hch
      simp only at hch ⊢
      omega

/-- C20 at a flat grid of 3 rows and 3 columns. -/
theorem C20_square_grid_adjacency_witness :
    ∃ mgr' W', GenerateNodes ratMath flatManager blankWorld (fun _ => true) (flatVertices 3 3)
        3 3 = some (mgr', W') ∧
      ∀ q ∈ mgr'.AllNodes,
        (W' q).AllConnectedNodes.Nodup ∧
        (∀ t, t ∈ (W' q).AllConnectedNodes ↔
          t ∈ mgr'.AllNodes ∧ gridChebyshev (W' t).GridLocation (W' q).GridLocation = 1) ∧
        (W' q).AllConnectedDir = (W' q).AllConnectedNodes.map
          (fun t => FVector2D.sub (W' t).GridLocation (W' q).GridLocation) :=
  C20_square_grid_adjacency ratMath flatManager blankWorld (fun _ => true) (flatVertices 3 3) 3
    (by decide) (by decide) rfl

section MoreSearchFacts

variable {K : Type} [LinearOrderedCommRing K]

/-- The back trace follows recorded connections: every node it appends has the
node before it in its `ConnectedNodes`. -/
theorem backTrace_edges (M : FMath K) (mgr : AAIManager K) (W0 : World K) (nodes : List Nat)
    (s e : Nat) (W : World K) (O : List Nat) (hinv : CoreInv M mgr W0 nodes s e W O) :
    ∀ (fuel cur : Nat) (Path p : List Nat), backTrace W s fuel cur Path = some p →
      Path.getLast? = some cur → cur ∈ nodes → Visited M s W cur →
      List.Chain' (fun a b => a ∈ (W0 b).ConnectedNodes) Path →
      List.Chain' (fun a b => a ∈ (W0 b).ConnectedNodes) p := by
  intro fuel
  induction fuel with
  | zero => intro cur Path p h; simp [backTrace] at h
  | succ n ih =>
    intro cur Path p h hlast hcur hvis hchain
    unfold backTrace at h
    by_cases hcs : cur = s
    · simp [hcs] at h
      subst h
      exact hchain
    · simp only [ne_eq, hcs, not_false_eq_true, if_true] at h
      have hlt : (W cur).GScore < M.FloatMax := hvis.resolve_left hcs
      obtain ⟨c, hc, hcf, hedge, hcvis, _⟩ := hinv.link cur hcur hcs hlt
      rw [hcf] at h
      refine ih c (Path ++ [c]) p h (by simp) hc hcvis ?_
      rw [List.chain'_append]
      refine ⟨hchain, List.chain'_singleton _, ?_⟩
      intro x hx y hy
      simp at hy
      subst hy
      rw [hlast] at hx
      simp at hx
      subst hx
      exact hedge

/-- With the `EUCLIDEAN` heuristic the two searches weigh an edge alike. -/
theorem relaxJPS_eq_relaxAStar (M : FMath K) (mgr : AAIManager K)
    (hh : mgr.Heuristic = EHeuristicType.EUCLIDEAN) (e c : Nat) :
    relaxJPS M mgr e c = relaxAStar M mgr e c := by
  funext s v
  have hcalc : ∀ a b : FVector K, CalculateHeuristic M mgr a b = FVector.Distance M a b := by
    intro a b
    simp [CalculateHeuristic, hh]
  simp only [relaxJPS, relaxAStar, hcalc]

/-- With the `EUCLIDEAN` heuristic the two search loops are the same function. -/
theorem jpsLoop_eq_aStarLoop (M : FMath K) (mgr : AAIManager K)
    (hh : mgr.Heuristic = EHeuristicType.EUCLIDEAN) (s e tf : Nat) :
    ∀ (fuel : Nat) (W : World K) (O : List Nat),
      jpsLoop M mgr s e tf fuel W O = aStarLoop M mgr s e tf fuel W O := by
  intro fuel
  induction fuel with
  | zero => intro W O; rfl
  | succ n ih =>
    intro W O
    simp only [jpsLoop, aStarLoop, relaxJPS_eq_relaxAStar M mgr hh, ih]

end MoreSearchFacts

/-- C16: for every graph, every node `s` and every heuristic kind,
`GenerateAStarPath(s, s)` returns the one-element array `[s]` (as soon as the
loops may run once). -/
theorem C16_start_equals_end {K : Type} [LinearOrderedCommRing K] (M : FMath K)
    (mgr : AAIManager K) (W : World K) (s fuel : Nat) :
    AStarPath M mgr W s s (fuel + 1) = some [s] := by
  unfold AStarPath GenerateAStarPath
  rw [aStarLoop_succ]
  simp [IndexLowestFScore, scanLowestFScore, backTrace]

/-- C17: on a finite graph whose nodes are all in `AllNodes`, a non-empty
sequence returned by `GenerateAStarPath` begins with the end node, ends with
the start node, and of every two adjacent elements the earlier one (on the
side of the end node) is recorded in `ConnectedNodes` of the later one (on the
side of the start node), whatever `CameFrom` held before the search. -/
theorem C17_path_follows_connections {K : Type} [LinearOrderedCommRing K] (M : FMath K)
    (mgr : AAIManager K) (W : World K) (nodes : List Nat) (StartNode EndNode : Nat)
    (hclosed : ClosedGraph W nodes) (hs : StartNode ∈ nodes)
    (hall : ∀ x ∈ nodes, x ∈ mgr.AllNodes) (hnn : SqrtNonnegOn M W nodes)
    (hmax : 0 ≤ M.FloatMax) (fuel : Nat) (p : List Nat)
    (hp : AStarPath M mgr W StartNode EndNode fuel = some p) (hne : p ≠ []) :
    p.head? = some EndNode ∧ p.getLast? = some StartNode ∧
      List.Chain' (fun a b => a ∈ (W b).ConnectedNodes) p := by
  unfold AStarPath at hp
  cases hg : GenerateAStarPath M mgr W StartNode EndNode fuel with
  | none => simp [hg] at hp
  | some r =>
    obtain ⟨q, W'⟩ := r
    simp [hg] at hp
    subst hp
    obtain ⟨i1, i2⟩ := initSearch_core M mgr W nodes StartNode EndNode hclosed hnn hs hall hmax
    unfold GenerateAStarPath at hg
    rcases aStarLoop_invariant M mgr StartNode EndNode fuel
        (fun W1 O => CoreInv M mgr W nodes StartNode EndNode W1 O ∧
          RelaxedEdges M W nodes none [] W1 O)
        (fun W1 O hP hO _ =>
          expand_edges M mgr W nodes StartNode EndNode hclosed hnn W1 O hO hP.1 hP.2)
        fuel _ _ q W' ⟨i1, i2⟩ hg with ⟨h0, _⟩ | ⟨O', ⟨hinv, _⟩, hO', hcur, hb⟩
    · exact absurd h0 hne
    · obtain ⟨heO, _⟩ := lowest_spec W' O' hO'
      rw [hcur] at heO
      obtain ⟨h1, h2, _, _⟩ := backTrace_spec W' StartNode fuel EndNode [EndNode] q hb
        (by simp) (List.chain'_singleton _)
      exact ⟨by simpa using h1, h2,
        backTrace_edges M mgr W nodes StartNode EndNode W' O' hinv fuel EndNode [EndNode] q hb
          (by simp) (hinv.open_nodes _ heO) (hinv.open_vis _ heO) (List.chain'_singleton _)⟩

/-- C17 at the search from node 0 to node 3 of `staleWorld`, which returns
`[3, 1, 0]`. -/
theorem C17_path_follows_connections_witness :
    ([3, 1, 0] : List Nat).head? = some 3 ∧ ([3, 1, 0] : List Nat).getLast? = some 0 ∧
      List.Chain' (fun a b => a ∈ (staleWorld b).ConnectedNodes) [3, 1, 0] :=
  C17_path_follows_connections intMath diamondManager staleWorld [0, 1, 2, 3] 0 3
    (by unfold ClosedGraph; decide) (by decide) (by decide) (by unfold SqrtNonnegOn; decide)
    (by decide) 10 [3, 1, 0] (by decide) (by decide)

/-- C18: with the `EUCLIDEAN` heuristic `GenerateJPSPath` and
`GenerateAStarPath` are the same function: from the same node objects they
return the same array and leave the same node objects (in particular the same
`GScore`, `HScore` and `CameFrom` on every node). -/
theorem C18_jps_equals_astar {K : Type} [LinearOrderedCommRing K] (M : FMath K)
    (mgr : AAIManager K) (hh : mgr.Heuristic = EHeuristicType.EUCLIDEAN) (W : World K)
    (StartNode EndNode fuel : Nat) :
    GenerateJPSPath M mgr W StartNode EndNode fuel =
      GenerateAStarPath M mgr W StartNode EndNode fuel := by
  unfold GenerateJPSPath GenerateAStarPath
  exact jpsLoop_eq_aStarLoop M mgr hh StartNode EndNode fuel fuel _ _

/-- C18 at the search from node 0 to node 3 of `diamondWorld`. -/
theorem C18_jps_equals_astar_witness :
    GenerateJPSPath intMath diamondManager diamondWorld 0 3 10 =
      GenerateAStarPath intMath diamondManager diamondWorld 0 3 10 :=
  C18_jps_equals_astar intMath diamondManager rfl diamondWorld 0 3 10

/-! ## Rounding to the `float` format -/

/-- An integer is rounded to itself. -/
theorem roundHalfEven_intCast (n : Int) : roundHalfEven (n : ℚ) = n := by
  unfold roundHalfEven
  simp

/-- The result of rounding is the integer below or the one after it. -/
theorem roundHalfEven_mem (y : ℚ) : roundHalfEven y = ⌊y⌋ ∨ roundHalfEven y = ⌊y⌋ + 1 := by
  unfold roundHalfEven
  split_ifs <;> simp

/-- A number that is not negative is not rounded to a negative integer. -/
theorem roundHalfEven_nonneg (y : ℚ) (hy : 0 ≤ y) : 0 ≤ roundHalfEven y := by
  have h0 : 0 ≤ ⌊y⌋ := Int.floor_nonneg.mpr hy
  rcases roundHalfEven_mem y with h | h <;> omega

/-- A number that is at most an integer is rounded to at most that integer. -/
theorem roundHalfEven_le (y : ℚ) (k : Int) (hy : y ≤ k) : roundHalfEven y ≤ k := by
  by_cases hint : y = ⌊y⌋
  · have : roundHalfEven y = ⌊y⌋ := by
      rw [hint, roundHalfEven_intCast]; simp
    rw [this]
    have h2 : (⌊y⌋ : ℚ) ≤ k := le_trans (Int.floor_le y) hy
    exact_mod_cast h2
  · have hlt : (⌊y⌋ : ℚ) < y := lt_of_le_of_ne (Int.floor_le y) (fun h => hint h.symm)
    have h2 : (⌊y⌋ : ℚ) < k := lt_of_lt_of_le hlt hy
    have h3 : ⌊y⌋ < k := by exact_mod_cast h2
    rcases roundHalfEven_mem y with h | h <;> omega

/-- A positive number lies between the two powers of two that its number of
binary digits gives. -/
theorem bitLength_spec : ∀ (fuel n : Nat), n ≤ fuel → n ≠ 0 →
    2 ^ (bitLength fuel n - 1) ≤ n ∧ n < 2 ^ bitLength fuel n ∧ 1 ≤ bitLength fuel n := by
  intro fuel
  induction fuel with
  | zero => intro n h1 h2; omega
  | succ fuel ih =>
    intro n h1 h2
    simp only [bitLength, if_neg h2]
    by_cases h : n / 2 = 0
    · have hn : n = 1 := by omega
      subst hn
      cases fuel <;> simp [bitLength]
    · obtain ⟨a, b, c⟩ := ih (n / 2) (by omega) h
      refine ⟨?_, ?_, by omega⟩
      · have e : bitLength fuel (n / 2) + 1 - 1 = (bitLength fuel (n / 2) - 1) + 1 := by omega
        rw [e, pow_succ]
        omega
      · rw [pow_succ]
        omega


/-- The powers of two are positive. -/
theorem two_zpow_pos (k : Int) : (0 : ℚ) < (2 : ℚ) ^ k := zpow_pos (by norm_num) k

/-- A positive number lies in the binade that `binade` names. -/
theorem binade_spec (x : ℚ) (hx : 0 < x) :
    (2 : ℚ) ^ binade x ≤ x ∧ x < (2 : ℚ) ^ (binade x + 1) := by
  have hnum : 0 < x.num := Rat.num_pos.mpr hx
  have ha0 : x.num.toNat ≠ 0 := by omega
  have hb0 : x.den ≠ 0 := x.den_nz
  obtain ⟨a1, a2, a3⟩ := bitLength_spec x.num.toNat x.num.toNat le_rfl ha0
  obtain ⟨b1, b2, b3⟩ := bitLength_spec x.den x.den le_rfl hb0
  generalize hla : bitLength x.num.toNat x.num.toNat = la at a1 a2 a3
  generalize hlb : bitLength x.den x.den = lb at b1 b2 b3
  have hxe : x = (x.num.toNat : ℚ) / (x.den : ℚ) := by
    have h1 : (x.num.toNat : Int) = x.num := Int.toNat_of_nonneg hnum.le
    have h2 : (x.num.toNat : ℚ) = (x.num : ℚ) := by
      rw [← h1, Int.cast_natCast, h1]
    rw [h2]
    exact (Rat.num_div_den x).symm
  have hden : (0 : ℚ) < (x.den : ℚ) := by exact_mod_cast Nat.pos_of_ne_zero hb0
  have A1 : ((2 : ℚ) ^ (la - 1) : ℚ) ≤ (x.num.toNat : ℚ) := by exact_mod_cast a1
  have A2 : (x.num.toNat : ℚ) < (2 : ℚ) ^ la := by exact_mod_cast a2
  have B1 : ((2 : ℚ) ^ (lb - 1) : ℚ) ≤ (x.den : ℚ) := by exact_mod_cast b1
  have B2 : (x.den : ℚ) < (2 : ℚ) ^ lb := by exact_mod_cast b2
  have hup : x < (2 : ℚ) ^ (((la : Int) - (lb : Int)) + 1) := by
    have e : (2 : ℚ) ^ (((la : Int) - (lb : Int)) + 1) = (2 : ℚ) ^ la / (2 : ℚ) ^ (lb - 1) := by
      have : ((la : Int) - (lb : Int)) + 1 = (la : Int) - ((lb - 1 : Nat) : Int) := by omega
      rw [this, zpow_sub₀ (by norm_num), zpow_natCast, zpow_natCast]
    rw [e, hxe, div_lt_div_iff₀ hden (by positivity)]
    calc (x.num.toNat : ℚ) * (2 : ℚ) ^ (lb - 1) ≤ (x.num.toNat : ℚ) * (x.den : ℚ) :=
          mul_le_mul_of_nonneg_left B1 (by positivity)
      _ < (2 : ℚ) ^ la * (x.den : ℚ) := mul_lt_mul_of_pos_right A2 hden
  have hlo : (2 : ℚ) ^ (((la : Int) - (lb : Int)) - 1) < x := by
    have e : (2 : ℚ) ^ (((la : Int) - (lb : Int)) - 1) = (2 : ℚ) ^ (la - 1) / (2 : ℚ) ^ lb := by
      have : ((la : Int) - (lb : Int)) - 1 = ((la - 1 : Nat) : Int) - (lb : Int) := by omega
      rw [this, zpow_sub₀ (by norm_num), zpow_natCast, zpow_natCast]
    rw [e, hxe, div_lt_div_iff₀ (by positivity) hden]
    calc (2 : ℚ) ^ (la - 1) * (x.den : ℚ) < (2 : ℚ) ^ (la - 1) * (2 : ℚ) ^ lb :=
          mul_lt_mul_of_pos_left B2 (by positivity)
      _ ≤ (x.num.toNat : ℚ) * (2 : ℚ) ^ lb := mul_le_mul_of_nonneg_right A1 (by positivity)
  unfold binade
  simp only [hla, hlb]
  split_ifs with h
  · exact ⟨h, hup⟩
  · refine ⟨hlo.le, ?_⟩
    have : ((la : Int) - (lb : Int)) - 1 + 1 = (la : Int) - (lb : Int) := by omega
    rw [this]
    exact not_le.mp h


/-- A positive number that is at most a power of two lies in a binade that is
not higher. -/
theorem binade_le_of_le_zpow (x : ℚ) (hx : 0 < x) (k : Int) (h : x ≤ (2 : ℚ) ^ k) :
    binade x ≤ k := by
  have h1 := (binade_spec x hx).1
  exact (zpow_le_zpow_iff_right₀ (by norm_num : (1 : ℚ) < 2)).mp (le_trans h1 h)

/-- A multiple of the spacing of a binade that is no smaller is not moved. -/
theorem roundPos_fixed (x : ℚ) (m : Int)
    (h : x = (m : ℚ) * (2 : ℚ) ^ (max (binade x) (-126) - 23)) : roundPos x = x := by
  have hq := two_zpow_pos (max (binade x) (-126) - 23)
  unfold roundPos
  have : x / (2 : ℚ) ^ (max (binade x) (-126) - 23) = (m : ℚ) := by
    rw [div_eq_iff hq.ne.symm]
    exact h
  rw [this, roundHalfEven_intCast]
  exact h.symm

/-- A positive number is not rounded to a negative one. -/
theorem roundPos_nonneg (x : ℚ) (hx : 0 < x) : 0 ≤ roundPos x := by
  unfold roundPos
  have hq := two_zpow_pos (max (binade x) (-126) - 23)
  have := roundHalfEven_nonneg (x / (2 : ℚ) ^ (max (binade x) (-126) - 23)) (div_pos hx hq).le
  have h2 : (0 : ℚ) ≤ (roundHalfEven (x / (2 : ℚ) ^ (max (binade x) (-126) - 23)) : ℚ) := by
    exact_mod_cast this
  exact mul_nonneg h2 hq.le

/-- Rounding a rounded positive number does not move it. -/
theorem roundPos_idem (x : ℚ) (hx : 0 < x) (hpos : 0 < roundPos x) :
    roundPos (roundPos x) = roundPos x := by
  obtain ⟨s1, s2⟩ := binade_spec x hx
  obtain ⟨t1, t2⟩ := binade_spec (roundPos x) hpos
  have hq := two_zpow_pos (max (binade x) (-126) - 23)
  have h2 : (2 : ℚ) ≠ 0 := by norm_num
  have h12 : (1 : ℚ) < 2 := by norm_num
  -- the rounded quotient is at most 2 ^ 24
  have hy : x / (2 : ℚ) ^ (max (binade x) (-126) - 23) ≤ ((2 ^ 24 : Int) : ℚ) := by
    rw [div_le_iff₀ hq]
    have e : ((2 ^ 24 : Int) : ℚ) * (2 : ℚ) ^ (max (binade x) (-126) - 23) =
        (2 : ℚ) ^ (max (binade x) (-126) + 1) := by
      have : max (binade x) (-126) + 1 = 24 + (max (binade x) (-126) - 23) := by omega
      rw [this, zpow_add₀ h2]
      norm_num
    rw [e]
    exact le_trans s2.le (zpow_le_zpow_right₀ h12.le (by omega))
  have hn := roundHalfEven_le _ _ hy
  have hdef : roundPos x = (roundHalfEven (x / (2 : ℚ) ^ (max (binade x) (-126) - 23)) : ℚ) *
      (2 : ℚ) ^ (max (binade x) (-126) - 23) := rfl
  generalize roundHalfEven (x / (2 : ℚ) ^ (max (binade x) (-126) - 23)) = n at hn hdef
  generalize hx1 : roundPos x = x1 at *
  generalize he : max (binade x) (-126) = e at *
  have hup : x1 ≤ (2 : ℚ) ^ (e + 1) := by
    rw [hdef]
    have : e + 1 = 24 + (e - 23) := by omega
    rw [this, zpow_add₀ h2]
    have hn2 : (n : ℚ) ≤ (2 : ℚ) ^ (24 : Int) := by
      have : (n : ℚ) ≤ ((2 ^ 24 : Int) : ℚ) := by exact_mod_cast hn
      rw [show (2 : ℚ) ^ (24 : Int) = ((2 ^ 24 : Int) : ℚ) by norm_num]
      exact this
    exact mul_le_mul_of_nonneg_right hn2 (two_zpow_pos _).le
  have hb : binade x1 ≤ e + 1 := binade_le_of_le_zpow x1 hpos _ hup
  rcases le_or_lt (max (binade x1) (-126)) e with hle | hgt
  · -- the spacing does not grow
    apply roundPos_fixed x1 (n * 2 ^ (e - max (binade x1) (-126)).toNat)
    have hk : ((e - max (binade x1) (-126)).toNat : Int) = e - max (binade x1) (-126) :=
      Int.toNat_of_nonneg (by omega)
    have e1 : (2 : ℚ) ^ (e - 23) =
        (2 : ℚ) ^ (e - max (binade x1) (-126)).toNat * (2 : ℚ) ^ (max (binade x1) (-126) - 23) := by
      rw [← zpow_natCast, hk, ← zpow_add₀ h2]
      congr 1
      omega
    calc x1 = (n : ℚ) * (2 : ℚ) ^ (e - 23) := hdef
      _ = ((n * 2 ^ (e - max (binade x1) (-126)).toNat : Int) : ℚ) *
            (2 : ℚ) ^ (max (binade x1) (-126) - 23) := by
          rw [e1]
          push_cast
          ring
  · -- the result is the first number of the next binade
    have hbe : binade x1 = e + 1 := by omega
    have hmax : max (binade x1) (-126) = e + 1 := by omega
    apply roundPos_fixed x1 (2 ^ 23)
    rw [hmax]
    have hlow : (2 : ℚ) ^ (e + 1) ≤ x1 := by rw [← hbe]; exact t1
    have hx1e : x1 = (2 : ℚ) ^ (e + 1) := le_antisymm hup hlow
    calc x1 = (2 : ℚ) ^ (e + 1) := hx1e
      _ = (2 : ℚ) ^ ((23 : Int) + (e + 1 - 23)) := by congr 1; omega
      _ = ((2 ^ 23 : Int) : ℚ) * (2 : ℚ) ^ (e + 1 - 23) := by
          rw [zpow_add₀ h2]
          norm_num

/-- The opposite of a number is rounded to the opposite. -/
theorem binary32_neg (x : ℚ) : binary32 (-x) = - binary32 x := by
  unfold binary32
  rcases lt_trichotomy x 0 with h | h | h
  · have h1 : 0 < -x := by linarith
    have h2 : ¬ 0 < x := by linarith
    simp [h, h1, h2]
  · subst h; simp
  · have h1 : -x < 0 := by linarith
    have h2 : ¬ 0 < -x := by linarith
    have h3 : ¬ x < 0 := by linarith
    simp [h, h1, h2]

/-- Rounding a rounded number does not move it. -/
theorem binary32_idem (x : ℚ) : binary32 (binary32 x) = binary32 x := by
  have key : ∀ y : ℚ, 0 < y → binary32 (binary32 y) = binary32 y := by
    intro y hy
    have e : binary32 y = roundPos y := by simp [binary32, hy]
    rw [e]
    rcases (roundPos_nonneg y hy).lt_or_eq with h | h
    · simp only [binary32, h, if_true]
      exact roundPos_idem y hy h
    · rw [← h]
      simp [binary32]
  rcases lt_trichotomy x 0 with h | h | h
  · have := key (-x) (by linarith)
    rw [binary32_neg, binary32_neg] at this
    linarith
  · subst h; simp [binary32]
  · exact key x h

/-- The integer a number is rounded to is not below an integer that the number
is not below. -/
theorem le_roundHalfEven (y : ℚ) (k : Int) (hy : (k : ℚ) ≤ y) : k ≤ roundHalfEven y := by
  have h1 : k ≤ ⌊y⌋ := Int.le_floor.mpr hy
  rcases roundHalfEven_mem y with h | h <;> omega

/-- Rounding to an integer moves a number by at most one half. -/
theorem roundHalfEven_error (y : ℚ) :
    (roundHalfEven y : ℚ) - y ≤ 1 / 2 ∧ y - (roundHalfEven y : ℚ) ≤ 1 / 2 := by
  have h1 := Int.floor_le y
  have h2 := Int.lt_floor_add_one y
  unfold roundHalfEven
  split_ifs with a b c
  · constructor <;> linarith
  · push_cast
    constructor <;> linarith
  · have : y - ⌊y⌋ = 1 / 2 := le_antisymm (not_lt.mp b) (not_lt.mp a)
    constructor <;> linarith
  · have : y - ⌊y⌋ = 1 / 2 := le_antisymm (not_lt.mp b) (not_lt.mp a)
    push_cast
    constructor <;> linarith

/-- The binade of a positive number is not above the binade of a larger one. -/
theorem binade_mono (a x : ℚ) (ha : 0 < a) (hax : a ≤ x) : binade a ≤ binade x := by
  have h1 := (binade_spec a ha).1
  have h2 := (binade_spec x (lt_of_lt_of_le ha hax)).2
  have h3 : (2 : ℚ) ^ binade a < (2 : ℚ) ^ (binade x + 1) := lt_of_le_of_lt (le_trans h1 hax) h2
  have := (zpow_lt_zpow_iff_right₀ (by norm_num : (1 : ℚ) < 2)).mp h3
  omega

/-- A number of the format that is not negative is a multiple of the spacing
of the lowest binade. -/
theorem binary32_multiple (a : ℚ) (ha : binary32 a = a) (h0 : 0 ≤ a) :
    ∃ m : Int, a = (m : ℚ) * (2 : ℚ) ^ (-149 : Int) := by
  rcases h0.lt_or_eq with h | h
  · have e : binary32 a = roundPos a := by simp [binary32, h]
    rw [e] at ha
    refine ⟨roundHalfEven (a / (2 : ℚ) ^ (max (binade a) (-126) - 23)) *
      2 ^ (max (binade a) (-126) + 126).toNat, ?_⟩
    have hk : ((max (binade a) (-126) + 126).toNat : Int) = max (binade a) (-126) + 126 :=
      Int.toNat_of_nonneg (by omega)
    have e1 : (2 : ℚ) ^ (max (binade a) (-126) - 23) =
        (2 : ℚ) ^ (max (binade a) (-126) + 126).toNat * (2 : ℚ) ^ (-149 : Int) := by
      rw [← zpow_natCast, hk, ← zpow_add₀ (by norm_num : (2 : ℚ) ≠ 0)]
      congr 1
      omega
    calc a = roundPos a := ha.symm
      _ = (roundHalfEven (a / (2 : ℚ) ^ (max (binade a) (-126) - 23)) : ℚ) *
            (2 : ℚ) ^ (max (binade a) (-126) - 23) := rfl
      _ = _ := by
          rw [e1]
          push_cast
          ring
  · exact ⟨0, by rw [← h]; simp⟩

/-- Rounding a positive number in the normal range moves it by at most the
fraction `2 ^ (-24)` of it. -/
theorem roundPos_error (x : ℚ) (hx : 0 < x) (hn : -126 ≤ binade x) :
    roundPos x - x ≤ x / 2 ^ 24 ∧ x - roundPos x ≤ x / 2 ^ 24 := by
  have hq := two_zpow_pos (binade x - 23)
  have hmax : max (binade x) (-126) = binade x := max_eq_left hn
  have herr := roundHalfEven_error (x / (2 : ℚ) ^ (binade x - 23))
  have hdef : roundPos x = (roundHalfEven (x / (2 : ℚ) ^ (binade x - 23)) : ℚ) *
      (2 : ℚ) ^ (binade x - 23) := by
    unfold roundPos
    rw [hmax]
  have hxq : x = x / (2 : ℚ) ^ (binade x - 23) * (2 : ℚ) ^ (binade x - 23) := by
    field_simp
  have hlow : (2 : ℚ) ^ (binade x - 23) * 2 ^ 23 ≤ x := by
    have := (binade_spec x hx).1
    have e : (2 : ℚ) ^ binade x = (2 : ℚ) ^ (binade x - 23) * 2 ^ 23 := by
      have : binade x = (binade x - 23) + 23 := by omega
      conv_lhs => rw [this, zpow_add₀ (by norm_num : (2 : ℚ) ≠ 0)]
      norm_num
    rw [← e]
    exact this
  generalize (roundHalfEven (x / (2 : ℚ) ^ (binade x - 23)) : ℚ) = n at herr hdef
  generalize x / (2 : ℚ) ^ (binade x - 23) = y at herr hxq
  generalize (2 : ℚ) ^ (binade x - 23) = q at hq hdef hxq hlow
  rw [hdef]
  have h1 : (n - y) * q ≤ 1 / 2 * q := mul_le_mul_of_nonneg_right herr.1 hq.le
  have h2 : (y - n) * q ≤ 1 / 2 * q := mul_le_mul_of_nonneg_right herr.2 hq.le
  have h3 : 1 / 2 * q ≤ x / 2 ^ 24 := by
    rw [le_div_iff₀ (by norm_num)]
    linarith
  constructor
  · calc n * q - x = (n - y) * q := by rw [hxq]; ring
      _ ≤ 1 / 2 * q := h1
      _ ≤ x / 2 ^ 24 := h3
  · calc x - n * q = (y - n) * q := by rw [hxq]; ring
      _ ≤ 1 / 2 * q := h2
      _ ≤ x / 2 ^ 24 := h3

/-- A number that is not negative is not rounded to a negative one. -/
theorem binary32_nonneg (x : ℚ) (hx : 0 ≤ x) : 0 ≤ binary32 x := by
  rcases hx.lt_or_eq with h | h
  · have e : binary32 x = roundPos x := by simp [binary32, h]
    rw [e]
    exact roundPos_nonneg x h
  · rw [← h]
    simp [binary32]

/-- Rounding does not move a number below a number of the format that it is not
below. -/
theorem binary32_le_round (a x : ℚ) (ha : binary32 a = a) (h0 : 0 ≤ a) (hax : a ≤ x) :
    a ≤ binary32 x := by
  rcases h0.lt_or_eq with hpos | hz
  · have hx : 0 < x := lt_of_lt_of_le hpos hax
    have ea : binary32 a = roundPos a := by simp [binary32, hpos]
    have ex : binary32 x = roundPos x := by simp [binary32, hx]
    rw [ea] at ha
    rw [ex]
    have hb := binade_mono a x hpos hax
    have hqx := two_zpow_pos (max (binade x) (-126) - 23)
    have hqa := two_zpow_pos (max (binade a) (-126) - 23)
    rcases (show max (binade a) (-126) ≤ max (binade x) (-126) from
      max_le_max hb le_rfl).lt_or_eq with hlt | heq
    · -- `x` lies in a higher binade than `a`
      have hbx : max (binade x) (-126) = binade x := by omega
      have hba : binade a + 1 ≤ binade x := by omega
      have h1 : a < (2 : ℚ) ^ binade x :=
        lt_of_lt_of_le (binade_spec a hpos).2
          (zpow_le_zpow_right₀ (by norm_num : (1 : ℚ) ≤ 2) hba)
      have h2 : ((2 ^ 23 : Int) : ℚ) ≤ x / (2 : ℚ) ^ (binade x - 23) := by
        rw [le_div_iff₀ (two_zpow_pos _)]
        have e : ((2 ^ 23 : Int) : ℚ) * (2 : ℚ) ^ (binade x - 23) = (2 : ℚ) ^ binade x := by
          have : binade x = 23 + (binade x - 23) := by omega
          conv_rhs => rw [this, zpow_add₀ (by norm_num : (2 : ℚ) ≠ 0)]
          norm_num
        rw [e]
        exact (binade_spec x hx).1
      have h3 := le_roundHalfEven _ _ h2
      have h4 : ((2 ^ 23 : Int) : ℚ) ≤
          (roundHalfEven (x / (2 : ℚ) ^ (binade x - 23)) : ℚ) := by exact_mod_cast h3
      have h5 : (2 : ℚ) ^ binade x ≤ roundPos x := by
        unfold roundPos
        rw [hbx]
        have e : (2 : ℚ) ^ binade x = ((2 ^ 23 : Int) : ℚ) * (2 : ℚ) ^ (binade x - 23) := by
          have : binade x = 23 + (binade x - 23) := by omega
          conv_lhs => rw [this, zpow_add₀ (by norm_num : (2 : ℚ) ≠ 0)]
          norm_num
        rw [e]
        exact mul_le_mul_of_nonneg_right h4 (two_zpow_pos _).le
      linarith
    · -- the two numbers have the same spacing
      have hadef : roundPos a = (roundHalfEven (a / (2 : ℚ) ^ (max (binade a) (-126) - 23)) : ℚ) *
          (2 : ℚ) ^ (max (binade a) (-126) - 23) := rfl
      have hxdef : roundPos x = (roundHalfEven (x / (2 : ℚ) ^ (max (binade x) (-126) - 23)) : ℚ) *
          (2 : ℚ) ^ (max (binade x) (-126) - 23) := rfl
      rw [← heq] at hxdef
      rw [hxdef]
      have h1 : ((roundHalfEven (a / (2 : ℚ) ^ (max (binade a) (-126) - 23)) : Int) : ℚ) ≤
          x / (2 : ℚ) ^ (max (binade a) (-126) - 23) := by
        rw [le_div_iff₀ hqa, ← hadef, ha]
        exact hax
      have h2 := le_roundHalfEven _ _ h1
      have h3 : ((roundHalfEven (a / (2 : ℚ) ^ (max (binade a) (-126) - 23)) : Int) : ℚ) ≤
          (roundHalfEven (x / (2 : ℚ) ^ (max (binade a) (-126) - 23)) : ℚ) := by
        exact_mod_cast h2
      calc a = roundPos a := ha.symm
        _ = _ := hadef
        _ ≤ _ := mul_le_mul_of_nonneg_right h3 hqa.le
  · rw [← hz]
    exact binary32_nonneg x (by rw [← hz] at hax; exact hax)

/-- The sum of two numbers of the format that are not negative is rounded to
within the fraction `2 ^ (-24)` of the sum. -/
theorem binary32_add_error (a b : ℚ) (ha : binary32 a = a) (hb : binary32 b = b) (ha0 : 0 ≤ a)
    (hb0 : 0 ≤ b) :
    binary32 (a + b) - (a + b) ≤ (a + b) / 2 ^ 24 ∧
      (a + b) - binary32 (a + b) ≤ (a + b) / 2 ^ 24 := by
  rcases (add_nonneg ha0 hb0).lt_or_eq with hx | hx
  · have ex : binary32 (a + b) = roundPos (a + b) := by simp [binary32, hx]
    rw [ex]
    by_cases hn : -126 ≤ binade (a + b)
    · exact roundPos_error (a + b) hx hn
    · -- below the normal range the sum is a number of the format
      obtain ⟨ma, hma⟩ := binary32_multiple a ha ha0
      obtain ⟨mb, hmb⟩ := binary32_multiple b hb hb0
      have hmax : max (binade (a + b)) (-126) = -126 := by omega
      have hfix : roundPos (a + b) = a + b := by
        apply roundPos_fixed (a + b) (ma + mb)
        rw [hmax]
        have : (-126 : Int) - 23 = -149 := by norm_num
        rw [this]
        push_cast
        rw [add_mul, ← hma, ← hmb]
      rw [hfix]
      have : 0 ≤ (a + b) / 2 ^ 24 := div_nonneg hx.le (by norm_num)
      constructor <;> linarith
  · rw [← hx]
    simp [binary32]

/-- The rounding to the `float` format has relative error at most `2 ^ (-24)`
on the sum of two numbers of the format that are not negative. -/
theorem binary32_roundsWithin : RoundsWithin binary32 (1 / 2 ^ 24) := by
  refine ⟨by norm_num, by norm_num, fun a b ha hb ha0 hb0 => ?_, fun a b ha hb ha0 hb0 => ?_,
    fun a b ha hb ha0 hb0 => ?_⟩
  · have := (binary32_add_error a b ha hb ha0 hb0).2
    have e : (1 - 1 / 2 ^ 24) * (a + b) = (a + b) - (a + b) / 2 ^ 24 := by ring
    rw [e]
    linarith
  · have := (binary32_add_error a b ha hb ha0 hb0).1
    have e : (1 + 1 / 2 ^ 24) * (a + b) = (a + b) + (a + b) / 2 ^ 24 := by ring
    rw [e]
    linarith
  · exact binary32_le_round a (a + b) ha ha0 (by linarith)

/-- The rounding to the `float` format is a rounding in the sense of
`IsRounding`. -/
theorem binary32_isRounding : IsRounding binary32 :=
  ⟨binary32_idem, binary32_neg, by decide!, by decide!⟩

/-! ## Rounding functions -/

section RoundingFacts

variable {K : Type} [LinearOrderedCommRing K]

/-- A rounding function does not move zero. -/
theorem IsRounding.zero {Round : K → K} (hR : IsRounding Round) : Round 0 = 0 := by
  have h := hR.neg 0
  rw [neg_zero] at h
  linarith

/-- A rounding function does not move the absolute value of a rounded number. -/
theorem IsRounding.abs_fixed {Round : K → K} (hR : IsRounding Round) (x : K) :
    Round |Round x| = |Round x| := by
  rcases abs_cases (Round x) with ⟨h, _⟩ | ⟨h, _⟩
  · rw [h, hR.idem]
  · rw [h, hR.neg, hR.idem]

end RoundingFacts

/-! ## The search in `float` arithmetic -/

section FloatSearchFacts

variable {K : Type} [LinearOrderedCommRing K]

omit [LinearOrderedCommRing K] in
/-- Two loop bodies that agree on the states satisfying a property the second
one keeps give the same result from such a state. -/
theorem foldl_eq_of_invariant {σ β : Type} (f g : σ → β → σ) (P : σ → Prop) (l : List β)
    (hfg : ∀ st, P st → ∀ b ∈ l, f st b = g st b)
    (hP : ∀ st, P st → ∀ b ∈ l, P (g st b)) :
    ∀ st, P st → l.foldl f st = l.foldl g st ∧ P (l.foldl g st) := by
  induction l with
  | nil => intro st h; exact ⟨rfl, h⟩
  | cons b l ih =>
    intro st h
    simp only [List.foldl_cons]
    rw [hfg st h b (List.mem_cons_self _ _)]
    exact ih (fun st1 h1 b1 hb1 => hfg st1 h1 b1 (List.mem_cons_of_mem _ hb1))
      (fun st1 h1 b1 hb1 => hP st1 h1 b1 (List.mem_cons_of_mem _ hb1))
      (g st b) (hP st h b (List.mem_cons_self _ _))

/-- Where nothing is rounded, the rounded sum of a score and the distance to a
neighbour is the exact sum. -/
theorem tentative_exact (Round : K → K) (M : FMath K) (mgr : AAIManager K) (W0 : World K)
    (nodes : List Nat) (s e c v : Nat) (hnr : RoundsNothing Round M mgr W0 nodes e)
    (hc : c ∈ nodes) (hv : v ∈ nodes) (W : World K) (O : List Nat)
    (hinv : CoreInv M mgr W0 nodes s e W O) (hvis : Visited M s W c)
    (hw : WalksInv M W0 nodes s W) :
    Round ((W c).GScore + FVector.DistanceFl Round M (W c).Location (W v).Location) =
      (W c).GScore + FVector.Distance M (W c).Location (W v).Location := by
  obtain ⟨wc, hnd, hmem, hlast, hcost, _⟩ := hw c hc hvis
  rw [(hinv.frame c).1, (hinv.frame v).1, hnr.1 c hc v hv, ← hcost,
    ← pathLength_append_singleton M W0 wc c v hlast]
  apply hnr.2.2.1
  apply mem_listsUpTo
  · have := List.Subperm.length_le (hnd.subperm hmem)
    simp
    omega
  · intro y hy
    rcases List.mem_append.mp hy with h | h
    · exact hmem y h
    · rw [List.mem_singleton.mp h]; exact hv

/-- Where nothing is rounded, one step of the loop over `ConnectedNodes` in
`float` arithmetic is the step in exact arithmetic. -/
theorem relaxAStarFl_eq (Round : K → K) (M : FMath K) (mgr : AAIManager K) (W0 : World K)
    (nodes : List Nat) (s e c v : Nat) (hnr : RoundsNothing Round M mgr W0 nodes e)
    (hc : c ∈ nodes) (hv : v ∈ nodes) (W : World K) (O : List Nat)
    (hinv : CoreInv M mgr W0 nodes s e W O) (hvis : Visited M s W c)
    (hw : WalksInv M W0 nodes s W) :
    relaxAStarFl Round M mgr e c (W, O) v = relaxAStar M mgr e c (W, O) v := by
  have hT := tentative_exact Round M mgr W0 nodes s e c v hnr hc hv W O hinv hvis hw
  have hH : CalculateHeuristicFl Round M mgr (W v).Location (W e).Location =
      CalculateHeuristic M mgr (W v).Location (W e).Location := by
    rw [(hinv.frame v).1, (hinv.frame e).1]
    exact hnr.2.1 v hv
  simp only [relaxAStarFl, relaxAStar, hT, hH]

/-- Where nothing is rounded, the rounded F-score of a node of the open set is
its exact F-score. -/
theorem FScoreFl_eq (Round : K → K) (M : FMath K) (mgr : AAIManager K) (W0 : World K)
    (nodes : List Nat) (s e : Nat) (hnr : RoundsNothing Round M mgr W0 nodes e)
    (W : World K) (O : List Nat) (hinv : CoreInv M mgr W0 nodes s e W O)
    (hw : WalksInv M W0 nodes s W) (x : Nat) (hx : x ∈ O) :
    (W x).FScoreFl Round = (W x).FScore := by
  have hxn := hinv.open_nodes x hx
  obtain ⟨wx, hnd, hmem, hlast, hcost, _⟩ := hw x hxn (hinv.open_vis x hx)
  unfold ANavigationNode.FScoreFl ANavigationNode.FScore
  rw [hinv.hscore x hx, ← hcost]
  exact hnr.2.2.2 wx (nodup_mem_listsUpTo nodes wx hnd hmem) x hxn hlast

/-- The two scans for the lowest F-score agree when the scores agree on the
open set. -/
theorem scanLowestFScoreFl_eq (Round : K → K) (W : World K) (O : List Nat)
    (h : ∀ x ∈ O, (W x).FScoreFl Round = (W x).FScore) :
    ∀ (k i idx : Nat), i + k ≤ O.length → idx < O.length →
      scanLowestFScoreFl Round W O k i idx = scanLowestFScore W O k i idx := by
  intro k
  induction k with
  | zero => intro i idx _ _; rfl
  | succ k ih =>
    intro i idx hi hidx
    have hil : i < O.length := by omega
    have e1 : (W (O.getD i 0)).FScoreFl Round = (W (O.getD i 0)).FScore := by
      apply h
      rw [List.getD_eq_getElem _ _ hil]
      exact List.getElem_mem _
    have e2 : (W (O.getD idx 0)).FScoreFl Round = (W (O.getD idx 0)).FScore := by
      apply h
      rw [List.getD_eq_getElem _ _ hidx]
      exact List.getElem_mem _
    simp only [scanLowestFScoreFl, scanLowestFScore, e1, e2]
    apply ih
    · omega
    · split_ifs <;> omega

/-- The two indices of the lowest F-score agree when the scores agree on the
open set. -/
theorem IndexLowestFScoreFl_eq (Round : K → K) (W : World K) (O : List Nat)
    (h : ∀ x ∈ O, (W x).FScoreFl Round = (W x).FScore) :
    IndexLowestFScoreFl Round W O = IndexLowestFScore W O := by
  unfold IndexLowestFScoreFl IndexLowestFScore
  cases O with
  | nil => rfl
  | cons a O =>
    apply scanLowestFScoreFl_eq Round W (a :: O) h
    · simp; omega
    · simp

/-- One iteration of the search loop in `float` arithmetic. -/
theorem aStarLoopFl_succ (Round : K → K) (M : FMath K) (mgr : AAIManager K) (s e tf fuel : Nat)
    (W : World K) (O : List Nat) :
    aStarLoopFl Round M mgr s e tf (fuel + 1) W O =
      if O = [] then some ([], W)
      else if O.getD (IndexLowestFScoreFl Round W O) 0 = e then
        (backTrace W s tf e [e]).map (fun Path => (Path, W))
      else
        let st := (W (O.getD (IndexLowestFScoreFl Round W O) 0)).ConnectedNodes.foldl
          (relaxAStarFl Round M mgr e (O.getD (IndexLowestFScoreFl Round W O) 0))
          (W, O.filter (fun p => p ≠ O.getD (IndexLowestFScoreFl Round W O) 0))
        aStarLoopFl Round M mgr s e tf fuel st.1 st.2 := by
  cases O with
  | nil => simp [aStarLoopFl]
  | cons x xs => simp [aStarLoopFl]

/-- Where nothing is rounded, the search loop in `float` arithmetic is the
search loop in exact arithmetic. -/
theorem aStarLoopFl_eq (Round : K → K) (M : FMath K) (mgr : AAIManager K) (W0 : World K)
    (nodes : List Nat) (s e tf : Nat) (hclosed : ClosedGraph W0 nodes)
    (hnn : SqrtNonnegOn M W0 nodes) (hnr : RoundsNothing Round M mgr W0 nodes e) :
    ∀ (fuel : Nat) (W : World K) (O : List Nat), CoreInv M mgr W0 nodes s e W O →
      WalksInv M W0 nodes s W →
      aStarLoopFl Round M mgr s e tf fuel W O = aStarLoop M mgr s e tf fuel W O := by
  intro fuel
  induction fuel with
  | zero => intro W O _ _; rfl
  | succ fuel ih =>
    intro W O hinv hw
    rw [aStarLoopFl_succ, aStarLoop_succ,
      IndexLowestFScoreFl_eq Round W O
        (fun x hx => FScoreFl_eq Round M mgr W0 nodes s e hnr W O hinv hw x hx)]
    by_cases hO : O = []
    · rw [if_pos hO, if_pos hO]
    · rw [if_neg hO, if_neg hO]
      by_cases hce : O.getD (IndexLowestFScore W O) 0 = e
      · rw [if_pos hce, if_pos hce]
      · rw [if_neg hce, if_neg hce]
        obtain ⟨hcO, _⟩ := lowest_spec W O hO
        obtain ⟨g1, g2, _⟩ := expand_walks M mgr W0 nodes s e hclosed hnn W O hO hinv hw
        have hc : O.getD (IndexLowestFScore W O) 0 ∈ nodes := hinv.open_nodes _ hcO
        have hsub : ∀ x ∈ O.filter (fun p => p ≠ O.getD (IndexLowestFScore W O) 0), x ∈ O :=
          fun x hx => (List.mem_filter.mp hx).1
        have hinv1 : CoreInv M mgr W0 nodes s e W
            (O.filter (fun p => p ≠ O.getD (IndexLowestFScore W O) 0)) :=
          ⟨hinv.frame, hinv.gstart, hinv.gnonneg, hinv.gmax,
            fun x hx => hinv.open_nodes x (hsub x hx),
            fun x hx => hinv.open_vis x (hsub x hx), fun x hx => hinv.open_reach x (hsub x hx),
            fun x hx => hinv.hscore x (hsub x hx), hinv.link⟩
        have key := foldl_eq_of_invariant
          (relaxAStarFl Round M mgr e (O.getD (IndexLowestFScore W O) 0))
          (relaxAStar M mgr e (O.getD (IndexLowestFScore W O) 0))
          (fun st => CoreInv M mgr W0 nodes s e st.1 st.2 ∧
            Visited M s st.1 (O.getD (IndexLowestFScore W O) 0) ∧ WalksInv M W0 nodes s st.1)
          (W (O.getD (IndexLowestFScore W O) 0)).ConnectedNodes
          (fun st ⟨h1, h2, h3⟩ v hv => by
            rw [(hinv.frame _).2] at hv
            exact relaxAStarFl_eq Round M mgr W0 nodes s e _ v hnr hc (hclosed _ hc v hv)
              st.1 st.2 h1 h2 h3)
          (fun st ⟨h1, h2, h3⟩ v hv => by
            rw [(hinv.frame _).2] at hv
            obtain ⟨a1, a2, _, _⟩ := relaxAStar_core M mgr W0 nodes s e _ hclosed hnn hc st.1 st.2 v
              hv h1 h2 (hinv.open_reach _ hcO)
            obtain ⟨a3, _⟩ := relaxAStar_walks M mgr W0 nodes s e _ hclosed hnn hc st.1 st.2 v hv
              h1 h2 h3
            exact ⟨a1, a2, a3⟩)
          (W, O.filter (fun p => p ≠ O.getD (IndexLowestFScore W O) 0))
          ⟨hinv1, hinv.open_vis _ hcO, hw⟩
        show aStarLoopFl Round M mgr s e tf fuel _ _ = _
        rw [key.1]
        exact ih _ _ g1 g2

/-- Where nothing is rounded, the search in `float` arithmetic is the search in
exact arithmetic. -/
theorem GenerateAStarPathFl_eq (Round : K → K) (M : FMath K) (mgr : AAIManager K) (W : World K)
    (nodes : List Nat) (s e : Nat) (hclosed : ClosedGraph W nodes)
    (hnn : SqrtNonnegOn M W nodes) (hs : s ∈ nodes) (hall : ∀ x ∈ nodes, x ∈ mgr.AllNodes)
    (hmax : 0 ≤ M.FloatMax) (hnr : RoundsNothing Round M mgr W nodes e) (fuel : Nat) :
    GenerateAStarPathFl Round M mgr W s e fuel = GenerateAStarPath M mgr W s e fuel := by
  have hloc : ∀ q, (resetGScores M W mgr.AllNodes q).Location = (W q).Location := by
    intro q
    rw [resetGScores_apply]
    split_ifs <;> rfl
  have hinit : initSearchFl Round M mgr W s e = initSearch M mgr W s e := by
    unfold initSearchFl initSearch
    have hl : ∀ q, ((resetGScores M W mgr.AllNodes).set s
        { resetGScores M W mgr.AllNodes s with GScore := 0 } q).Location = (W q).Location := by
      intro q
      by_cases hq : q = s
      · subst hq
        simp [World.set, hloc]
      · simp [World.set, hq, hloc]
    simp only [hl, hnr.2.1 s hs]
  unfold GenerateAStarPathFl GenerateAStarPath
  rw [hinit]
  exact aStarLoopFl_eq Round M mgr W nodes s e fuel hclosed hnn hnr fuel _ _
    (initSearch_core M mgr W nodes s e hclosed hnn hs hall hmax).1
    (initSearch_walks M mgr W nodes s e hs hall)

/-- With the `EUCLIDEAN` or the `CHEBYSHEV` heuristic, on a graph on which the
`float` arithmetic of the search rounds nothing, the sequence returned by the
search is not longer than any chain of connections from the start node to the
end node. -/
theorem aStarFl_shortest (Round : K → K) (M : FMath K) (mgr : AAIManager K) (W : World K)
    (nodes : List Nat) (s e : Nat)
    (hh : mgr.Heuristic = EHeuristicType.EUCLIDEAN ∨ mgr.Heuristic = EHeuristicType.CHEBYSHEV)
    (hclosed : ClosedGraph W nodes) (hs : s ∈ nodes) (he : e ∈ nodes)
    (hall : ∀ x ∈ nodes, x ∈ mgr.AllNodes) (hex : SqrtExactOn M W nodes)
    (hnr : RoundsNothing Round M mgr W nodes e)
    (hmax : 0 ≤ M.FloatMax) (fuel : Nat) (p : List Nat)
    (hp : AStarPathFl Round M mgr W s e fuel = some p) (c : List Nat)
    (hc : ChainFromTo W s e c) :
    pathLength M W p ≤ pathLength M W c := by
  unfold AStarPathFl at hp
  rw [GenerateAStarPathFl_eq Round M mgr W nodes s e hclosed (fun a ha b hb => (hex a ha b hb).1)
    hs hall hmax hnr fuel] at hp
  exact aStar_shortest M mgr W nodes s e hh hclosed hs he hall hex hmax fuel p hp c hc

/-- With a rounding function that moves nothing the estimate in `float`
arithmetic is the exact one. -/
theorem CalculateHeuristicFl_id (M : FMath K) (mgr : AAIManager K) (a b : FVector K) :
    CalculateHeuristicFl id M mgr a b = CalculateHeuristic M mgr a b := by
  simp only [CalculateHeuristicFl, CalculateHeuristic, FVector.DistanceFl, FVector.Distance,
    FVector.DistSquaredFl, FVector.DistSquared, id]

/-- With a rounding function that moves nothing the search in `float`
arithmetic is the search in exact arithmetic. -/
theorem GenerateAStarPathFl_id (M : FMath K) (mgr : AAIManager K) (W : World K)
    (s e fuel : Nat) :
    GenerateAStarPathFl id M mgr W s e fuel = GenerateAStarPath M mgr W s e fuel := by
  have hrelax : ∀ c, relaxAStarFl id M mgr e c = relaxAStar M mgr e c := by
    intro c
    funext st v
    simp only [relaxAStarFl, relaxAStar, CalculateHeuristicFl_id, FVector.DistanceFl,
      FVector.Distance, FVector.DistSquaredFl, FVector.DistSquared, id]
  have hscan : ∀ (W1 : World K) (O : List Nat) (k i idx : Nat),
      scanLowestFScoreFl id W1 O k i idx = scanLowestFScore W1 O k i idx := by
    intro W1 O k
    induction k with
    | zero => intro i idx; rfl
    | succ k ih =>
      intro i idx
      simp only [scanLowestFScoreFl, scanLowestFScore, ANavigationNode.FScoreFl,
        ANavigationNode.FScore, id, ih]
  have hloop : ∀ (tf n : Nat) (W1 : World K) (O : List Nat),
      aStarLoopFl id M mgr s e tf n W1 O = aStarLoop M mgr s e tf n W1 O := by
    intro tf n
    induction n with
    | zero => intro W1 O; rfl
    | succ n ih =>
      intro W1 O
      simp only [aStarLoopFl, aStarLoop, IndexLowestFScoreFl, IndexLowestFScore, hscan, hrelax, ih]
  simp only [GenerateAStarPathFl, GenerateAStarPath, initSearchFl, initSearch,
    CalculateHeuristicFl_id, hloop]

end FloatSearchFacts

/-! ### The search with rounding -/

section RoundedSearchFacts

variable {K : Type} [LinearOrderedCommRing K]

/-- What one step of the loop over `ConnectedNodes` does in `float`
arithmetic: nothing, or it writes the three search fields of the neighbour and
has it in the open set. -/
theorem relaxAStarFl_effect (Round : K → K) (M : FMath K) (mgr : AAIManager K) (e c : Nat)
    (W : World K) (O : List Nat) (v : Nat) :
    (¬ Round ((W c).GScore + FVector.DistanceFl Round M (W c).Location (W v).Location) <
        (W v).GScore ∧
      relaxAStarFl Round M mgr e c (W, O) v = (W, O)) ∨
    (Round ((W c).GScore + FVector.DistanceFl Round M (W c).Location (W v).Location) <
        (W v).GScore ∧
      (∀ q, q ≠ v → (relaxAStarFl Round M mgr e c (W, O) v).1 q = W q) ∧
      ((relaxAStarFl Round M mgr e c (W, O) v).1 v).GScore =
        Round ((W c).GScore + FVector.DistanceFl Round M (W c).Location (W v).Location) ∧
      ((relaxAStarFl Round M mgr e c (W, O) v).1 v).CameFrom = some c ∧
      ((relaxAStarFl Round M mgr e c (W, O) v).1 v).HScore =
        CalculateHeuristicFl Round M mgr (W v).Location (W e).Location ∧
      ((relaxAStarFl Round M mgr e c (W, O) v).1 v).Location = (W v).Location ∧
      ((relaxAStarFl Round M mgr e c (W, O) v).1 v).ConnectedNodes = (W v).ConnectedNodes ∧
      (∀ x, x ∈ (relaxAStarFl Round M mgr e c (W, O) v).2 ↔ x ∈ O ∨ x = v)) := by
  by_cases h : Round ((W c).GScore + FVector.DistanceFl Round M (W c).Location (W v).Location) <
      (W v).GScore
  · right
    have hdef : relaxAStarFl Round M mgr e c (W, O) v =
        (W.set v { W v with
            CameFrom := some c
            GScore := Round ((W c).GScore +
              FVector.DistanceFl Round M (W c).Location (W v).Location)
            HScore := CalculateHeuristicFl Round M mgr (W v).Location (W e).Location },
          if v ∈ O then O else O ++ [v]) := by
      simp [relaxAStarFl, h]
    rw [hdef]
    refine ⟨h, fun q hq => World.set_other _ _ _ _ hq, ?_, ?_, ?_, ?_, ?_, fun x => ?_⟩
    · simp [World.set]
    · simp [World.set]
    · simp [World.set]
    · simp [World.set]
    · simp [World.set]
    · by_cases hv : v ∈ O
      · simp only [hv, if_true]
        constructor
        · exact Or.inl
        · rintro (h1 | h1)
          · exact h1
          · rw [h1]; exact hv
      · simp [hv]
  · left
    exact ⟨h, by simp [relaxAStarFl, h]⟩

/-- The distance in `float` arithmetic is a number of the format and, where it
is accurate, not negative. -/
theorem DistanceFl_float_nonneg (Round : K → K) (M : FMath K) (W0 : World K) (nodes : List Nat)
    (δ : K) (hR : IsRounding Round) (hδ : δ ≤ 1) (hnn : SqrtNonnegOn M W0 nodes)
    (hd : DistanceWithin Round M W0 nodes δ) (a b : Nat) (ha : a ∈ nodes) (hb : b ∈ nodes) :
    Round (FVector.DistanceFl Round M (W0 a).Location (W0 b).Location) =
        FVector.DistanceFl Round M (W0 a).Location (W0 b).Location ∧
      0 ≤ FVector.DistanceFl Round M (W0 a).Location (W0 b).Location := by
  constructor
  · unfold FVector.DistanceFl
    rw [hR.idem]
  · have h1 := (hd a ha b hb).1
    have h2 : 0 ≤ FVector.Distance M (W0 a).Location (W0 b).Location := hnn a ha b hb
    have h3 : 0 ≤ (1 - δ) * FVector.Distance M (W0 a).Location (W0 b).Location :=
      mul_nonneg (by linarith) h2
    linarith

/-- One step of the loop over the connections of the node `c` in `float`
arithmetic keeps the invariant of the search. -/
theorem relaxAStarFl_core (Round : K → K) (M : FMath K) (mgr : AAIManager K) (W0 : World K)
    (nodes : List Nat) (s e c : Nat) (u δ : K) (hR : IsRounding Round)
    (hu : RoundsWithin Round u) (hδ : δ ≤ 1) (hclosed : ClosedGraph W0 nodes)
    (hnn : SqrtNonnegOn M W0 nodes) (hd : DistanceWithin Round M W0 nodes δ)
    (hc : c ∈ nodes) (W : World K) (O : List Nat) (v : Nat) (hv : v ∈ (W0 c).ConnectedNodes)
    (hinv : CoreInvFl Round M mgr W0 nodes s e u W O) (hvis : Visited M s W c) :
    CoreInvFl Round M mgr W0 nodes s e u (relaxAStarFl Round M mgr e c (W, O) v).1
      (relaxAStarFl Round M mgr e c (W, O) v).2 ∧
    Visited M s (relaxAStarFl Round M mgr e c (W, O) v).1 c ∧
    ((relaxAStarFl Round M mgr e c (W, O) v).1 c).GScore = (W c).GScore ∧
    (∀ x, ((relaxAStarFl Round M mgr e c (W, O) v).1 x).GScore ≤ (W x).GScore) := by
  have hvn : v ∈ nodes := hclosed c hc v hv
  obtain ⟨hdf, hd0⟩ := DistanceFl_float_nonneg Round M W0 nodes δ hR hδ hnn hd c v hc hvn
  have hgcf := hinv.gfloat c hc hvis
  have hgc0 := hinv.gnonneg c hc
  have hT : Round ((W c).GScore + FVector.DistanceFl Round M (W c).Location (W v).Location) =
      Round ((W c).GScore + FVector.DistanceFl Round M (W0 c).Location (W0 v).Location) := by
    rw [(hinv.frame c).1, (hinv.frame v).1]
  have hTge := hu.add_ge _ _ hgcf hdf hgc0 hd0
  have hTlow := hu.add_lower _ _ hgcf hdf hgc0 hd0
  rcases relaxAStarFl_effect Round M mgr e c W O v with
    ⟨_, h⟩ | ⟨hlt, hoth, hg, hcf, hh, hloc, hcon, hmem⟩
  · rw [h]
    exact ⟨hinv, hvis, rfl, fun _ => le_rfl⟩
  · rw [hT] at hlt hg
    have hcv : c ≠ v := by
      intro h
      have : (W v).GScore = (W c).GScore := by rw [h]
      linarith
    have hvs : v ≠ s := by
      intro h
      have : (W v).GScore = 0 := by rw [h]; exact hinv.gstart
      linarith
    have hgc : ((relaxAStarFl Round M mgr e c (W, O) v).1 c).GScore = (W c).GScore := by
      rw [hoth c hcv]
    have hmono : ∀ x, ((relaxAStarFl Round M mgr e c (W, O) v).1 x).GScore ≤ (W x).GScore := by
      intro x
      by_cases hx : x = v
      · rw [hx, hg]; exact hlt.le
      · rw [hoth x hx]
    have hvlt : ((relaxAStarFl Round M mgr e c (W, O) v).1 v).GScore < M.FloatMax := by
      rw [hg]
      exact lt_of_lt_of_le hlt (hinv.gmax v hvn)
    have hvis1 : ∀ x, Visited M s W x →
        Visited M s (relaxAStarFl Round M mgr e c (W, O) v).1 x := by
      intro x hx
      rcases hx with hx | hx
      · exact Or.inl hx
      · exact Or.inr (lt_of_le_of_lt (hmono x) hx)
    have hu1 : 0 ≤ 1 - u := by linarith [hu.unit_le_one]
    refine ⟨⟨fun q => ?_, ?_, fun x hx => ?_, fun x hx => ?_, fun x hx hxv => ?_, fun x hx => ?_,
      fun x hx => ?_, fun x hx => ?_, fun x hx hxs hxlt => ?_⟩, hvis1 c hvis, hgc, hmono⟩
    · by_cases hq : q = v
      · rw [hq, hloc, hcon]; exact hinv.frame v
      · rw [hoth q hq]; exact hinv.frame q
    · rw [hoth s (Ne.symm hvs)]; exact hinv.gstart
    · by_cases hxv : x = v
      · rw [hxv, hg]
        linarith
      · rw [hoth x hxv]; exact hinv.gnonneg x hx
    · exact le_trans (hmono x) (hinv.gmax x hx)
    · by_cases hxe : x = v
      · rw [hxe, hg, hR.idem]
      · have hxv1 : Visited M s W x := by
          rcases hxv with h | h
          · exact Or.inl h
          · rw [hoth x hxe] at h; exact Or.inr h
        rw [hoth x hxe]
        exact hinv.gfloat x hx hxv1
    · rcases (hmem x).mp hx with h | h
      · exact hinv.open_nodes x h
      · rw [h]; exact hvn
    · rcases (hmem x).mp hx with h | h
      · exact hvis1 x (hinv.open_vis x h)
      · rw [h]; exact Or.inr hvlt
    · by_cases hxv : x = v
      · rw [hxv, hh, (hinv.frame v).1, (hinv.frame e).1]
      · rw [hoth x hxv]
        rcases (hmem x).mp hx with h | h
        · exact hinv.hscore x h
        · exact absurd h hxv
    · by_cases hxv : x = v
      · subst hxv
        refine ⟨c, hc, hcf, hv, hvis1 c hvis, ?_⟩
        rw [hgc, hg]
        exact hTlow
      · rw [hoth x hxv] at hxlt ⊢
        obtain ⟨c1, hc1, h1, h2, h3, h4⟩ := hinv.link x hx hxs hxlt
        refine ⟨c1, hc1, h1, h2, hvis1 c1 h3, le_trans ?_ h4⟩
        exact mul_le_mul_of_nonneg_left (add_le_add_right (hmono c1) _) hu1

/-- One step of the loop over the connections of `c` in `float` arithmetic
keeps the edges relaxed up to rounding and relaxes the edge to the neighbour it
visits. -/
theorem relaxAStarFl_edges (Round : K → K) (M : FMath K) (mgr : AAIManager K) (W0 : World K)
    (nodes : List Nat) (s e c : Nat) (u δ : K) (hR : IsRounding Round)
    (hu : RoundsWithin Round u) (hδ : δ ≤ 1) (hclosed : ClosedGraph W0 nodes)
    (hnn : SqrtNonnegOn M W0 nodes) (hd : DistanceWithin Round M W0 nodes δ)
    (hc : c ∈ nodes) (W : World K) (O : List Nat) (pre : List Nat) (v : Nat)
    (hv : v ∈ (W0 c).ConnectedNodes)
    (hinv : CoreInvFl Round M mgr W0 nodes s e u W O) (hvis : Visited M s W c)
    (hed : RelaxedEdgesFl Round M W0 nodes u (some c) pre W O) :
    RelaxedEdgesFl Round M W0 nodes u (some c) (pre ++ [v])
      (relaxAStarFl Round M mgr e c (W, O) v).1 (relaxAStarFl Round M mgr e c (W, O) v).2 := by
  have hvn : v ∈ nodes := hclosed c hc v hv
  obtain ⟨hdf, hd0⟩ := DistanceFl_float_nonneg Round M W0 nodes δ hR hδ hnn hd c v hc hvn
  have hgcf := hinv.gfloat c hc hvis
  have hgc0 := hinv.gnonneg c hc
  have hT : Round ((W c).GScore + FVector.DistanceFl Round M (W c).Location (W v).Location) =
      Round ((W c).GScore + FVector.DistanceFl Round M (W0 c).Location (W0 v).Location) := by
    rw [(hinv.frame c).1, (hinv.frame v).1]
  have hTge := hu.add_ge _ _ hgcf hdf hgc0 hd0
  have hTup := hu.add_upper _ _ hgcf hdf hgc0 hd0
  rcases relaxAStarFl_effect Round M mgr e c W O v with
    ⟨hnlt, h⟩ | ⟨hlt, hoth, hg, _, _, _, _, hmem⟩
  · rw [h]
    intro a ha haO w hw hpre
    by_cases hac : a = c
    · subst hac
      rcases List.mem_append.mp (hpre rfl) with h1 | h1
      · exact hed a ha haO w hw (fun _ => h1)
      · simp only [List.mem_singleton] at h1
        subst h1
        rw [hT] at hnlt
        exact le_trans (not_lt.mp hnlt) hTup
    · exact hed a ha haO w hw (fun h => absurd (Option.some.inj h).symm hac)
  · rw [hT] at hlt hg
    have hcv : c ≠ v := by
      intro h
      have : (W v).GScore = (W c).GScore := by rw [h]
      linarith
    have hmono : ∀ x, ((relaxAStarFl Round M mgr e c (W, O) v).1 x).GScore ≤ (W x).GScore := by
      intro x
      by_cases hx : x = v
      · rw [hx, hg]; exact hlt.le
      · rw [hoth x hx]
    intro a ha haO w hw hpre
    have haO1 : a ∉ O := fun h => haO ((hmem a).mpr (Or.inl h))
    have hav : a ≠ v := fun h => haO ((hmem a).mpr (Or.inr h))
    rw [hoth a hav]
    by_cases hcase : a = c ∧ w = v
    · obtain ⟨h1, h2⟩ := hcase
      subst h1 h2
      rw [hg]
      exact hTup
    · have hold : (W w).GScore ≤ (1 + u) * ((W a).GScore +
          FVector.DistanceFl Round M (W0 a).Location (W0 w).Location) := by
        apply hed a ha haO1 w hw
        intro h
        have hac : a = c := (Option.some.inj h).symm
        rcases List.mem_append.mp (hpre h) with h1 | h1
        · exact h1
        · simp only [List.mem_singleton] at h1
          exact absurd ⟨hac, h1⟩ hcase
      exact le_trans (hmono w) hold

/-- The scan for the lowest F-score in `float` arithmetic keeps the index of a
node whose score is not above that of any node scanned. -/
theorem scanLowestFScoreFl_spec (Round : K → K) (W : World K) (O : List Nat) :
    ∀ (k i idx : Nat), idx < i → i + k = O.length →
      (∀ j, j < i → (W (O.getD idx 0)).FScoreFl Round ≤ (W (O.getD j 0)).FScoreFl Round) →
      scanLowestFScoreFl Round W O k i idx < O.length ∧
      ∀ j, j < O.length →
        (W (O.getD (scanLowestFScoreFl Round W O k i idx) 0)).FScoreFl Round ≤
          (W (O.getD j 0)).FScoreFl Round := by
  intro k
  induction k with
  | zero =>
    intro i idx h1 h2 h3
    simp only [scanLowestFScoreFl]
    exact ⟨by omega, fun j hj => h3 j (by omega)⟩
  | succ k ih =>
    intro i idx h1 h2 h3
    simp only [scanLowestFScoreFl]
    by_cases hlt : (W (O.getD i 0)).FScoreFl Round < (W (O.getD idx 0)).FScoreFl Round
    · rw [if_pos hlt]
      apply ih (i + 1) i (by omega) (by omega)
      intro j hj
      by_cases hji : j = i
      · rw [hji]
      · exact le_trans hlt.le (h3 j (by omega))
    · rw [if_neg hlt]
      apply ih (i + 1) idx (by omega) (by omega)
      intro j hj
      by_cases hji : j = i
      · rw [hji]; exact not_lt.mp hlt
      · exact h3 j (by omega)

/-- The node taken from a non-empty open set in `float` arithmetic is one of
its nodes, and none of them has a lower F-score. -/
theorem lowestFl_spec (Round : K → K) (W : World K) (O : List Nat) (hO : O ≠ []) :
    O.getD (IndexLowestFScoreFl Round W O) 0 ∈ O ∧
    ∀ x ∈ O, (W (O.getD (IndexLowestFScoreFl Round W O) 0)).FScoreFl Round ≤
      (W x).FScoreFl Round := by
  have hlen : 0 < O.length := List.length_pos.mpr hO
  obtain ⟨h1, h2⟩ := scanLowestFScoreFl_spec Round W O (O.length - 1) 1 0 (by omega) (by omega)
    (fun j hj => by
      have : j = 0 := by omega
      rw [this])
  constructor
  · unfold IndexLowestFScoreFl
    rw [List.getD_eq_getElem _ _ h1]
    exact List.getElem_mem _
  · intro x hx
    obtain ⟨j, hj, rfl⟩ := List.getElem_of_mem hx
    have := h2 j hj
    rw [List.getD_eq_getElem _ _ hj] at this
    exact this

/-- An iteration of the search loop in `float` arithmetic that does not return
keeps the invariant of the search and leaves the edges of the nodes outside the
open set relaxed up to rounding. -/
theorem expandFl_edges (Round : K → K) (M : FMath K) (mgr : AAIManager K) (W0 : World K)
    (nodes : List Nat) (s e : Nat) (u δ : K) (hR : IsRounding Round)
    (hu : RoundsWithin Round u) (hδ : δ ≤ 1) (hclosed : ClosedGraph W0 nodes)
    (hnn : SqrtNonnegOn M W0 nodes) (hd : DistanceWithin Round M W0 nodes δ)
    (W : World K) (O : List Nat) (hO : O ≠ [])
    (hinv : CoreInvFl Round M mgr W0 nodes s e u W O)
    (hed : RelaxedEdgesFl Round M W0 nodes u none [] W O) :
    CoreInvFl Round M mgr W0 nodes s e u
      ((W (O.getD (IndexLowestFScoreFl Round W O) 0)).ConnectedNodes.foldl
        (relaxAStarFl Round M mgr e (O.getD (IndexLowestFScoreFl Round W O) 0))
        (W, O.filter (fun p => p ≠ O.getD (IndexLowestFScoreFl Round W O) 0))).1
      ((W (O.getD (IndexLowestFScoreFl Round W O) 0)).ConnectedNodes.foldl
        (relaxAStarFl Round M mgr e (O.getD (IndexLowestFScoreFl Round W O) 0))
        (W, O.filter (fun p => p ≠ O.getD (IndexLowestFScoreFl Round W O) 0))).2 ∧
    RelaxedEdgesFl Round M W0 nodes u none []
      ((W (O.getD (IndexLowestFScoreFl Round W O) 0)).ConnectedNodes.foldl
        (relaxAStarFl Round M mgr e (O.getD (IndexLowestFScoreFl Round W O) 0))
        (W, O.filter (fun p => p ≠ O.getD (IndexLowestFScoreFl Round W O) 0))).1
      ((W (O.getD (IndexLowestFScoreFl Round W O) 0)).ConnectedNodes.foldl
        (relaxAStarFl Round M mgr e (O.getD (IndexLowestFScoreFl Round W O) 0))
        (W, O.filter (fun p => p ≠ O.getD (IndexLowestFScoreFl Round W O) 0))).2 := by
  obtain ⟨hcO, _⟩ := lowestFl_spec Round W O hO
  generalize hcdef : O.getD (IndexLowestFScoreFl Round W O) 0 = c at hcO
  have hc : c ∈ nodes := hinv.open_nodes c hcO
  have hsub : ∀ x ∈ O.filter (fun p => p ≠ c), x ∈ O := fun x hx => (List.mem_filter.mp hx).1
  have hinv1 : CoreInvFl Round M mgr W0 nodes s e u W (O.filter (fun p => p ≠ c)) :=
    ⟨hinv.frame, hinv.gstart, hinv.gnonneg, hinv.gmax, hinv.gfloat,
      fun x hx => hinv.open_nodes x (hsub x hx),
      fun x hx => hinv.open_vis x (hsub x hx), fun x hx => hinv.hscore x (hsub x hx), hinv.link⟩
  have hed1 : RelaxedEdgesFl Round M W0 nodes u (some c) [] W (O.filter (fun p => p ≠ c)) := by
    intro a ha haO w hw hpre
    by_cases hac : a = c
    · have := hpre (by rw [hac])
      simp at this
    · apply hed a ha _ w hw (fun h => by simp at h)
      intro h
      exact haO (List.mem_filter.mpr ⟨h, by simpa using hac⟩)
  have key := foldl_prefix_induction (relaxAStarFl Round M mgr e c)
    (fun pre st => CoreInvFl Round M mgr W0 nodes s e u st.1 st.2 ∧ Visited M s st.1 c ∧
      RelaxedEdgesFl Round M W0 nodes u (some c) pre st.1 st.2)
    (W0 c).ConnectedNodes [] (W, O.filter (fun p => p ≠ c))
    ⟨hinv1, hinv.open_vis c hcO, hed1⟩
    (fun pre st v ⟨h1, h2, h3⟩ hv => by
      obtain ⟨g1, g2, _, _⟩ := relaxAStarFl_core Round M mgr W0 nodes s e c u δ hR hu hδ hclosed
        hnn hd hc st.1 st.2 v hv h1 h2
      exact ⟨g1, g2, relaxAStarFl_edges Round M mgr W0 nodes s e c u δ hR hu hδ hclosed hnn hd hc
        st.1 st.2 pre v hv h1 h2 h3⟩)
  rw [(hinv.frame c).2]
  simp only [List.nil_append] at key
  refine ⟨key.1, ?_⟩
  intro a ha haO w hw _
  apply key.2.2 a ha haO w hw
  intro h
  rw [Option.some.inj h]
  exact hw

/-- Whatever holds when the loop in `float` arithmetic is entered and is kept
by every iteration that does not return, holds in the state in which the loop
returns. -/
theorem aStarLoopFl_invariant (Round : K → K) (M : FMath K) (mgr : AAIManager K) (s e tf : Nat)
    (P : World K → List Nat → Prop)
    (hstep : ∀ W O, P W O → O ≠ [] →
      P ((W (O.getD (IndexLowestFScoreFl Round W O) 0)).ConnectedNodes.foldl
          (relaxAStarFl Round M mgr e (O.getD (IndexLowestFScoreFl Round W O) 0))
          (W, O.filter (fun p => p ≠ O.getD (IndexLowestFScoreFl Round W O) 0))).1
        ((W (O.getD (IndexLowestFScoreFl Round W O) 0)).ConnectedNodes.foldl
          (relaxAStarFl Round M mgr e (O.getD (IndexLowestFScoreFl Round W O) 0))
          (W, O.filter (fun p => p ≠ O.getD (IndexLowestFScoreFl Round W O) 0))).2) :
    ∀ (fuel : Nat) (W : World K) (O : List Nat) (p : List Nat) (W1 : World K), P W O →
      aStarLoopFl Round M mgr s e tf fuel W O = some (p, W1) →
      (p = [] ∧ P W1 []) ∨
      (∃ O1, P W1 O1 ∧ O1 ≠ [] ∧ O1.getD (IndexLowestFScoreFl Round W1 O1) 0 = e ∧
        backTrace W1 s tf e [e] = some p) := by
  intro fuel
  induction fuel with
  | zero => intro W O p W1 _ h; simp [aStarLoopFl] at h
  | succ n ih =>
    intro W O p W1 hP h
    rw [aStarLoopFl_succ] at h
    by_cases hO : O = []
    · rw [if_pos hO] at h
      simp at h
      obtain ⟨h1, h2⟩ := h
      subst h1 h2 hO
      exact Or.inl ⟨rfl, hP⟩
    · rw [if_neg hO] at h
      by_cases hce : O.getD (IndexLowestFScoreFl Round W O) 0 = e
      · rw [if_pos hce] at h
        cases hb : backTrace W s tf e [e] with
        | none => simp [hb] at h
        | some q =>
          simp [hb] at h
          obtain ⟨h1, h2⟩ := h
          subst h1 h2
          exact Or.inr ⟨O, hP, hO, hce, hb⟩
      · rw [if_neg hce] at h
        exact ih _ _ p W1 (hstep W O hP hO) h

/-- The state in which the search loop in `float` arithmetic is entered. -/
theorem initSearchFl_spec (Round : K → K) (M : FMath K) (mgr : AAIManager K) (W0 : World K)
    (s e : Nat) :
    (∀ q, (initSearchFl Round M mgr W0 s e q).Location = (W0 q).Location ∧
      (initSearchFl Round M mgr W0 s e q).ConnectedNodes = (W0 q).ConnectedNodes) ∧
    (initSearchFl Round M mgr W0 s e s).GScore = 0 ∧
    (initSearchFl Round M mgr W0 s e s).HScore =
      CalculateHeuristicFl Round M mgr (W0 s).Location (W0 e).Location ∧
    (∀ q ∈ mgr.AllNodes, q ≠ s → (initSearchFl Round M mgr W0 s e q).GScore = M.FloatMax) := by
  have hloc : ∀ q, (resetGScores M W0 mgr.AllNodes q).Location = (W0 q).Location := by
    intro q
    rw [resetGScores_apply]
    split_ifs <;> rfl
  refine ⟨fun q => ?_, ?_, ?_, fun q hq hqs => ?_⟩
  · by_cases hqs : q = s
    · subst hqs
      simp only [initSearchFl, World.set, if_true]
      rw [resetGScores_apply]
      split_ifs <;> exact ⟨rfl, rfl⟩
    · simp only [initSearchFl, World.set, hqs, if_false]
      rw [resetGScores_apply]
      split_ifs <;> exact ⟨rfl, rfl⟩
  · simp [initSearchFl, World.set]
  · by_cases hes : e = s
    · subst hes
      simp only [initSearchFl, World.set, if_true]
      rw [hloc]
    · simp only [initSearchFl, World.set, if_true, hes, if_false]
      rw [hloc, hloc]
  · simp only [initSearchFl, World.set, hqs, if_false]
    rw [resetGScores_apply, if_pos hq]

/-- The invariant of the search in `float` arithmetic holds when the loop is
entered. -/
theorem initSearchFl_core (Round : K → K) (M : FMath K) (mgr : AAIManager K) (W0 : World K)
    (nodes : List Nat) (s e : Nat) (u δ : K) (hR : IsRounding Round)
    (hu : RoundsWithin Round u) (hδ : δ ≤ 1) (hclosed : ClosedGraph W0 nodes)
    (hnn : SqrtNonnegOn M W0 nodes) (hd : DistanceWithin Round M W0 nodes δ)
    (hs : s ∈ nodes) (hall : ∀ x ∈ nodes, x ∈ mgr.AllNodes) (hmax : 0 ≤ M.FloatMax) :
    CoreInvFl Round M mgr W0 nodes s e u (initSearchFl Round M mgr W0 s e) [s] ∧
    RelaxedEdgesFl Round M W0 nodes u none [] (initSearchFl Round M mgr W0 s e) [s] := by
  obtain ⟨h1, h2, h3, h4⟩ := initSearchFl_spec Round M mgr W0 s e
  have hg : ∀ x ∈ nodes, x ≠ s → (initSearchFl Round M mgr W0 s e x).GScore = M.FloatMax :=
    fun x hx hxs => h4 x (hall x hx) hxs
  have hgmax : ∀ x ∈ nodes, (initSearchFl Round M mgr W0 s e x).GScore ≤ M.FloatMax := by
    intro x hx
    by_cases hxs : x = s
    · rw [hxs, h2]; exact hmax
    · rw [hg x hx hxs]
  constructor
  · refine ⟨h1, h2, fun x hx => ?_, hgmax, fun x hx hvis => ?_, fun x hx => ?_,
      fun x hx => ?_, fun x hx => ?_, fun x hx hxs hlt => ?_⟩
    · by_cases hxs : x = s
      · rw [hxs, h2]
      · rw [hg x hx hxs]; exact hmax
    · have hxs : x = s := by
        rcases hvis with h | h
        · exact h
        · by_contra hne
          rw [hg x hx hne] at h
          exact lt_irrefl _ h
      rw [hxs, h2]
      exact hR.zero
    · rw [List.mem_singleton.mp hx]; exact hs
    · exact Or.inl (List.mem_singleton.mp hx)
    · rw [List.mem_singleton.mp hx]; exact h3
    · rw [hg x hx hxs] at hlt
      exact absurd hlt (lt_irrefl _)
  · intro a ha haO w hw _
    have has : a ≠ s := fun h => haO (by rw [h]; exact List.mem_singleton_self s)
    have hwn := hclosed a ha w hw
    rw [hg a ha has]
    obtain ⟨_, hd0⟩ := DistanceFl_float_nonneg Round M W0 nodes δ hR hδ hnn hd a w ha hwn
    have h5 := hgmax w hwn
    have h6 : 0 ≤ u * (M.FloatMax +
        FVector.DistanceFl Round M (W0 a).Location (W0 w).Location) :=
      mul_nonneg hu.unit_nonneg (by linarith)
    linarith

/-- The sequence returned by the back trace in `float` arithmetic, reduced by
the rounding of its sums and of its distances, is not longer than the score of
the node the trace starts from. -/
theorem backTraceFl_length (Round : K → K) (M : FMath K) (mgr : AAIManager K) (W0 : World K)
    (nodes : List Nat) (s e : Nat) (u δ : K) (hu : RoundsWithin Round u) (hδ : δ ≤ 1)
    (hnn : SqrtNonnegOn M W0 nodes) (hd : DistanceWithin Round M W0 nodes δ)
    (W : World K) (O : List Nat) (hinv : CoreInvFl Round M mgr W0 nodes s e u W O) :
    ∀ (fuel cur : Nat) (Path p : List Nat), backTrace W s fuel cur Path = some p →
      cur ∈ nodes → Visited M s W cur →
      ∃ rest, p = Path ++ rest ∧ (∀ y ∈ rest, y ∈ nodes) ∧
        (1 - u) ^ rest.length * ((1 - δ) * pathLength M W0 (cur :: rest)) ≤ (W cur).GScore := by
  have hu1 : 0 ≤ 1 - u := by linarith [hu.unit_le_one]
  have hu2 : 1 - u ≤ 1 := by linarith [hu.unit_nonneg]
  have hδ1 : 0 ≤ 1 - δ := by linarith
  intro fuel
  induction fuel with
  | zero => intro cur Path p h; simp [backTrace] at h
  | succ n ih =>
    intro cur Path p h hcur hvis
    unfold backTrace at h
    by_cases hcs : cur = s
    · simp [hcs] at h
      subst h
      refine ⟨[], by simp, by simp, ?_⟩
      rw [hcs, hinv.gstart]
      simp [pathLength]
    · simp only [ne_eq, hcs, not_false_eq_true, if_true] at h
      have hlt : (W cur).GScore < M.FloatMax := hvis.resolve_left hcs
      obtain ⟨c, hc, hcf, _, hcvis, hle⟩ := hinv.link cur hcur hcs hlt
      rw [hcf] at h
      obtain ⟨rest, hp, hmem, hb⟩ := ih c (Path ++ [c]) p h hc hcvis
      refine ⟨c :: rest, by rw [hp]; simp, ?_, ?_⟩
      · intro y hy
        rcases List.mem_cons.mp hy with h1 | h1
        · rw [h1]; exact hc
        · exact hmem y h1
      · have hdl := (hd c hc cur hcur).1
        have hdist : 0 ≤ FVector.Distance M (W0 c).Location (W0 cur).Location := hnn c hc cur hcur
        have hL : 0 ≤ pathLength M W0 (c :: rest) :=
          pathLength_nonneg M W0 nodes hnn (c :: rest) (by
            intro y hy
            rcases List.mem_cons.mp hy with h1 | h1
            · rw [h1]; exact hc
            · exact hmem y h1)
        have hpow0 : 0 ≤ (1 - u) ^ rest.length := pow_nonneg hu1 _
        have hpow1 : (1 - u) ^ rest.length ≤ 1 := pow_le_one₀ hu1 hu2
        have e1 : pathLength M W0 (cur :: c :: rest) =
            FVector.Distance M (W0 c).Location (W0 cur).Location + pathLength M W0 (c :: rest) := by
          simp only [pathLength]
          rw [Distance_comm]
        rw [e1, List.length_cons, pow_succ]
        -- the score of `cur` is at least `(1 - u)` times the sum of the score of `c` and the
        -- distance, the score of `c` is bounded below by the induction hypothesis
        have hA : (1 - u) ^ rest.length * ((1 - δ) *
            FVector.Distance M (W0 c).Location (W0 cur).Location) ≤
            FVector.DistanceFl Round M (W0 c).Location (W0 cur).Location := by
          have : (1 - u) ^ rest.length * ((1 - δ) *
              FVector.Distance M (W0 c).Location (W0 cur).Location) ≤
              1 * ((1 - δ) * FVector.Distance M (W0 c).Location (W0 cur).Location) :=
            mul_le_mul_of_nonneg_right hpow1 (mul_nonneg hδ1 hdist)
          linarith
        have hB : (1 - u) ^ rest.length * ((1 - δ) *
            (FVector.Distance M (W0 c).Location (W0 cur).Location +
              pathLength M W0 (c :: rest))) ≤
            (W c).GScore + FVector.DistanceFl Round M (W0 c).Location (W0 cur).Location := by
          have : (1 - u) ^ rest.length * ((1 - δ) *
              (FVector.Distance M (W0 c).Location (W0 cur).Location +
                pathLength M W0 (c :: rest))) =
              (1 - u) ^ rest.length * ((1 - δ) *
                FVector.Distance M (W0 c).Location (W0 cur).Location) +
              (1 - u) ^ rest.length * ((1 - δ) * pathLength M W0 (c :: rest)) := by ring
          rw [this]
          linarith
        calc (1 - u) ^ rest.length * (1 - u) * ((1 - δ) *
              (FVector.Distance M (W0 c).Location (W0 cur).Location +
                pathLength M W0 (c :: rest)))
            = (1 - u) * ((1 - u) ^ rest.length * ((1 - δ) *
              (FVector.Distance M (W0 c).Location (W0 cur).Location +
                pathLength M W0 (c :: rest)))) := by ring
          _ ≤ (1 - u) * ((W c).GScore +
              FVector.DistanceFl Round M (W0 c).Location (W0 cur).Location) :=
            mul_le_mul_of_nonneg_left hB hu1
          _ ≤ (W cur).GScore := hle

/-- When the end node has the lowest F-score of the open set in `float`
arithmetic, its F-score is bounded by the score of the first node of any chain
to it and the length of the chain, both enlarged by the rounding of the sums,
of the distances and of the estimate. -/
theorem chainFl_bound (Round : K → K) (M : FMath K) (mgr : AAIManager K) (W0 : World K)
    (nodes : List Nat) (s e : Nat) (u δ η : K)
    (hu : RoundsWithin Round u) (hδ0 : 0 ≤ δ) (hη0 : 0 ≤ η)
    (hclosed : ClosedGraph W0 nodes) (hnn : SqrtNonnegOn M W0 nodes)
    (hd : DistanceWithin Round M W0 nodes δ)
    (hest : EstimateWithin Round M mgr W0 nodes e η)
    (hadm : Admissible M W0 nodes e
      (fun x => FVector.Distance M (W0 x).Location (W0 e).Location))
    (W : World K) (O : List Nat)
    (hinv : CoreInvFl Round M mgr W0 nodes s e u W O)
    (hed : RelaxedEdgesFl Round M W0 nodes u none [] W O)
    (heO : e ∈ O) (hmin : ∀ x ∈ O, (W e).FScoreFl Round ≤ (W x).FScoreFl Round) :
    ∀ (c : List Nat) (x : Nat), IsConnectedChain W0 c → c.head? = some x →
      c.getLast? = some e → x ∈ nodes → ∀ B, (W x).GScore ≤ B →
      (W e).FScoreFl Round ≤
        (1 + u) ^ c.length * (B + (1 + δ) * (1 + η) * pathLength M W0 c) := by
  have hu0 := hu.unit_nonneg
  have hu1 : (1 : K) ≤ 1 + u := by linarith
  have hu2 : (0 : K) ≤ 1 + u := by linarith
  have hκ1 : 1 + δ ≤ (1 + δ) * (1 + η) := by nlinarith
  have hκ2 : 1 + η ≤ (1 + δ) * (1 + η) := by nlinarith
  intro c
  induction c with
  | nil => intro x _ h; simp at h
  | cons a c ih =>
    intro x hch hhead hlast hx B hB
    simp at hhead
    subst hhead
    have hcn : ∀ y ∈ a :: c, y ∈ nodes := chain_mem_nodes W0 nodes hclosed (a :: c) a hch rfl hx
    have hL : 0 ≤ pathLength M W0 (a :: c) := pathLength_nonneg M W0 nodes hnn _ hcn
    have hB0 : 0 ≤ B := le_trans (hinv.gnonneg a hx) hB
    have hpow : (1 + u) ≤ (1 + u) ^ (a :: c).length := by
      rw [List.length_cons, pow_succ]
      have : (1 : K) ≤ (1 + u) ^ c.length := one_le_pow₀ hu1
      nlinarith
    by_cases haO : a ∈ O
    · have h1 := hmin a haO
      have h2 := hadm (a :: c) a hch rfl hlast hx
      simp only at h2
      obtain ⟨hf, h0, hup⟩ := hest a hx
      have hga := hinv.gfloat a hx (hinv.open_vis a haO)
      have h3 : (W a).FScoreFl Round ≤ (1 + u) * ((W a).GScore +
          CalculateHeuristicFl Round M mgr (W0 a).Location (W0 e).Location) := by
        unfold ANavigationNode.FScoreFl
        rw [hinv.hscore a haO]
        exact hu.add_upper _ _ hga hf (hinv.gnonneg a hx) h0
      have hdist : 0 ≤ FVector.Distance M (W0 a).Location (W0 e).Location :=
        hnn a hx e (hinv.open_nodes e heO)
      have h4 : CalculateHeuristicFl Round M mgr (W0 a).Location (W0 e).Location ≤
          (1 + δ) * (1 + η) * pathLength M W0 (a :: c) := by
        have t1 : (1 + η) * FVector.Distance M (W0 a).Location (W0 e).Location ≤
            (1 + η) * pathLength M W0 (a :: c) :=
          mul_le_mul_of_nonneg_left h2 (by linarith)
        have t2 : (1 + η) * pathLength M W0 (a :: c) ≤
            (1 + δ) * (1 + η) * pathLength M W0 (a :: c) :=
          mul_le_mul_of_nonneg_right hκ2 hL
        linarith
      have h5 : (1 + u) * ((W a).GScore +
          CalculateHeuristicFl Round M mgr (W0 a).Location (W0 e).Location) ≤
          (1 + u) * (B + (1 + δ) * (1 + η) * pathLength M W0 (a :: c)) :=
        mul_le_mul_of_nonneg_left (by linarith) hu2
      have h6 : (1 + u) * (B + (1 + δ) * (1 + η) * pathLength M W0 (a :: c)) ≤
          (1 + u) ^ (a :: c).length * (B + (1 + δ) * (1 + η) * pathLength M W0 (a :: c)) :=
        mul_le_mul_of_nonneg_right hpow
          (add_nonneg hB0 (mul_nonneg (mul_nonneg (by linarith) (by linarith)) hL))
      linarith
    · cases c with
      | nil =>
        simp at hlast
        rw [hlast] at haO
        exact absurd heO haO
      | cons b c =>
        have hab : b ∈ (W0 a).ConnectedNodes := (List.chain'_cons.mp hch).1
        have hch1 : IsConnectedChain W0 (b :: c) := (List.chain'_cons.mp hch).2
        have hb : b ∈ nodes := hclosed a hx b hab
        have hrel := hed a hx haO b hab (fun h => by simp at h)
        have hlast1 : (b :: c).getLast? = some e := by
          rw [List.getLast?_cons_cons] at hlast
          exact hlast
        have hdu := (hd a hx b hb).2
        have hdist : 0 ≤ FVector.Distance M (W0 a).Location (W0 b).Location := hnn a hx b hb
        have hL1 : 0 ≤ pathLength M W0 (b :: c) :=
          pathLength_nonneg M W0 nodes hnn _ (fun y hy => hcn y (List.mem_cons_of_mem _ hy))
        have hgb : (W b).GScore ≤ (1 + u) * (B + (1 + δ) * (1 + η) *
            FVector.Distance M (W0 a).Location (W0 b).Location) := by
          have t1 : FVector.DistanceFl Round M (W0 a).Location (W0 b).Location ≤
              (1 + δ) * (1 + η) * FVector.Distance M (W0 a).Location (W0 b).Location := by
            have := mul_le_mul_of_nonneg_right hκ1 hdist
            linarith
          have t2 : (1 + u) * ((W a).GScore +
              FVector.DistanceFl Round M (W0 a).Location (W0 b).Location) ≤
              (1 + u) * (B + (1 + δ) * (1 + η) *
                FVector.Distance M (W0 a).Location (W0 b).Location) :=
            mul_le_mul_of_nonneg_left (by linarith) hu2
          linarith
        have h7 := ih b hch1 rfl hlast1 hb _ hgb
        have hpc : (0 : K) ≤ (1 + u) ^ (b :: c).length := pow_nonneg hu2 _
        have h8 : (1 + u) * (B + (1 + δ) * (1 + η) *
              FVector.Distance M (W0 a).Location (W0 b).Location) +
            (1 + δ) * (1 + η) * pathLength M W0 (b :: c) ≤
            (1 + u) * (B + (1 + δ) * (1 + η) * pathLength M W0 (a :: b :: c)) := by
          have e1 : pathLength M W0 (a :: b :: c) =
              FVector.Distance M (W0 a).Location (W0 b).Location + pathLength M W0 (b :: c) := rfl
          rw [e1]
          have t3 : 0 ≤ u * ((1 + δ) * (1 + η) * pathLength M W0 (b :: c)) :=
            mul_nonneg hu0 (mul_nonneg (mul_nonneg (by linarith) (by linarith)) hL1)
          nlinarith
        have h9 := mul_le_mul_of_nonneg_left h8 hpc
        have e2 : (1 + u) ^ (a :: b :: c).length *
            (B + (1 + δ) * (1 + η) * pathLength M W0 (a :: b :: c)) =
            (1 + u) ^ (b :: c).length *
              ((1 + u) * (B + (1 + δ) * (1 + η) * pathLength M W0 (a :: b :: c))) := by
          rw [List.length_cons (a := a), pow_succ]
          ring
        rw [e2]
        linarith

/-- With the `EUCLIDEAN` heuristic the estimate in `float` arithmetic is as
accurate as the distance. -/
theorem estimateWithin_euclidean (Round : K → K) (M : FMath K) (mgr : AAIManager K)
    (hh : mgr.Heuristic = EHeuristicType.EUCLIDEAN) (W0 : World K) (nodes : List Nat) (e : Nat)
    (δ : K) (hR : IsRounding Round) (hδ : δ ≤ 1) (hnn : SqrtNonnegOn M W0 nodes)
    (hd : DistanceWithin Round M W0 nodes δ) (he : e ∈ nodes) :
    EstimateWithin Round M mgr W0 nodes e δ := by
  intro x hx
  have hcalc : CalculateHeuristicFl Round M mgr (W0 x).Location (W0 e).Location =
      FVector.DistanceFl Round M (W0 x).Location (W0 e).Location := by
    simp [CalculateHeuristicFl, hh]
  rw [hcalc]
  obtain ⟨h1, h2⟩ := DistanceFl_float_nonneg Round M W0 nodes δ hR hδ hnn hd x e hx he
  exact ⟨h1, h2, (hd x hx e he).2⟩

/-- In `float` arithmetic, on a graph whose nodes are all in `AllNodes` and on
whose distances the square root is exact, with distances accurate within `δ`
and an estimate that exceeds the distance to the end node by at most the
fraction `η`, the sequence returned by the search is a shortest route up to
the rounding of the sums (`u`), of the distances and of the estimate. -/
theorem aStarFl_near_shortest (Round : K → K) (M : FMath K) (mgr : AAIManager K) (W : World K)
    (nodes : List Nat) (s e : Nat) (u δ η : K) (hR : IsRounding Round)
    (hu : RoundsWithin Round u) (hδ0 : 0 ≤ δ) (hδ1 : δ ≤ 1) (hη0 : 0 ≤ η)
    (hclosed : ClosedGraph W nodes) (hs : s ∈ nodes) (he : e ∈ nodes)
    (hall : ∀ x ∈ nodes, x ∈ mgr.AllNodes) (hex : SqrtExactOn M W nodes)
    (hd : DistanceWithin Round M W nodes δ) (hest : EstimateWithin Round M mgr W nodes e η)
    (hmax : 0 ≤ M.FloatMax) (fuel : Nat) (p : List Nat)
    (hp : AStarPathFl Round M mgr W s e fuel = some p) (hne : p ≠ []) (c : List Nat)
    (hc : ChainFromTo W s e c) :
    (1 - u) ^ (p.length - 1) * ((1 - δ) * pathLength M W p) ≤
      (1 + u) ^ c.length * ((1 + δ) * (1 + η) * pathLength M W c) := by
  have hnn : SqrtNonnegOn M W nodes := fun a ha b hb => (hex a ha b hb).1
  obtain ⟨hch, hhead, hlast⟩ := hc
  unfold AStarPathFl at hp
  cases hg : GenerateAStarPathFl Round M mgr W s e fuel with
  | none => simp [hg] at hp
  | some r =>
    obtain ⟨q, W1⟩ := r
    simp [hg] at hp
    subst hp
    obtain ⟨i1, i2⟩ := initSearchFl_core Round M mgr W nodes s e u δ hR hu hδ1 hclosed hnn hd hs
      hall hmax
    unfold GenerateAStarPathFl at hg
    rcases aStarLoopFl_invariant Round M mgr s e fuel
        (fun W2 O => CoreInvFl Round M mgr W nodes s e u W2 O ∧
          RelaxedEdgesFl Round M W nodes u none [] W2 O)
        (fun W2 O hP hO =>
          expandFl_edges Round M mgr W nodes s e u δ hR hu hδ1 hclosed hnn hd W2 O hO hP.1 hP.2)
        fuel _ _ q W1 ⟨i1, i2⟩ hg with ⟨h0, _⟩ | ⟨O1, ⟨hinv, hed⟩, hO1, hcur, hb⟩
    · exact absurd h0 hne
    · obtain ⟨heO, hmin⟩ := lowestFl_spec Round W1 O1 hO1
      rw [hcur] at heO hmin
      have hevis := hinv.open_vis e heO
      obtain ⟨rest, hq, _, hlow⟩ := backTraceFl_length Round M mgr W nodes s e u δ hu hδ1 hnn hd
        W1 O1 hinv fuel e [e] q hb he hevis
      have hup := chainFl_bound Round M mgr W nodes s e u δ η hu hδ0 hη0 hclosed hnn hd hest
        (euclidean_le_chain M W nodes e hclosed hex he) W1 O1 hinv hed heO hmin c s hch hhead
        hlast hs 0 (by rw [hinv.gstart])
      obtain ⟨hf, h0, _⟩ := hest e he
      have hge : (W1 e).GScore ≤ (W1 e).FScoreFl Round := by
        unfold ANavigationNode.FScoreFl
        rw [hinv.hscore e heO]
        exact hu.add_ge _ _ (hinv.gfloat e he hevis) hf (hinv.gnonneg e he) h0
      have hlen : q.length - 1 = rest.length := by
        rw [hq]
        simp
      have hqe : q = e :: rest := by rw [hq]; rfl
      rw [hlen, hqe]
      rw [zero_add] at hup
      linarith

end RoundedSearchFacts

/-- Over the real numbers the real square root is exact on the distances of
every graph: there the sequence returned by the search in `float` arithmetic is
a shortest route up to rounding on every finite graph whose nodes are all in
`AllNodes`. -/
theorem aStarFl_near_shortest_real (Round : ℝ → ℝ) (FloatMax : ℝ) (mgr : AAIManager ℝ)
    (W : World ℝ) (nodes : List Nat) (s e : Nat) (u δ η : ℝ) (hR : IsRounding Round)
    (hu : RoundsWithin Round u) (hδ0 : 0 ≤ δ) (hδ1 : δ ≤ 1) (hη0 : 0 ≤ η)
    (hclosed : ClosedGraph W nodes) (hs : s ∈ nodes) (he : e ∈ nodes)
    (hall : ∀ x ∈ nodes, x ∈ mgr.AllNodes)
    (hd : DistanceWithin Round ⟨Real.sqrt, FloatMax⟩ W nodes δ)
    (hest : EstimateWithin Round ⟨Real.sqrt, FloatMax⟩ mgr W nodes e η)
    (hmax : 0 ≤ FloatMax) (fuel : Nat) (p : List Nat)
    (hp : AStarPathFl Round ⟨Real.sqrt, FloatMax⟩ mgr W s e fuel = some p) (hne : p ≠ [])
    (c : List Nat) (hc : ChainFromTo W s e c) :
    (1 - u) ^ (p.length - 1) * ((1 - δ) * pathLength ⟨Real.sqrt, FloatMax⟩ W p) ≤
      (1 + u) ^ c.length * ((1 + δ) * (1 + η) * pathLength ⟨Real.sqrt, FloatMax⟩ W c) :=
  aStarFl_near_shortest Round ⟨Real.sqrt, FloatMax⟩ mgr W nodes s e u δ η hR hu hδ0 hδ1 hη0
    hclosed hs he hall (sqrtExactOn_real FloatMax W nodes) hd hest hmax fuel p hp hne c hc

/-- C2, as stated, in `float` arithmetic on the six nodes of `roundingWorld`,
which lie on a line: the search from node 0 to node 5 returns the route over
node 1, of length 33554436, while the chain over the nodes 2, 3 and 4 has
length 33554432.  The F-scores of node 1, of node 2, of the end node reached
over node 1 and of node 3 are all rounded to 33554432, and of equal scores the
scan takes the first: the end node is taken from the open set before node 3.
The route returned is the longer one also when the lengths are summed in
`float` arithmetic, in either direction (33554432 against 33554430).  The
coordinates of the nodes are numbers of the `float` format. -/
theorem C2_rounding_path_not_shortest :
    AStarPathFl binary32 sqrtMath euclideanManager roundingWorld 0 5 10 = some [5, 1, 0] ∧
    ChainFromTo roundingWorld 0 5 [0, 2, 3, 4, 5] ∧
    pathLength sqrtMath roundingWorld [0, 2, 3, 4, 5] = 33554432 ∧
    pathLength sqrtMath roundingWorld [5, 1, 0] = 33554436 ∧
    SqrtExactOn sqrtMath roundingWorld [0, 1, 2, 3, 4, 5] ∧
    pathLengthFl binary32 sqrtMath roundingWorld [0, 2, 3, 4, 5] = 33554430 ∧
    pathLengthFl binary32 sqrtMath roundingWorld [5, 4, 3, 2, 0] = 33554430 ∧
    pathLengthFl binary32 sqrtMath roundingWorld [5, 1, 0] = 33554432 ∧
    pathLengthFl binary32 sqrtMath roundingWorld [0, 1, 5] = 33554432 ∧
    ∀ x ∈ [0, 1, 2, 3, 4, 5],
      binary32 (roundingWorld x).Location.X = (roundingWorld x).Location.X := by
  refine ⟨by decide!, ⟨?_, by decide, by decide⟩, by decide!, by decide!, ?_, by decide!,
    by decide!, by decide!, by decide!, by decide!⟩
  · unfold IsConnectedChain
    simp [roundingWorld, ratNodeAt]
  · unfold SqrtExactOn
    decide!

/-- C2, amended: in `float` arithmetic with the `EUCLIDEAN` heuristic, on a
finite graph whose nodes are all in `AllNodes` (the square root being the exact
one on the distances of the graph, and `FVector::Distance` accurate within the
fraction `δ`), the sequence `p` returned by `GenerateAStarPath` is a shortest
route up to rounding: for every chain `c` of `ConnectedNodes` edges from the
start node to the end node, the length of `p` reduced by the factor
`(1 - u) ^ (|p| - 1) * (1 - δ)` is at most the length of `c` enlarged by the
factor `(1 + u) ^ |c| * (1 + δ) ^ 2`, where `u` bounds the relative error of a
rounded sum; and `p` is not longer than `c` when the arithmetic of the search
rounds nothing on the graph (`RoundsNothing`). -/
theorem C2_path_shortest_up_to_rounding {K : Type} [LinearOrderedCommRing K] (Round : K → K)
    (M : FMath K) (mgr : AAIManager K) (W : World K) (nodes : List Nat) (StartNode EndNode : Nat)
    (u δ : K) (hheur : mgr.Heuristic = EHeuristicType.EUCLIDEAN)
    (hR : IsRounding Round) (hu : RoundsWithin Round u) (hδ0 : 0 ≤ δ) (hδ1 : δ ≤ 1)
    (hclosed : ClosedGraph W nodes) (hs : StartNode ∈ nodes) (he : EndNode ∈ nodes)
    (hall : ∀ x ∈ nodes, x ∈ mgr.AllNodes) (hex : SqrtExactOn M W nodes)
    (hd : DistanceWithin Round M W nodes δ)
    (hmax : 0 ≤ M.FloatMax) (fuel : Nat) (p : List Nat)
    (hp : AStarPathFl Round M mgr W StartNode EndNode fuel = some p) (hne : p ≠ []) :
    ∀ c, ChainFromTo W StartNode EndNode c →
      (1 - u) ^ (p.length - 1) * ((1 - δ) * pathLength M W p) ≤
          (1 + u) ^ c.length * ((1 + δ) * (1 + δ) * pathLength M W c) ∧
        (RoundsNothing Round M mgr W nodes EndNode → pathLength M W p ≤ pathLength M W c) :=
  fun c hc =>
    ⟨aStarFl_near_shortest Round M mgr W nodes StartNode EndNode u δ δ hR hu hδ0 hδ1 hδ0 hclosed
        hs he hall hex hd
        (estimateWithin_euclidean Round M mgr hheur W nodes EndNode δ hR hδ1
          (fun a ha b hb => (hex a ha b hb).1) hd he)
        hmax fuel p hp hne c hc,
      fun hnr => aStarFl_shortest Round M mgr W nodes StartNode EndNode (Or.inl hheur) hclosed hs
        he hall hex hnr hmax fuel p hp c hc⟩

/-- C2, amended, with the rounding to the `float` format (`u = 2 ^ (-24)`): at
the search from node 0 to node 5 of `roundingWorld`, which returns
`[5, 1, 0]`, with distances accurate within `2 ^ (-23)`, compared with the
chain over the nodes 2, 3 and 4; and at the search from node 0 to node 2 of
`triangleWorld`, where nothing is rounded and which returns `[2, 0]`, compared
with the chain over node 1. -/
theorem C2_path_shortest_up_to_rounding_witness :
    (ChainFromTo roundingWorld 0 5 [0, 2, 3, 4, 5] ∧
      (1 - 1 / 2 ^ 24 : ℚ) ^ (([5, 1, 0] : List Nat).length - 1) *
          ((1 - 1 / 2 ^ 23) * pathLength sqrtMath roundingWorld [5, 1, 0]) ≤
        (1 + 1 / 2 ^ 24 : ℚ) ^ ([0, 2, 3, 4, 5] : List Nat).length *
          ((1 + 1 / 2 ^ 23) * (1 + 1 / 2 ^ 23) *
            pathLength sqrtMath roundingWorld [0, 2, 3, 4, 5])) ∧
    (ChainFromTo triangleWorld 0 2 [0, 1, 2] ∧
      pathLength sqrtMath triangleWorld [2, 0] ≤ pathLength sqrtMath triangleWorld [0, 1, 2]) :=
  have hc1 : ChainFromTo roundingWorld 0 5 [0, 2, 3, 4, 5] :=
    ⟨by unfold IsConnectedChain; simp [roundingWorld, ratNodeAt], rfl, rfl⟩
  have hc2 : ChainFromTo triangleWorld 0 2 [0, 1, 2] :=
    ⟨by unfold IsConnectedChain; simp [triangleWorld, ratNodeAt], rfl, rfl⟩
  ⟨⟨hc1, (C2_path_shortest_up_to_rounding binary32 sqrtMath euclideanManager roundingWorld
      [0, 1, 2, 3, 4, 5] 0 5 (1 / 2 ^ 24) (1 / 2 ^ 23) rfl binary32_isRounding
      binary32_roundsWithin (by norm_num) (by norm_num) (by unfold ClosedGraph; decide)
      (by decide) (by decide) (by decide) (by unfold SqrtExactOn; decide!)
      (by unfold DistanceWithin; decide!) (by decide!) 10 [5, 1, 0] (by decide!) (by decide)
      [0, 2, 3, 4, 5] hc1).1⟩,
    ⟨hc2, (C2_path_shortest_up_to_rounding binary32 sqrtMath euclideanManager triangleWorld
      [0, 1, 2] 0 2 (1 / 2 ^ 24) (1 / 2 ^ 23) rfl binary32_isRounding
      binary32_roundsWithin (by norm_num) (by norm_num) (by unfold ClosedGraph; decide)
      (by decide) (by decide) (by decide) (by unfold SqrtExactOn; decide!)
      (by unfold DistanceWithin; decide!) (by decide!) 10 [2, 0] (by decide!) (by decide)
      [0, 1, 2] hc2).2 (by unfold RoundsNothing; decide!)⟩⟩

/-- C3, as stated.  With the `OCTILE` heuristic on the four nodes of
`detourWorld` the search from node 0 to node 3 returns the route over node 2,
of length 58, while the chain over node 1 has length 56, in exact and in
`float` arithmetic.  With the `CHEBYSHEV` heuristic in `float` arithmetic on
the six nodes of `roundingWorld` the search from node 0 to node 5 returns the
route over node 1 while the chain over the nodes 2, 3 and 4 is shorter. -/
theorem C3_octile_path_not_shortest :
    AStarPath ratMath octileManager detourWorld 0 3 10 = some [3, 2, 0] ∧
    ChainFromTo detourWorld 0 3 [0, 1, 3] ∧
    pathLength ratMath detourWorld [0, 1, 3] = 56 ∧
    pathLength ratMath detourWorld [3, 2, 0] = 58 ∧
    AStarPathFl binary32 sqrtMath octileManager detourWorld 0 3 10 = some [3, 2, 0] ∧
    AStarPathFl binary32 sqrtMath chebyshevManager roundingWorld 0 5 10 = some [5, 1, 0] ∧
    ChainFromTo roundingWorld 0 5 [0, 2, 3, 4, 5] ∧
    pathLength sqrtMath roundingWorld [0, 2, 3, 4, 5] <
      pathLength sqrtMath roundingWorld [5, 1, 0] := by
  refine ⟨by decide!, ⟨?_, by decide, by decide⟩, by decide!, by decide!, by decide!, by decide!,
    ⟨?_, by decide, by decide⟩, by decide!⟩
  · unfold IsConnectedChain
    simp [detourWorld, ratNodeAt]
  · unfold IsConnectedChain
    simp [roundingWorld, ratNodeAt]

/-- C3, amended: in `float` arithmetic with any heuristic kind, on a finite
graph whose nodes are all in `AllNodes` (the square root being the exact one on
the distances of the graph, `FVector::Distance` accurate within the fraction
`δ`, and the estimate of a node exceeding its distance to the end node by at
most the fraction `η`), the sequence `p` returned by `GenerateAStarPath` is a
lowest-cost route up to the excess of the estimate and to rounding: no chain
`c` of `ConnectedNodes` edges from the start node to the end node is so short
that its length enlarged by the factor `(1 + u) ^ |c| * (1 + δ) * (1 + η)` is
below the length of `p` reduced by the factor `(1 - u) ^ (|p| - 1) * (1 - δ)`;
and with the `EUCLIDEAN` or the `CHEBYSHEV` heuristic no chain is shorter than
`p` when the arithmetic of the search rounds nothing on the graph. -/
theorem C3_lowest_cost_up_to_rounding {K : Type} [LinearOrderedCommRing K] (Round : K → K)
    (M : FMath K) (mgr : AAIManager K) (W : World K) (nodes : List Nat) (StartNode EndNode : Nat)
    (u δ η : K) (hR : IsRounding Round) (hu : RoundsWithin Round u) (hδ0 : 0 ≤ δ) (hδ1 : δ ≤ 1)
    (hη0 : 0 ≤ η)
    (hclosed : ClosedGraph W nodes) (hs : StartNode ∈ nodes) (he : EndNode ∈ nodes)
    (hall : ∀ x ∈ nodes, x ∈ mgr.AllNodes) (hex : SqrtExactOn M W nodes)
    (hd : DistanceWithin Round M W nodes δ)
    (hest : EstimateWithin Round M mgr W nodes EndNode η)
    (hmax : 0 ≤ M.FloatMax) (fuel : Nat) (p : List Nat)
    (hp : AStarPathFl Round M mgr W StartNode EndNode fuel = some p) (hne : p ≠ []) :
    (¬ ∃ c, ChainFromTo W StartNode EndNode c ∧
        (1 + u) ^ c.length * ((1 + δ) * (1 + η) * pathLength M W c) <
          (1 - u) ^ (p.length - 1) * ((1 - δ) * pathLength M W p)) ∧
      (mgr.Heuristic = EHeuristicType.EUCLIDEAN ∨ mgr.Heuristic = EHeuristicType.CHEBYSHEV →
        RoundsNothing Round M mgr W nodes EndNode →
        ¬ ∃ c, ChainFromTo W StartNode EndNode c ∧ pathLength M W c < pathLength M W p) := by
  constructor
  · rintro ⟨c, hc, hlt⟩
    exact absurd hlt (not_lt.mpr
      (aStarFl_near_shortest Round M mgr W nodes StartNode EndNode u δ η hR hu hδ0 hδ1 hη0 hclosed
        hs he hall hex hd hest hmax fuel p hp hne c hc))
  · rintro hheur hnr ⟨c, hc, hlt⟩
    exact absurd hlt (not_lt.mpr
      (aStarFl_shortest Round M mgr W nodes StartNode EndNode hheur hclosed hs he hall hex hnr
        hmax fuel p hp c hc))

/-- C3, amended, with the rounding to the `float` format (`u = 2 ^ (-24)`): at
the search from node 0 to node 2 of `triangleWorld` with the `OCTILE`
heuristic, whose estimate exceeds the distance by less than a tenth, and with
the `CHEBYSHEV` heuristic, for which nothing is rounded; both return
`[2, 0]`. -/
theorem C3_lowest_cost_up_to_rounding_witness :
    (¬ ∃ c, ChainFromTo triangleWorld 0 2 c ∧
        (1 + 1 / 2 ^ 24 : ℚ) ^ c.length *
            ((1 + 1 / 2 ^ 23) * (1 + 1 / 10) * pathLength sqrtMath triangleWorld c) <
          (1 - 1 / 2 ^ 24 : ℚ) ^ (([2, 0] : List Nat).length - 1) *
            ((1 - 1 / 2 ^ 23) * pathLength sqrtMath triangleWorld [2, 0])) ∧
    (¬ ∃ c, ChainFromTo triangleWorld 0 2 c ∧
      pathLength sqrtMath triangleWorld c < pathLength sqrtMath triangleWorld [2, 0]) :=
  ⟨(C3_lowest_cost_up_to_rounding binary32 sqrtMath octileManager triangleWorld [0, 1, 2] 0 2
      (1 / 2 ^ 24) (1 / 2 ^ 23) (1 / 10) binary32_isRounding binary32_roundsWithin (by norm_num)
      (by norm_num) (by norm_num) (by unfold ClosedGraph; decide) (by decide) (by decide)
      (by decide) (by unfold SqrtExactOn; decide!) (by unfold DistanceWithin; decide!)
      (by unfold EstimateWithin; decide!) (by decide!) 10 [2, 0] (by decide!) (by decide)).1,
    (C3_lowest_cost_up_to_rounding binary32 sqrtMath chebyshevManager triangleWorld [0, 1, 2] 0 2
      (1 / 2 ^ 24) (1 / 2 ^ 23) (1 / 2 ^ 23) binary32_isRounding binary32_roundsWithin
      (by norm_num) (by norm_num) (by norm_num) (by unfold ClosedGraph; decide) (by decide)
      (by decide) (by decide) (by unfold SqrtExactOn; decide!)
      (by unfold DistanceWithin; decide!) (by unfold EstimateWithin; decide!) (by decide!) 10
      [2, 0] (by decide!) (by decide)).2 (Or.inr rfl) (by unfold RoundsNothing; decide!)⟩

/-! ## The `CHEBYSHEV` estimate in `float` arithmetic -/

section FloatHeuristicFacts

variable {K : Type} [LinearOrderedCommRing K]

/-- The value of `CalculateHeuristic` for `CHEBYSHEV` in `float` arithmetic: the
rounded sum of the two absolute differences less the smaller one, rounded. -/
theorem chebyshevFl_eq (Round : K → K) (M : FMath K) (mgr : AAIManager K)
    (hh : mgr.Heuristic = EHeuristicType.CHEBYSHEV) (hR : IsRounding Round) (a b : FVector K) :
    CalculateHeuristicFl Round M mgr a b =
      Round (Round (|Round (b.X - a.X)| + |Round (b.Y - a.Y)|) -
        min |Round (b.X - a.X)| |Round (b.Y - a.Y)|) := by
  have hm : Round (min |Round (b.X - a.X)| |Round (b.Y - a.Y)|) =
      min |Round (b.X - a.X)| |Round (b.Y - a.Y)| := by
    rcases le_total |Round (b.X - a.X)| |Round (b.Y - a.Y)| with h | h
    · rw [min_eq_left h, hR.abs_fixed]
    · rw [min_eq_right h, hR.abs_fixed]
  have h1 : Round ((1 : K) - 2) = -1 := by
    have : (1 : K) - 2 = -1 := by ring
    rw [this, hR.neg, hR.one]
  simp only [CalculateHeuristicFl, hh]
  simp only [reduceCtorEq, if_false, or_true, if_true]
  rw [mul_one, hR.two, h1, one_mul, hR.idem, neg_one_mul, hR.neg, hm, ← sub_eq_add_neg]

/-- Where the sum of the two absolute differences is not moved by rounding,
the value of `CalculateHeuristic` for `CHEBYSHEV` in `float` arithmetic is the
larger of the two. -/
theorem chebyshevFl_eq_max (Round : K → K) (M : FMath K) (mgr : AAIManager K)
    (hh : mgr.Heuristic = EHeuristicType.CHEBYSHEV) (hR : IsRounding Round) (a b : FVector K)
    (hsum : Round (|Round (b.X - a.X)| + |Round (b.Y - a.Y)|) =
      |Round (b.X - a.X)| + |Round (b.Y - a.Y)|) :
    CalculateHeuristicFl Round M mgr a b = max |Round (b.X - a.X)| |Round (b.Y - a.Y)| := by
  rw [chebyshevFl_eq Round M mgr hh hR a b, hsum]
  rcases le_total |Round (b.X - a.X)| |Round (b.Y - a.Y)| with h | h
  · rw [min_eq_left h, max_eq_right h, add_sub_cancel_left, hR.abs_fixed]
  · rw [min_eq_right h, max_eq_left h, add_sub_cancel_right, hR.abs_fixed]

end FloatHeuristicFacts

/-- C15, as stated, in `float` arithmetic: for the positions (0, 0, 0) and
(16777216, 1, 0) the value is 16777215 while the larger absolute difference is
16777216, and for (0, 0, 0) and (0.1f, 2, 0), where 0.1f is the `float` nearest
to 0.1, it is 2 - 2 ^ (-23) while the larger absolute difference is 2: the sum
`Dx + Dy` is rounded before the smaller difference is taken off. -/
theorem C15_chebyshev_not_max :
    CalculateHeuristicFl binary32 sqrtMath chebyshevManager ⟨0, 0, 0⟩ ⟨16777216, 1, 0⟩ = 16777215 ∧
    max |(16777216 : ℚ) - 0| |(1 : ℚ) - 0| = 16777216 ∧
    CalculateHeuristicFl binary32 sqrtMath chebyshevManager ⟨0, 0, 0⟩
      ⟨13421773 / 134217728, 2, 0⟩ = 16777215 / 8388608 ∧
    max |(13421773 / 134217728 : ℚ) - 0| |(2 : ℚ) - 0| = 2 ∧
    binary32 (1 / 10) = 13421773 / 134217728 := by
  refine ⟨by decide!, by decide!, by decide!, by decide!, by decide!⟩

/-- C15, amended: with the `CHEBYSHEV` heuristic, in `float` arithmetic,
`CalculateHeuristic(a, b)` is `Round (Round (Dx + Dy) - min Dx Dy)` for the
absolute values `Dx` and `Dy` of the rounded differences of the `X` and of the
`Y` coordinates; it is the larger of `Dx` and `Dy` when one of the two
differences is zero; it is the larger of `|b.X - a.X|` and `|b.Y - a.Y|` when
the two differences and the sum of their absolute values are not moved by
rounding; and it does not depend on the `Z` coordinates of `a` and `b`. -/
theorem C15_chebyshev_float {K : Type} [LinearOrderedCommRing K] (Round : K → K) (M : FMath K)
    (mgr : AAIManager K) (hheur : mgr.Heuristic = EHeuristicType.CHEBYSHEV)
    (hR : IsRounding Round) (a b : FVector K) :
    CalculateHeuristicFl Round M mgr a b =
      Round (Round (|Round (b.X - a.X)| + |Round (b.Y - a.Y)|) -
        min |Round (b.X - a.X)| |Round (b.Y - a.Y)|) ∧
    (b.X = a.X ∨ b.Y = a.Y →
      CalculateHeuristicFl Round M mgr a b = max |Round (b.X - a.X)| |Round (b.Y - a.Y)|) ∧
    (Round (b.X - a.X) = b.X - a.X → Round (b.Y - a.Y) = b.Y - a.Y →
      Round (|b.X - a.X| + |b.Y - a.Y|) = |b.X - a.X| + |b.Y - a.Y| →
      CalculateHeuristicFl Round M mgr a b = max |b.X - a.X| |b.Y - a.Y|) ∧
    ∀ za zb : K, CalculateHeuristicFl Round M mgr ⟨a.X, a.Y, za⟩ ⟨b.X, b.Y, zb⟩ =
      CalculateHeuristicFl Round M mgr a b := by
  refine ⟨chebyshevFl_eq Round M mgr hheur hR a b, fun haxis => ?_, fun hx hy hsum => ?_,
    fun za zb => ?_⟩
  · apply chebyshevFl_eq_max Round M mgr hheur hR a b
    rcases haxis with h | h
    · rw [h, sub_self, hR.zero, abs_zero, zero_add, hR.abs_fixed]
    · rw [h, sub_self, hR.zero, abs_zero, add_zero, hR.abs_fixed]
  · have := chebyshevFl_eq_max Round M mgr hheur hR a b (by rw [hx, hy]; exact hsum)
    rw [hx, hy] at this
    exact this
  · simp only [CalculateHeuristicFl, hheur]
    simp only [reduceCtorEq, if_false, or_true, if_true]

/-- C15, amended, with the rounding to the `float` format at the positions
(1, 2, 3) and (4, 2.5, -7), where the differences 3 and 0.5 and their sum are
numbers of the format and the estimate is 3. -/
theorem C15_chebyshev_float_witness :
    CalculateHeuristicFl binary32 sqrtMath chebyshevManager ⟨1, 2, 3⟩ ⟨4, 5 / 2, -7⟩ =
      max |(4 : ℚ) - 1| |(5 / 2 : ℚ) - 2| :=
  (C15_chebyshev_float binary32 sqrtMath chebyshevManager rfl binary32_isRounding
    ⟨1, 2, 3⟩ ⟨4, 5 / 2, -7⟩).2.2.1 (by decide!) (by decide!) (by decide!)

end AGP
